import Mathlib

/-!
# X86ReconvergenceDetection: branch reconvergence and dependent instructions

A shallow embedding of `llvm/lib/Target/X86/X86ReconvergenceDetection.cpp`.

Objects of the compiler (machine instructions, machine basic blocks) live in a
heap and are referred to by pointer; a pointer is a natural number (its
address).  `std::set<T*>` is a strictly increasing list of addresses, which is
also its iteration order.  The fields this pass adds to `MachineInstr`
(`InstructionNumber`, `reconvergence_point`, `dependent_insts`) are mutable and
live in the pass state; everything the pass only reads is in `Program`.

The `unsigned` value `functionNumber` is computed modulo 2^32.  The `unsigned`
counter `instructionNumber` counts the substantive instructions of one function
and is a natural number here, which is what the code computes for a function
with at most 2^32 of them.  The debug location the pass
attaches to every numbered instruction (line 203) is the pair of the two
numbers modelled here and is read by nothing in this file; it is left out.
An `assert` is code only in a build with assertions on, where it stops the
compiler; the embedding follows the build without them.
A work-queue loop takes a fuel argument, one unit per popped element, and
returns `none` when the fuel runs out; the theorems show that it does not.
-/

namespace Levioso

/-- What the pass reads and never writes: attributes of instructions and blocks,
addressed by pointer.  `isActualInstr` and `data_dependent` are members this
code base adds to `MachineInstr`; their declarations are not part of the file
at hand, so they are parameters.  `getFunctionNumberOf` is
`MBB->getParent()->getFunctionNumber()` of a block. -/
structure Program where
  isActualInstr : Nat → Bool
  isDebugInstr : Nat → Bool
  isConditionalBranch : Nat → Bool
  data_dependent : Nat → List Nat
  getParent : Nat → Nat
  insts : Nat → List Nat
  succs : Nat → List Nat
  getNumber : Nat → Int
  getFunctionNumberOf : Nat → Nat
  print : Nat → String

/-- A machine function: its blocks in layout order, its number, its name, and
the post-dominator tree lookup `MPT.getNode(&MBB)->getIDom()->getBlock()`,
which is null (`none`) when the immediate post-dominator is the virtual root. -/
structure MachineFunction where
  blocks : List Nat
  getFunctionNumber : Nat
  getName : String
  getIDom : Nat → Option Nat

/-- The members of the pass object, the fields the pass writes on instructions,
the report stream `info` and the diagnostic stream `errs`. -/
structure PassState where
  control_dependents : List Nat
  data_dependents : List Nat
  total_insts : List Nat
  total_dependent_insts : List Nat
  total_independent_insts : List Nat
  total_actual_insts : List Nat
  InstructionNumber : Nat → Nat
  reconvergence_point : Nat → Option Nat
  dependent_insts : Nat → List Nat
  info : String
  errs : List String

/-- The state of a freshly constructed pass: empty sets, empty streams. -/
def PassState.fresh (num : Nat → Nat) : PassState :=
  { control_dependents := [], data_dependents := [], total_insts := [],
    total_dependent_insts := [], total_independent_insts := [],
    total_actual_insts := [], InstructionNumber := num,
    reconvergence_point := fun _ => none, dependent_insts := fun _ => [],
    info := "", errs := [] }

/-- The call `std::set<T*>::insert`: the set stays ordered by address and holds
no element twice. -/
def setInsert (x : Nat) : List Nat → List Nat
  | [] => [x]
  | y :: ys =>
    if x < y then x :: y :: ys
    else if x = y then y :: ys
    else y :: setInsert x ys

/-- Inserting a range of elements, one after the other. -/
def setInsertAll (xs : List Nat) (s : List Nat) : List Nat :=
  xs.foldl (fun acc x => setInsert x acc) s

/-! ## getNextInstr and getPrevInstr -/

/-- Modelled from the spec: `MachineBasicBlock::getLastActualInstr` is declared
outside the file at hand; by its name and by the comment on `getNextInstr` it
yields the last substantive instruction of the block.  A block without one
gives no instruction to dereference (`none`). -/
def getLastActualInstr (P : Program) (MBB : Nat) : Option Nat :=
  ((P.insts MBB).filter P.isActualInstr).getLast?

/-- The `for` loop of `getNextInstr` (lines 120-124): `inst_it` follows `it` and
the loop leaves at the first instruction whose number exceeds `n`.  The result
is the part of the block from `inst_it` on; when no instruction has a larger
number, `inst_it` rests on the last one. -/
def scanPast (num : Nat → Nat) (n : Nat) : List Nat → List Nat
  | [] => []
  | [it] => [it]
  | it :: it2 :: rest =>
    if num it > n then it :: it2 :: rest else scanPast num n (it2 :: rest)

/-- The `while (true)` loop of `getNextInstr` (lines 126-134): step over
instructions that are not substantive.  Walking off the end of the block has no
defined result (`none`). -/
def skipToActual (P : Program) : List Nat → Option Nat
  | [] => none
  | it :: rest => if P.isActualInstr it then some it else skipToActual P rest

/-- The function `getNextInstr`.  The outer `Option` is `none` where the source
has no defined behaviour (it dereferences a missing last instruction or walks
off the block); the inner one is the returned pointer, `none` for `nullptr`.
The two `assert`s are the caller's obligation and do not change the result. -/
def getNextInstr (P : Program) (num : Nat → Nat) (MI : Nat) : Option (Option Nat) :=
  let parentBB := P.getParent MI
  match getLastActualInstr P parentBB with
  | none => none
  | some lastInstr =>
    if num MI < num lastInstr then
      (skipToActual P (scanPast num (num MI) (P.insts parentBB))).map some
    else some none

/-- The loop of `getPrevInstr` (lines 151-166) over the rest of the block, with
the current value of `prev_inst`.  The `assert` on a string literal in the last
branch never fires, so the loop goes on. -/
def getPrevInstrLoop (P : Program) (num : Nat → Nat) (MI : Nat) :
    List Nat → Option Nat → Option Nat
  | [], prev_inst => prev_inst
  | it :: rest, prev_inst =>
    if !P.isActualInstr it then getPrevInstrLoop P num MI rest prev_inst
    else if num it < num MI then getPrevInstrLoop P num MI rest (some it)
    else if num it = num MI then prev_inst
    else getPrevInstrLoop P num MI rest prev_inst

/-- The function `getPrevInstr`: `none` is `nullptr`.  The block is the one the
instruction names as its parent. -/
def getPrevInstr (P : Program) (num : Nat → Nat) (MI : Nat) : Option Nat :=
  getPrevInstrLoop P num MI (P.insts (P.getParent MI)) none

/-! ## First step: control dependents -/

/-- The locals of the first step. -/
structure BBState where
  bb_queue : List Nat
  visited_bb_numbers : List Int
  reachable_blocks : List Nat

/-- Lines 238-242: the successors of the branch's block, except those numbered
like the reconvergence point. -/
def initQueue (P : Program) (MBB R : Nat) : List Nat :=
  (P.succs MBB).filter (fun s => P.getNumber s != P.getNumber R)

/-- Lines 250-260: the successors of a popped block. -/
def expandSuccs (P : Program) (R : Nat) : List Nat → BBState → BBState
  | [], st => st
  | p :: ps, st =>
    if P.getNumber p ≠ P.getNumber R ∧ P.getNumber p ∉ st.visited_bb_numbers then
      expandSuccs P R ps
        { bb_queue := st.bb_queue ++ [p],
          visited_bb_numbers := st.visited_bb_numbers ++ [P.getNumber p],
          reachable_blocks := setInsert p st.reachable_blocks }
    else expandSuccs P R ps st

/-- Lines 245-261: the work-queue loop; one unit of fuel per popped block. -/
def bbLoop (P : Program) (R : Nat) : Nat → BBState → Option BBState
  | 0, st => if st.bb_queue = [] then some st else none
  | fuel + 1, st =>
    match st.bb_queue with
    | [] => some st
    | temp_bb :: q => bbLoop P R fuel (expandSuccs P R (P.succs temp_bb) { st with bb_queue := q })

/-- Lines 264-270: all instructions of the reachable blocks. -/
def collectInsts (P : Program) : List Nat → List Nat → List Nat
  | [], cd => cd
  | b :: bs, cd => collectInsts P bs (setInsertAll (P.insts b) cd)

/-- The first step as a whole: the set `reachable_blocks`. -/
def reachableBlocks (P : Program) (fuel MBB R : Nat) : Option (List Nat) :=
  (bbLoop P R fuel
    { bb_queue := initQueue P MBB R, visited_bb_numbers := [], reachable_blocks := [] }).map
    (fun st => st.reachable_blocks)

/-! ## Second step: data dependents -/

/-- The locals of the second step, with the member `data_dependents`. -/
structure DDState where
  inst_queue : List Nat
  processed_insts : List Nat
  data_dependents : List Nat

/-- Lines 279-285: the branch, its compare, the substantive control dependents. -/
def seedQueue (P : Program) (num : Nat → Nat) (inst : Nat) (cd : List Nat) : List Nat :=
  inst :: ((getPrevInstr P num inst).toList ++ cd.filter P.isActualInstr)

/-- Lines 299-320: the direct data dependents of the instruction in process. -/
def expandDeps (P : Program) (num : Nat → Nat) (T : List Nat) : List Nat → DDState → Option DDState
  | [], s => some s
  | d :: ds, s =>
    if !P.isActualInstr d then expandDeps P num T ds s
    else if d ∉ T then expandDeps P num T ds s
    else
      let s1 : DDState :=
        { s with data_dependents := setInsert d s.data_dependents,
                 inst_queue := s.inst_queue ++ [d] }
      match getNextInstr P num d with
      | none => none
      | some none => expandDeps P num T ds s1
      | some (some next_inst) =>
        if P.isConditionalBranch next_inst = true ∧ next_inst ∉ s1.processed_insts then
          expandDeps P num T ds
            { s1 with data_dependents := setInsert next_inst s1.data_dependents,
                      inst_queue := s1.inst_queue ++ [next_inst] }
        else expandDeps P num T ds s1

/-- Lines 288-321: the frontier loop; one unit of fuel per popped instruction. -/
def ddLoop (P : Program) (num : Nat → Nat) (T : List Nat) : Nat → DDState → Option DDState
  | 0, s => if s.inst_queue = [] then some s else none
  | fuel + 1, s =>
    match s.inst_queue with
    | [] => some s
    | Inst :: q =>
      if Inst ∈ s.processed_insts then ddLoop P num T fuel { s with inst_queue := q }
      else
        (expandDeps P num T (P.data_dependent Inst)
          { s with inst_queue := q,
                   processed_insts := setInsert Inst s.processed_insts }).bind
          (ddLoop P num T fuel)

/-- The first and second step for one branch: `control_dependents` and
`data_dependents` as they stand at line 322. -/
def branchSets (P : Program) (num : Nat → Nat) (T : List Nat) (fuel MBB R inst : Nat) :
    Option (List Nat × List Nat) :=
  (reachableBlocks P fuel MBB R).bind fun reachable_blocks =>
    let cd := collectInsts P reachable_blocks []
    (ddLoop P num T fuel
      { inst_queue := seedQueue P num inst cd, processed_insts := [],
        data_dependents := [] }).map
      (fun s => (cd, s.data_dependents))

/-! ## Third step and the loop over the function -/

/-- Lines 325-338, for one of the two target sets: the control dependents that
are not debug instructions, then the substantive data dependents. -/
def mergeDependents (P : Program) (cd dd : List Nat) (target : List Nat) : List Nat :=
  setInsertAll (dd.filter P.isActualInstr)
    (setInsertAll (cd.filter (fun x => !P.isDebugInstr x)) target)

/-- Lines 223-338: the body of the `if` for one conditional branch that has a
reconvergence point. -/
def analyseBranch (P : Program) (fuel MBB R inst : Nat) (st : PassState) : Option PassState :=
  (branchSets P st.InstructionNumber st.total_actual_insts fuel MBB R inst).map fun sets =>
    { st with
      reconvergence_point := Function.update st.reconvergence_point inst (some R),
      control_dependents := sets.1,
      data_dependents := sets.2,
      dependent_insts := Function.update st.dependent_insts inst (mergeDependents P sets.1 sets.2 []),
      total_dependent_insts := mergeDependents P sets.1 sets.2 st.total_dependent_insts }

/-- Lines 216-340: the instructions of one block. -/
def analyseInsts (P : Program) (fuel MBB : Nat) (reconvergence_point : Option Nat) :
    List Nat → PassState → Option PassState
  | [], st => some st
  | inst :: rest, st =>
    let st1 : PassState := { st with total_insts := setInsert inst st.total_insts }
    match reconvergence_point with
    | some R =>
      if P.isConditionalBranch inst then
        (analyseBranch P fuel MBB R inst st1).bind
          (analyseInsts P fuel MBB reconvergence_point rest)
      else analyseInsts P fuel MBB reconvergence_point rest st1
    | none => analyseInsts P fuel MBB reconvergence_point rest st1

/-- Lines 211-341: the blocks of the function. -/
def analyseBlocks (P : Program) (MF : MachineFunction) (fuel : Nat) :
    List Nat → PassState → Option PassState
  | [], st => some st
  | MBB :: rest, st =>
    (analyseInsts P fuel MBB (MF.getIDom MBB) (P.insts MBB) st).bind
      (analyseBlocks P MF fuel rest)

/-! ## Instruction numbering -/

/-- Lines 192-204 for one instruction; the counter travels with the state. -/
def numberInst (P : Program) (PrintDependency : Bool) (c : Nat × PassState) (inst : Nat) :
    Nat × PassState :=
  if P.isActualInstr inst then
    (c.1 + 1,
     { c.2 with
       InstructionNumber := Function.update c.2.InstructionNumber inst c.1,
       total_actual_insts := setInsert inst c.2.total_actual_insts,
       errs := if PrintDependency then
           c.2.errs ++ ["[InstructionNumber: " ++ toString c.1 ++ "] ", P.print inst]
         else c.2.errs })
  else c

/-- Lines 183-206 for one block. -/
def numberBlock (P : Program) (PrintDependency : Bool) (c : Nat × PassState) (MBB : Nat) :
    Nat × PassState :=
  (P.insts MBB).foldl (numberInst P PrintDependency)
    (c.1,
     { c.2 with
       errs := if PrintDependency then
           c.2.errs ++ ["===================\n",
             "BB Number: " ++ toString (P.getNumber MBB) ++ "\n",
             "===================\n"]
         else c.2.errs })

/-- Lines 182-206: the numbering of the whole function, from 0. -/
def numberFunction (P : Program) (PrintDependency : Bool) (MF : MachineFunction)
    (st : PassState) : Nat × PassState :=
  MF.blocks.foldl (numberBlock P PrintDependency) (0, st)

/-! ## Final step: the report -/

/-- Lines 368-372: one line per member of the set that is no debug instruction. -/
def dependentLines (P : Program) (num : Nat → Nat) (functionNumber : Nat) : List Nat → String
  | [] => ""
  | d :: ds =>
    (if !P.isDebugInstr d then
        toString (num d) ++ " " ++ toString functionNumber ++ "\n"
      else "") ++ dependentLines P num functionNumber ds

/-- Lines 365-373: what one analysed branch adds to the report. -/
def branchRecord (P : Program) (st : PassState) (functionNumber inst : Nat) : String :=
  "* " ++ toString (st.InstructionNumber inst) ++ "  " ++ toString functionNumber ++ "\n"
    ++ dependentLines P st.InstructionNumber functionNumber (st.dependent_insts inst)
    ++ "---\n"

/-- Lines 356-361: the verbose dump of the dependents. -/
def verboseDependents (P : Program) (st : PassState) : List Nat → List String
  | [] => []
  | d :: ds =>
    ["     Inst: " ++ toString (st.InstructionNumber d) ++ ", BB: "
        ++ toString (P.getNumber (P.getParent d)) ++ ", F: "
        ++ toString ((P.getFunctionNumberOf (P.getParent d) + 10000) % 4294967296) ++ "\n",
      P.print d, "\n"]
      ++ verboseDependents P st ds

/-- Lines 348-377: the diagnostics around one record. -/
def verboseRecord (P : Program) (st : PassState) (functionNumber MBB inst : Nat) : List String :=
  ["**** RECONVERGENCE INFO ****\n",
   "Branch: " ++ toString (st.InstructionNumber inst) ++ " (BB: "
      ++ toString (P.getNumber MBB) ++ ", F: " ++ toString functionNumber ++ ")\n",
   "Reconvergence Point: "
      ++ (match st.reconvergence_point inst with
          | some r => toString (P.getNumber r)
          | none => "") ++ "\n",
   "\nDependent Instructions:\n"]
    ++ verboseDependents P st (st.dependent_insts inst)
    ++ ["****************************\n"]

/-- Lines 346-379: the instructions of one block. -/
def dumpInsts (P : Program) (PrintDependency : Bool) (functionNumber MBB : Nat)
    (bb : Option Nat) : List Nat → PassState → PassState
  | [], st => st
  | inst :: rest, st =>
    if P.isConditionalBranch inst = true ∧ bb ≠ none then
      dumpInsts P PrintDependency functionNumber MBB bb rest
        { st with
          info := st.info ++ branchRecord P st functionNumber inst,
          errs := if PrintDependency then
              st.errs ++ verboseRecord P st functionNumber MBB inst
            else st.errs }
    else dumpInsts P PrintDependency functionNumber MBB bb rest st

/-- Lines 344-380: the blocks of the function. -/
def dumpBlocks (P : Program) (PrintDependency : Bool) (MF : MachineFunction)
    (functionNumber : Nat) : List Nat → PassState → PassState
  | [], st => st
  | MBB :: rest, st =>
    dumpBlocks P PrintDependency MF functionNumber rest
      (dumpInsts P PrintDependency functionNumber MBB (MF.getIDom MBB) (P.insts MBB) st)

/-- Lines 174-178: the banner of the diagnostic stream. -/
def printBanner (PrintDependency : Bool) (MF : MachineFunction) (functionNumber : Nat)
    (st : PassState) : PassState :=
  { st with
    errs := if PrintDependency then
        st.errs ++ ["-------------------------------------------------------------------------------------------------------------------\n",
          "[X86 Reconvergence Detection] Machine Function: " ++ MF.getName
            ++ ", Function Number: " ++ toString functionNumber ++ "\n",
          "-------------------------------------------------------------------------------------------------------------------\n"]
      else st.errs }

/-- The function `runOnMachineFunction`: numbering, analysis of every branch,
report.  `fuel` bounds each of the two work-queue loops of a branch. -/
def runOnMachineFunction (P : Program) (PrintDependency : Bool) (fuel : Nat)
    (MF : MachineFunction) (st : PassState) : Option PassState :=
  let functionNumber := (10000 + MF.getFunctionNumber) % 4294967296
  let st0 := printBanner PrintDependency MF functionNumber st
  let st1 := (numberFunction P PrintDependency MF st0).2
  (analyseBlocks P MF fuel MF.blocks st1).map
    (dumpBlocks P PrintDependency MF functionNumber MF.blocks)

/-! ## Measures and well-formedness used in the proofs -/

/-- The work still to be done by the frontier loop on the instructions of `U`
that are not processed: two pushes at most per data-dependency edge. -/
def expansionCost (P : Program) (processed : List Nat) : List Nat → Nat
  | [] => 0
  | u :: us =>
    (if u ∈ processed then 0 else 2 * (P.data_dependent u).length)
      + expansionCost P processed us

/-- Every instruction the frontier loop can ever hold: the seeds, the universe
`T`, and what `getNextInstr` returns on `T`. -/
def frontierUniverse (P : Program) (num : Nat → Nat) (T seeds : List Nat) : List Nat :=
  (seeds ++ T ++ T.filterMap (fun d => (getNextInstr P num d).join)).dedup

/-- A fuel that is enough for the frontier loop started on `seeds`. -/
def frontierFuel (P : Program) (num : Nat → Nat) (T seeds : List Nat) : Nat :=
  seeds.length + expansionCost P [] (frontierUniverse P num T seeds)

/-- The branch `inst` of block `MBB` is analysed in `MF`, with reconvergence
point `R`: the guard of line 221 holds for it. -/
def Analysed (P : Program) (MF : MachineFunction) (MBB R inst : Nat) : Prop :=
  MBB ∈ MF.blocks ∧ MF.getIDom MBB = some R ∧ inst ∈ P.insts MBB ∧
    P.isConditionalBranch inst = true

/-- The set `D` is the final dependent set the third step forms from the sets
`cd` and `dd` that the first two steps compute for the branch `inst`. -/
def BranchResult (P : Program) (num : Nat → Nat) (T : List Nat) (fuel MBB R inst : Nat)
    (cd dd D : List Nat) : Prop :=
  branchSets P num T fuel MBB R inst = some (cd, dd) ∧ D = mergeDependents P cd dd []

/-- The conditional branches the report has a record for, in the order of the
final loop: block layout order, then the order inside the block. -/
def analysedBranches (P : Program) (MF : MachineFunction) : List Nat → List Nat
  | [] => []
  | MBB :: rest =>
    (if (MF.getIDom MBB).isSome then (P.insts MBB).filter P.isConditionalBranch else [])
      ++ analysedBranches P MF rest

/-- The records of a list of branches, one after the other. -/
def reportOf (P : Program) (st : PassState) (functionNumber : Nat) : List Nat → String
  | [] => ""
  | inst :: rest => branchRecord P st functionNumber inst ++ reportOf P st functionNumber rest

/-- The instructions of a list of blocks, in layout order. -/
def layout (P : Program) : List Nat → List Nat
  | [] => []
  | MBB :: rest => P.insts MBB ++ layout P rest

/-- The shape every machine function has: successors and immediate
post-dominators are blocks of the function, and every instruction of a block
has that block as its parent. -/
def WellFormed (P : Program) (MF : MachineFunction) : Prop :=
  (∀ b ∈ MF.blocks, ∀ s ∈ P.succs b, s ∈ MF.blocks) ∧
  (∀ b ∈ MF.blocks, ∀ r, MF.getIDom b = some r → r ∈ MF.blocks) ∧
  (∀ b ∈ MF.blocks, ∀ i ∈ P.insts b, P.getParent i = b)

/-- The instructions that earlier runs left in `total_actual_insts` lie in
their parent blocks. -/
def UniverseInBlocks (P : Program) (st : PassState) : Prop :=
  ∀ d ∈ st.total_actual_insts, P.isActualInstr d = true → d ∈ P.insts (P.getParent d)

/-- The line of the report for the dependent `d`. -/
def dependentLine (num : Nat → Nat) (functionNumber d : Nat) : String :=
  toString (num d) ++ " " ++ toString functionNumber ++ "\n"

/-- One line of the report per element of the list, in order. -/
def linesOf (num : Nat → Nat) (functionNumber : Nat) : List Nat → String
  | [] => ""
  | d :: ds => dependentLine num functionNumber d ++ linesOf num functionNumber ds

instance (P : Program) (MF : MachineFunction) (MBB R inst : Nat) :
    Decidable (Analysed P MF MBB R inst) := by
  unfold Analysed; infer_instance

instance (P : Program) (MF : MachineFunction) : Decidable (WellFormed P MF) := by
  unfold WellFormed; infer_instance

instance (P : Program) (st : PassState) : Decidable (UniverseInBlocks P st) := by
  unfold UniverseInBlocks; infer_instance

/-! ## Invariants of the loops -/

/-- What the block loop keeps true: every block queued or recorded lies in
`blocks`, no number is recorded twice, and no recorded block is numbered like
the reconvergence point. -/
structure BBInv (P : Program) (R : Nat) (blocks : List Nat) (st : BBState) : Prop where
  queue_mem : ∀ b ∈ st.bb_queue, b ∈ blocks
  visited_nodup : st.visited_bb_numbers.Nodup
  visited_sub : ∀ n ∈ st.visited_bb_numbers, n ∈ blocks.map P.getNumber
  reach_mem : ∀ b ∈ st.reachable_blocks, b ∈ blocks
  reach_ne : ∀ b ∈ st.reachable_blocks, P.getNumber b ≠ P.getNumber R
  reach_sorted : st.reachable_blocks.Sorted (· < ·)

/-- What the frontier loop keeps true, for the seeds it was started with. -/
structure DDInv (P : Program) (num : Nat → Nat) (T seeds : List Nat) (s : DDState) : Prop where
  closed : ∀ x ∈ s.processed_insts, ∀ d ∈ P.data_dependent x,
    P.isActualInstr d = true → d ∈ T → d ∈ s.data_dependents
  nested : ∀ x ∈ s.processed_insts, ∀ d ∈ P.data_dependent x,
    P.isActualInstr d = true → d ∈ T → ∀ nx, getNextInstr P num d = some (some nx) →
    P.isConditionalBranch nx = true → nx ∈ s.data_dependents ∨ nx ∈ seeds
  pending : ∀ x, x ∈ seeds ∨ x ∈ s.data_dependents →
    x ∈ s.inst_queue ∨ x ∈ s.processed_insts
  origin : ∀ x, x ∈ s.inst_queue ∨ x ∈ s.processed_insts →
    x ∈ seeds ∨ x ∈ s.data_dependents
  sound : ∀ x ∈ s.data_dependents, (P.isActualInstr x = true ∧ x ∈ T) ∨
    ∃ d ∈ T, P.isActualInstr d = true ∧ getNextInstr P num d = some (some x) ∧
      P.isConditionalBranch x = true
  sorted : s.data_dependents.Sorted (· < ·)

/-- How a stretch `l` of the numbering loop takes the counter and the state
from `(c, st)` to `(c2, st2)`. -/
structure Numbered (P : Program) (l : List Nat) (c : Nat) (st : PassState) (c2 : Nat)
    (st2 : PassState) : Prop where
  counter : c2 = c + (l.filter P.isActualInstr).length
  keep : ∀ i, i ∉ l.filter P.isActualInstr → st2.InstructionNumber i = st.InstructionNumber i
  numbers : (l.filter P.isActualInstr).Nodup →
    (l.filter P.isActualInstr).map st2.InstructionNumber
      = List.range' c (l.filter P.isActualInstr).length
  bound : ∀ i ∈ l.filter P.isActualInstr,
    c ≤ st2.InstructionNumber i ∧ st2.InstructionNumber i < c2
  univ : ∀ x, x ∈ st2.total_actual_insts ↔
    x ∈ st.total_actual_insts ∨ x ∈ l.filter P.isActualInstr
  sorted : st.total_actual_insts.Sorted (· < ·) → st2.total_actual_insts.Sorted (· < ·)
  info : st2.info = st.info
  deps : st2.dependent_insts = st.dependent_insts
  rp : st2.reconvergence_point = st.reconvergence_point

/-! ## Further notions used in the statements -/

/-- The state with the diagnostic stream replaced. -/
def PassState.setErrs (st : PassState) (e : List String) : PassState :=
  { st with errs := e }

/-- The blocks the first step can record, by block identity: a successor other
than `R` of a successor of `MBB` other than `R`, or of a block that can be
recorded. -/
inductive ControlReach (P : Program) (MBB R : Nat) : Nat → Prop
  | start (X Y : Nat) : X ∈ P.succs MBB → X ≠ R → Y ∈ P.succs X → Y ≠ R →
      ControlReach P MBB R Y
  | step (X Y : Nat) : ControlReach P MBB R X → Y ∈ P.succs X → Y ≠ R →
      ControlReach P MBB R Y

/-- An edge of the graph neither end of which is the block `R`. -/
def edgeAvoiding (P : Program) (R : Nat) (a b : Nat) : Prop :=
  b ∈ P.succs a ∧ a ≠ R ∧ b ≠ R

/-- All successors of `X` that are not numbered like `R` have their number in
`visited`. -/
def Expanded (P : Program) (R : Nat) (visited : List Int) (X : Nat) : Prop :=
  ∀ Y ∈ P.succs X, P.getNumber Y ≠ P.getNumber R → P.getNumber Y ∈ visited

/-- What the block loop keeps true about what it has recorded; `skip` marks the
block whose successors are being gone through. -/
structure BBExact (P : Program) (MBB R : Nat) (skip : Nat → Prop) (st : BBState) : Prop where
  vis_reach : ∀ n ∈ st.visited_bb_numbers, ∃ b ∈ st.reachable_blocks, P.getNumber b = n
  reach_vis : ∀ b ∈ st.reachable_blocks, P.getNumber b ∈ st.visited_bb_numbers
  pending : ∀ Z, (Z ∈ initQueue P MBB R ∨ Z ∈ st.reachable_blocks) →
    skip Z ∨ Z ∈ st.bb_queue ∨ Expanded P R st.visited_bb_numbers Z
  sound : ∀ Y ∈ st.reachable_blocks, ControlReach P MBB R Y
  queue_sound : ∀ X ∈ st.bb_queue, X ∈ initQueue P MBB R ∨ X ∈ st.reachable_blocks

/-- The instructions the second step can put in `data_dependents` when started
on `seeds`: a substantive consumer in the universe `T` of a seed or of such an
instruction (`edge`), and the conditional branch `getNextInstr` returns for
such a consumer (`next`). -/
inductive Derived (P : Program) (num : Nat → Nat) (T seeds : List Nat) : Nat → Prop
  | edge_seed (src d : Nat) : src ∈ seeds → d ∈ P.data_dependent src →
      P.isActualInstr d = true → d ∈ T → Derived P num T seeds d
  | edge_member (src d : Nat) : Derived P num T seeds src → d ∈ P.data_dependent src →
      P.isActualInstr d = true → d ∈ T → Derived P num T seeds d
  | next_seed (src d nx : Nat) : src ∈ seeds → d ∈ P.data_dependent src →
      P.isActualInstr d = true → d ∈ T → getNextInstr P num d = some (some nx) →
      P.isConditionalBranch nx = true → Derived P num T seeds nx
  | next_member (src d nx : Nat) : Derived P num T seeds src → d ∈ P.data_dependent src →
      P.isActualInstr d = true → d ∈ T → getNextInstr P num d = some (some nx) →
      P.isConditionalBranch nx = true → Derived P num T seeds nx

/-- The nearest substantive instruction before `MI` in the block of `MI`: the
last substantive one among the instructions that come before `MI`. -/
def prevSubstantive (P : Program) (MI : Nat) : Option Nat :=
  (((P.insts (P.getParent MI)).takeWhile (fun i => i != MI)).filter P.isActualInstr).getLast?

/-- The first substantive instruction of a block. -/
def firstSubstantive (P : Program) (MBB : Nat) : Option Nat :=
  ((P.insts MBB).filter P.isActualInstr).head?

/-- The nearest substantive instruction after `MI` in the block of `MI`: the
first substantive one among the instructions that come after `MI`. -/
def nextSubstantive (P : Program) (MI : Nat) : Option Nat :=
  (((P.insts (P.getParent MI)).dropWhile (fun i => i != MI)).tail.filter P.isActualInstr).head?

/-- The value of a decimal digit character. -/
def digitValue (c : Char) : Nat := c.toNat - 48

/-- The number a list of decimal digits reads as, going on from `acc`. -/
def decimalValue (acc : Nat) : List Char → Nat
  | [] => acc
  | c :: cs => decimalValue (10 * acc + digitValue c) cs

/-! ## Concrete functions

In all of them the instruction at address `10 * b + k` is the `k`-th
instruction of the block at address `b`, and a block's number is its address. -/

/-- The diamond B1 -> {B2, B3} -> B4: B1 ends in the conditional branch 11, B2
and B3 hold one substantive instruction each, nothing has a consumer. -/
def diamondP : Program :=
  { isActualInstr := fun _ => true
    isDebugInstr := fun _ => false
    isConditionalBranch := fun i => i == 11
    data_dependent := fun _ => []
    getParent := fun i => i / 10
    insts := fun b =>
      if b = 1 then [10, 11] else if b = 2 then [20] else if b = 3 then [30]
      else if b = 4 then [40] else []
    succs := fun b => if b = 1 then [2, 3] else if b = 2 then [4] else if b = 3 then [4] else []
    getNumber := fun b => b
    getFunctionNumberOf := fun _ => 0
    print := fun _ => "" }

/-- The diamond as a function: B4 post-dominates B1, B2 and B3. -/
def diamondF : MachineFunction :=
  { blocks := [1, 2, 3, 4], getFunctionNumber := 0, getName := "diamond",
    getIDom := fun b => if b = 1 ∨ b = 2 ∨ b = 3 then some 4 else none }

/-- The chain B1 -> B2 -> B3 -> B4 with the edge B1 -> B4.  B1 holds the
compare 10 and the two conditional branches 11 and 12 that read it; the
instruction 30 of B3 feeds the compare 10. -/
def nestedP : Program :=
  { isActualInstr := fun _ => true
    isDebugInstr := fun _ => false
    isConditionalBranch := fun i => i == 11 || i == 12
    data_dependent := fun i => if i = 30 then [10] else []
    getParent := fun i => i / 10
    insts := fun b =>
      if b = 1 then [10, 11, 12] else if b = 2 then [20] else if b = 3 then [30]
      else if b = 4 then [40] else []
    succs := fun b => if b = 1 then [2, 4] else if b = 2 then [3] else if b = 3 then [4] else []
    getNumber := fun b => b
    getFunctionNumberOf := fun _ => 0
    print := fun _ => "" }

/-- The chain as a function: B4 post-dominates B1 and B3, B3 post-dominates B2. -/
def nestedF : MachineFunction :=
  { blocks := [1, 2, 3, 4], getFunctionNumber := 0, getName := "nested",
    getIDom := fun b => if b = 1 ∨ b = 3 then some 4 else if b = 2 then some 3 else none }

/-- A loop: B1 -> {B2, B4}, B2 -> B3, B3 -> {B2, B1, B4}, B4 -> B4.  The
branches are 11 (in B1) and 31 (in B3); 21 is a debug instruction in B2; the
data edges 10 -> 30 -> 10 form a cycle and 10 also points to the debug
instruction. -/
def loopP : Program :=
  { isActualInstr := fun i => i != 21
    isDebugInstr := fun i => i == 21
    isConditionalBranch := fun i => i == 11 || i == 31
    data_dependent := fun i => if i = 10 then [30, 21] else if i = 30 then [10] else []
    getParent := fun i => i / 10
    insts := fun b =>
      if b = 1 then [10, 11] else if b = 2 then [20, 21] else if b = 3 then [30, 31]
      else if b = 4 then [40] else []
    succs := fun b =>
      if b = 1 then [2, 4] else if b = 2 then [3] else if b = 3 then [2, 1, 4]
      else if b = 4 then [4] else []
    getNumber := fun b => b
    getFunctionNumberOf := fun _ => 7
    print := fun _ => "" }

/-- The loop as a function, number 7: B4 post-dominates B1 and B3, B3
post-dominates B2. -/
def loopF : MachineFunction :=
  { blocks := [1, 2, 3, 4], getFunctionNumber := 7, getName := "loop",
    getIDom := fun b => if b = 1 ∨ b = 3 then some 4 else if b = 2 then some 3 else none }

/-- A branch whose two successors end the function each on its own. -/
def exitsP : Program :=
  { isActualInstr := fun _ => true
    isDebugInstr := fun _ => false
    isConditionalBranch := fun i => i == 11
    data_dependent := fun i => if i = 10 then [20] else []
    getParent := fun i => i / 10
    insts := fun b =>
      if b = 1 then [10, 11] else if b = 2 then [20] else if b = 3 then [30] else []
    succs := fun b => if b = 1 then [2, 3] else []
    getNumber := fun b => b
    getFunctionNumberOf := fun _ => 0
    print := fun _ => "" }

/-- The function of `exitsP`: no block has an immediate post-dominator. -/
def exitsF : MachineFunction :=
  { blocks := [1, 2, 3], getFunctionNumber := 0, getName := "exits",
    getIDom := fun _ => none }

/-- Two functions in one module.  The first is the block B1 with the
instruction 10.  The second is B2 -> B3 with the compare 20 and the branch 21
in B2; a data edge leads from 20 to the instruction 10 of the first function. -/
def moduleP : Program :=
  { isActualInstr := fun _ => true
    isDebugInstr := fun _ => false
    isConditionalBranch := fun i => i == 21
    data_dependent := fun i => if i = 20 then [10] else []
    getParent := fun i => i / 10
    insts := fun b =>
      if b = 1 then [10] else if b = 2 then [20, 21] else if b = 3 then [30] else []
    succs := fun b => if b = 2 then [3] else []
    getNumber := fun b => b
    getFunctionNumberOf := fun b => if b = 1 then 0 else 1
    print := fun _ => "" }

/-- The first function of `moduleP`. -/
def firstF : MachineFunction :=
  { blocks := [1], getFunctionNumber := 0, getName := "first", getIDom := fun _ => none }

/-- The second function of `moduleP`: B3 post-dominates B2. -/
def secondF : MachineFunction :=
  { blocks := [2, 3], getFunctionNumber := 1, getName := "second",
    getIDom := fun b => if b = 2 then some 3 else none }

/-- A compare feeding a nested compare-and-branch: B1 -> {B2, B4},
B2 -> {B3, B4}, B3 -> B4.  The compare 10 of B1 feeds the compare 20 of B2,
which is followed by the branch 21; no data edge leads to 21. -/
def feedP : Program :=
  { isActualInstr := fun _ => true
    isDebugInstr := fun _ => false
    isConditionalBranch := fun i => i == 11 || i == 21
    data_dependent := fun i => if i = 10 then [20] else []
    getParent := fun i => i / 10
    insts := fun b =>
      if b = 1 then [10, 11] else if b = 2 then [20, 21] else if b = 3 then [30]
      else if b = 4 then [40] else []
    succs := fun b =>
      if b = 1 then [2, 4] else if b = 2 then [3, 4] else if b = 3 then [4] else []
    getNumber := fun b => b
    getFunctionNumberOf := fun _ => 0
    print := fun _ => "" }

/-- The function of `feedP`: B4 post-dominates B1, B2 and B3. -/
def feedF : MachineFunction :=
  { blocks := [1, 2, 3, 4], getFunctionNumber := 0, getName := "feed",
    getIDom := fun b => if b = 1 ∨ b = 2 ∨ b = 3 then some 4 else none }

/-- The state a fresh pass starts from; no instruction carries a number yet. -/
def freshState : PassState := PassState.fresh (fun _ => 0)

/-- The state after the pass has run on `loopF`. -/
def loopState : PassState :=
  (runOnMachineFunction loopP false 20 loopF freshState).getD freshState

/-- The state after the pass has run on `nestedF`. -/
def nestedState : PassState :=
  (runOnMachineFunction nestedP false 20 nestedF freshState).getD freshState

/-- The state after the pass has run on `feedF`. -/
def feedState : PassState :=
  (runOnMachineFunction feedP false 20 feedF freshState).getD freshState

/-- The state after the pass has run on `exitsF`. -/
def exitsState : PassState :=
  (runOnMachineFunction exitsP false 20 exitsF freshState).getD freshState

/-! ## Further concrete functions -/

/-- The chain B1 -> B2 -> B3 -> B4 -> B5 with the edge B1 -> B5.  B1 ends in
the branch 11; B3 holds the instruction 30, which feeds the compare 40 of B4;
the branch 41 follows the compare. -/
def orderP : Program :=
  { isActualInstr := fun _ => true
    isDebugInstr := fun _ => false
    isConditionalBranch := fun i => i == 11 || i == 41
    data_dependent := fun i => if i = 30 then [40] else []
    getParent := fun i => i / 10
    insts := fun b =>
      if b = 1 then [10, 11] else if b = 2 then [20] else if b = 3 then [30]
      else if b = 4 then [40, 41] else if b = 5 then [50] else []
    succs := fun b =>
      if b = 1 then [2, 5] else if b = 2 then [3] else if b = 3 then [4]
      else if b = 4 then [5] else []
    getNumber := fun b => b
    getFunctionNumberOf := fun _ => 0
    print := fun _ => "" }

/-- The same function with the instruction of B3 at the address 60 instead of
30, behind the instructions of B4 in memory. -/
def orderP2 : Program :=
  { isActualInstr := fun _ => true
    isDebugInstr := fun _ => false
    isConditionalBranch := fun i => i == 11 || i == 41
    data_dependent := fun i => if i = 60 then [40] else []
    getParent := fun i => if i = 60 then 3 else i / 10
    insts := fun b =>
      if b = 1 then [10, 11] else if b = 2 then [20] else if b = 3 then [60]
      else if b = 4 then [40, 41] else if b = 5 then [50] else []
    succs := fun b =>
      if b = 1 then [2, 5] else if b = 2 then [3] else if b = 3 then [4]
      else if b = 4 then [5] else []
    getNumber := fun b => b
    getFunctionNumberOf := fun _ => 0
    print := fun _ => "" }

/-- The function of `orderP` and `orderP2`: B5 post-dominates B1 and B4, B3
post-dominates B2, B4 post-dominates B3. -/
def orderF : MachineFunction :=
  { blocks := [1, 2, 3, 4, 5], getFunctionNumber := 0, getName := "order",
    getIDom := fun b =>
      if b = 1 ∨ b = 4 then some 5 else if b = 2 then some 3 else if b = 3 then some 4
      else none }

/-- The state after the pass has run on `orderF` with the addresses of `orderP`. -/
def orderState : PassState :=
  (runOnMachineFunction orderP false 20 orderF freshState).getD freshState

/-- The state after the pass has run on `orderF` with the addresses of `orderP2`. -/
def orderState2 : PassState :=
  (runOnMachineFunction orderP2 false 20 orderF freshState).getD freshState

/-- The chain B1 -> B2 -> B3 -> B4 with the edge B1 -> B4, where B3 starts with
the instruction 30 that is neither substantive nor a debug instruction (a
label, say) and goes on with the substantive instruction 31. -/
def metaP : Program :=
  { isActualInstr := fun i => i != 30
    isDebugInstr := fun _ => false
    isConditionalBranch := fun i => i == 11
    data_dependent := fun _ => []
    getParent := fun i => i / 10
    insts := fun b =>
      if b = 1 then [10, 11] else if b = 2 then [20] else if b = 3 then [30, 31]
      else if b = 4 then [40] else []
    succs := fun b => if b = 1 then [2, 4] else if b = 2 then [3] else if b = 3 then [4] else []
    getNumber := fun b => b
    getFunctionNumberOf := fun _ => 0
    print := fun _ => "" }

/-- The function of `metaP`: B4 post-dominates B1 and B3, B3 post-dominates B2. -/
def metaF : MachineFunction :=
  { blocks := [1, 2, 3, 4], getFunctionNumber := 0, getName := "meta",
    getIDom := fun b => if b = 1 ∨ b = 3 then some 4 else if b = 2 then some 3 else none }

/-- The state after the pass has run on `metaF`. -/
def metaState : PassState :=
  (runOnMachineFunction metaP false 20 metaF freshState).getD freshState

/-- The chain B1 -> B2 with B2 the reconvergence point of the branch 11 of B1.
B2 starts with the debug instruction 20, which is not substantive, and goes on
with the instruction 21, a consumer of the compare 10, and the conditional
branch 22. -/
def staleP : Program :=
  { isActualInstr := fun i => i != 20
    isDebugInstr := fun i => i == 20
    isConditionalBranch := fun i => i == 11 || i == 22
    data_dependent := fun i => if i = 10 then [21] else []
    getParent := fun i => i / 10
    insts := fun b => if b = 1 then [10, 11] else if b = 2 then [20, 21, 22] else []
    succs := fun b => if b = 1 then [2] else []
    getNumber := fun b => b
    getFunctionNumberOf := fun _ => 0
    print := fun _ => "" }

/-- The function of `staleP`: B2 post-dominates B1, and the virtual root B2. -/
def staleF : MachineFunction :=
  { blocks := [1, 2], getFunctionNumber := 0, getName := "stale",
    getIDom := fun b => if b = 1 then some 2 else none }

/-- A fresh pass state in which the number field of the debug instruction 20,
which the pass never writes, holds 9. -/
def staleStart : PassState := PassState.fresh (fun i => if i = 20 then 9 else 0)

/-- The state after the pass has run on `staleF` from `staleStart`. -/
def staleState : PassState :=
  (runOnMachineFunction staleP false 20 staleF staleStart).getD staleStart

/-- The state after the pass has run on `staleF` from `freshState`. -/
def staleFreshState : PassState :=
  (runOnMachineFunction staleP false 20 staleF freshState).getD freshState

/-- The chain B1 -> B2 -> B3 -> B4 with the edge B1 -> B4, where B3 starts with
the two instructions 30 and 31 that are neither substantive nor debug
instructions (labels, say) and goes on with the substantive instruction 32. -/
def labelsP : Program :=
  { isActualInstr := fun i => i != 30 && i != 31
    isDebugInstr := fun _ => false
    isConditionalBranch := fun i => i == 11
    data_dependent := fun _ => []
    getParent := fun i => i / 10
    insts := fun b =>
      if b = 1 then [10, 11] else if b = 2 then [20] else if b = 3 then [30, 31, 32]
      else if b = 4 then [40] else []
    succs := fun b => if b = 1 then [2, 4] else if b = 2 then [3] else if b = 3 then [4] else []
    getNumber := fun b => b
    getFunctionNumberOf := fun _ => 0
    print := fun _ => "" }

/-- The function of `labelsP`, with the number 0: B4 post-dominates B1 and B3, B3
post-dominates B2. -/
def labelsF : MachineFunction :=
  { blocks := [1, 2, 3, 4], getFunctionNumber := 0, getName := "labels",
    getIDom := fun b => if b = 1 ∨ b = 3 then some 4 else if b = 2 then some 3 else none }

/-- The same function with the largest number an `unsigned` holds. -/
def lastF : MachineFunction :=
  { blocks := [1, 2, 3, 4], getFunctionNumber := 4294967295, getName := "last",
    getIDom := fun b => if b = 1 ∨ b = 3 then some 4 else if b = 2 then some 3 else none }

/-- The state after the pass has run on `labelsF`. -/
def labelsState : PassState :=
  (runOnMachineFunction labelsP false 20 labelsF freshState).getD freshState

/-- The state after the pass has run on `lastF`. -/
def lastState : PassState :=
  (runOnMachineFunction labelsP false 20 lastF freshState).getD freshState

/-! ## Sets -/

theorem mem_setInsert (a x : Nat) (s : List Nat) : a ∈ setInsert x s ↔ a = x ∨ a ∈ s := by
  induction s with
  | nil => simp [setInsert]
  | cons y ys ih =>
    unfold setInsert
    split_ifs with h1 h2
    · simp
    · subst h2; simp
    · simp only [List.mem_cons, ih]; tauto

theorem mem_setInsertAll (a : Nat) (xs s : List Nat) :
    a ∈ setInsertAll xs s ↔ a ∈ xs ∨ a ∈ s := by
  unfold setInsertAll
  induction xs generalizing s with
  | nil => simp
  | cons x xs ih =>
    simp only [List.foldl_cons, ih, mem_setInsert, List.mem_cons]; tauto

theorem setInsert_lower (b x : Nat) (s : List Nat) (hx : b < x) (hs : ∀ a ∈ s, b < a) :
    ∀ a ∈ setInsert x s, b < a := by
  intro a ha
  rcases (mem_setInsert a x s).1 ha with h | h
  · subst h; exact hx
  · exact hs a h

theorem setInsert_sorted (x : Nat) (s : List Nat) (hs : s.Sorted (· < ·)) :
    (setInsert x s).Sorted (· < ·) := by
  induction s with
  | nil => simp [setInsert]
  | cons y ys ih =>
    have hy := List.rel_of_sorted_cons hs
    have hys := List.Sorted.of_cons hs
    unfold setInsert
    split_ifs with h1 h2
    · refine List.sorted_cons.2 ⟨?_, hs⟩
      intro a ha
      rcases List.mem_cons.1 ha with h | h
      · subst h; exact h1
      · exact lt_trans h1 (hy a h)
    · exact hs
    · exact List.sorted_cons.2 ⟨setInsert_lower y x ys (by omega) hy, ih hys⟩

theorem setInsertAll_sorted (xs s : List Nat) (hs : s.Sorted (· < ·)) :
    (setInsertAll xs s).Sorted (· < ·) := by
  unfold setInsertAll
  induction xs generalizing s with
  | nil => simpa using hs
  | cons x xs ih => exact ih _ (setInsert_sorted x s hs)

theorem mem_collectInsts (P : Program) (a : Nat) (bs cd : List Nat) :
    a ∈ collectInsts P bs cd ↔ a ∈ cd ∨ ∃ b ∈ bs, a ∈ P.insts b := by
  induction bs generalizing cd with
  | nil => simp [collectInsts]
  | cons b bs ih =>
    simp only [collectInsts, ih, mem_setInsertAll, List.mem_cons, exists_eq_or_imp]
    tauto

theorem collectInsts_sorted (P : Program) (bs cd : List Nat) (h : cd.Sorted (· < ·)) :
    (collectInsts P bs cd).Sorted (· < ·) := by
  induction bs generalizing cd with
  | nil => simpa [collectInsts] using h
  | cons b bs ih => exact ih _ (setInsertAll_sorted _ _ h)

/-! ## The work-queue loop over blocks -/

theorem expandSuccs_inv (P : Program) (R : Nat) (blocks : List Nat) (ps : List Nat)
    (st : BBState) (hps : ∀ p ∈ ps, p ∈ blocks) (h : BBInv P R blocks st) :
    BBInv P R blocks (expandSuccs P R ps st) ∧
      (expandSuccs P R ps st).bb_queue.length + st.visited_bb_numbers.length
        = st.bb_queue.length + (expandSuccs P R ps st).visited_bb_numbers.length := by
  induction ps generalizing st with
  | nil => exact ⟨h, by simp [expandSuccs]⟩
  | cons p ps ih =>
    have hp : p ∈ blocks := hps p (List.mem_cons_self _ _)
    have hps2 : ∀ q ∈ ps, q ∈ blocks := fun q hq => hps q (List.mem_cons_of_mem _ hq)
    unfold expandSuccs
    split_ifs with hc
    · have hinv : BBInv P R blocks
          { bb_queue := st.bb_queue ++ [p],
            visited_bb_numbers := st.visited_bb_numbers ++ [P.getNumber p],
            reachable_blocks := setInsert p st.reachable_blocks } := by
        constructor
        · intro b hb
          rcases List.mem_append.1 hb with hb | hb
          · exact h.queue_mem b hb
          · simp at hb; subst hb; exact hp
        · refine List.Nodup.append h.visited_nodup (by simp) ?_
          intro a ha hb
          simp at hb; subst hb; exact hc.2 ha
        · intro n hn
          rcases List.mem_append.1 hn with hn | hn
          · exact h.visited_sub n hn
          · simp at hn; subst hn; exact List.mem_map_of_mem _ hp
        · intro b hb
          rcases (mem_setInsert b p _).1 hb with hb | hb
          · subst hb; exact hp
          · exact h.reach_mem b hb
        · intro b hb
          rcases (mem_setInsert b p _).1 hb with hb | hb
          · subst hb; exact hc.1
          · exact h.reach_ne b hb
        · exact setInsert_sorted _ _ h.reach_sorted
      obtain ⟨h1, h2⟩ := ih _ hps2 hinv
      refine ⟨h1, ?_⟩
      simp only [List.length_append, List.length_singleton] at h2
      omega
    · exact ih st hps2 h

theorem bbInv_visited_le (P : Program) (R : Nat) (blocks : List Nat) (st : BBState)
    (h : BBInv P R blocks st) : st.visited_bb_numbers.length ≤ blocks.length := by
  have := (List.Nodup.subperm h.visited_nodup (fun n hn => h.visited_sub n hn)).length_le
  simpa using this

/-- The block loop ends: with `blocks` closed under successors, a fuel of the
queue's length plus the number of blocks not yet recorded is enough. -/
theorem bbLoop_terminates (P : Program) (R : Nat) (blocks : List Nat)
    (hclosed : ∀ b ∈ blocks, ∀ s ∈ P.succs b, s ∈ blocks) (fuel : Nat) (st : BBState)
    (h : BBInv P R blocks st)
    (hfuel : st.bb_queue.length + blocks.length ≤ fuel + st.visited_bb_numbers.length) :
    ∃ r, bbLoop P R fuel st = some r := by
  induction fuel generalizing st with
  | zero =>
    have hv := bbInv_visited_le P R blocks st h
    have hq : st.bb_queue = [] := List.length_eq_zero.1 (by omega)
    exact ⟨st, by simp [bbLoop, hq]⟩
  | succ fuel ih =>
    unfold bbLoop
    cases hq : st.bb_queue with
    | nil => exact ⟨st, rfl⟩
    | cons b q =>
      have hb : b ∈ blocks := h.queue_mem b (by simp [hq])
      have hinv1 : BBInv P R blocks { st with bb_queue := q } :=
        { h with queue_mem := fun c hc => h.queue_mem c (by simp [hq, hc]) }
      obtain ⟨hinv2, hlen⟩ := expandSuccs_inv P R blocks (P.succs b) _ (hclosed b hb) hinv1
      simp only at hlen ⊢
      apply ih _ hinv2
      rw [hq] at hfuel
      simp only [List.length_cons] at hfuel
      omega

theorem bbLoop_inv (P : Program) (R : Nat) (blocks : List Nat)
    (hclosed : ∀ b ∈ blocks, ∀ s ∈ P.succs b, s ∈ blocks) (fuel : Nat) (st r : BBState)
    (h : BBInv P R blocks st) (hr : bbLoop P R fuel st = some r) : BBInv P R blocks r := by
  induction fuel generalizing st with
  | zero =>
    unfold bbLoop at hr
    split_ifs at hr
    simp at hr; subst hr; exact h
  | succ fuel ih =>
    unfold bbLoop at hr
    cases hq : st.bb_queue with
    | nil => rw [hq] at hr; simp at hr; subst hr; exact h
    | cons b q =>
      rw [hq] at hr
      simp only at hr
      have hb : b ∈ blocks := h.queue_mem b (by simp [hq])
      have hinv1 : BBInv P R blocks { st with bb_queue := q } :=
        { h with queue_mem := fun c hc => h.queue_mem c (by simp [hq, hc]) }
      exact ih _ (expandSuccs_inv P R blocks (P.succs b) _ (hclosed b hb) hinv1).1 hr

/-- More fuel does not change what the block loop returns. -/
theorem bbLoop_mono (P : Program) (R : Nat) (fuel fuel2 : Nat) (st r : BBState)
    (hle : fuel ≤ fuel2) (hr : bbLoop P R fuel st = some r) : bbLoop P R fuel2 st = some r := by
  induction fuel generalizing st fuel2 with
  | zero =>
    unfold bbLoop at hr
    split_ifs at hr with hq
    cases fuel2 with
    | zero => simpa [bbLoop, hq] using hr
    | succ n => unfold bbLoop; rw [hq]; simpa using hr
  | succ fuel ih =>
    cases fuel2 with
    | zero => omega
    | succ n =>
      unfold bbLoop at hr ⊢
      cases hq : st.bb_queue with
      | nil => rw [hq] at hr; simpa using hr
      | cons b q =>
        rw [hq] at hr
        simp only at hr ⊢
        exact ih n _ (by omega) hr

/-! ## getNextInstr -/

theorem skipToActual_some (P : Program) (l : List Nat) (x : Nat)
    (h : skipToActual P l = some x) : P.isActualInstr x = true ∧ x ∈ l := by
  induction l with
  | nil => simp [skipToActual] at h
  | cons it rest ih =>
    unfold skipToActual at h
    split_ifs at h with hc
    · simp at h; subst h; exact ⟨hc, List.mem_cons_self _ _⟩
    · exact ⟨(ih h).1, List.mem_cons_of_mem _ (ih h).2⟩

theorem skipToActual_isSome (P : Program) (l : List Nat) (x : Nat) (hx : x ∈ l)
    (ha : P.isActualInstr x = true) : ∃ y, skipToActual P l = some y := by
  induction l with
  | nil => simp at hx
  | cons it rest ih =>
    unfold skipToActual
    split_ifs with hc
    · exact ⟨it, rfl⟩
    · rcases List.mem_cons.1 hx with h | h
      · subst h; exact absurd ha hc
      · exact ih h

theorem scanPast_sub (num : Nat → Nat) (n : Nat) (l : List Nat) :
    ∀ x ∈ scanPast num n l, x ∈ l := by
  induction l with
  | nil => simp [scanPast]
  | cons it rest ih =>
    cases rest with
    | nil => simp [scanPast]
    | cons it2 rest =>
      intro x hx
      unfold scanPast at hx
      split_ifs at hx with hc
      · exact hx
      · exact List.mem_cons_of_mem _ (ih x hx)

theorem mem_scanPast (num : Nat → Nat) (n : Nat) (l : List Nat) (x : Nat) (hx : x ∈ l)
    (hn : n < num x) : x ∈ scanPast num n l := by
  induction l with
  | nil => simp at hx
  | cons it rest ih =>
    cases rest with
    | nil => simpa [scanPast] using hx
    | cons it2 rest =>
      unfold scanPast
      split_ifs with hc
      · exact hx
      · rcases List.mem_cons.1 hx with h | h
        · subst h; exact absurd hn hc
        · exact ih h

theorem getLastActualInstr_some (P : Program) (b last : Nat)
    (h : getLastActualInstr P b = some last) :
    last ∈ P.insts b ∧ P.isActualInstr last = true := by
  unfold getLastActualInstr at h
  have := List.mem_of_getLast?_eq_some h
  simpa [List.mem_filter] using this

theorem getLastActualInstr_isSome (P : Program) (b x : Nat) (hx : x ∈ P.insts b)
    (ha : P.isActualInstr x = true) : ∃ last, getLastActualInstr P b = some last := by
  unfold getLastActualInstr
  cases h : ((P.insts b).filter P.isActualInstr).getLast? with
  | some last => exact ⟨last, rfl⟩
  | none =>
    rw [List.getLast?_eq_none_iff] at h
    have : x ∈ (P.insts b).filter P.isActualInstr := List.mem_filter.2 ⟨hx, ha⟩
    rw [h] at this
    simp at this

/-- What `getNextInstr` returns is a substantive instruction of the block of
its argument. -/
theorem getNextInstr_some (P : Program) (num : Nat → Nat) (d nx : Nat)
    (h : getNextInstr P num d = some (some nx)) :
    P.isActualInstr nx = true ∧ nx ∈ P.insts (P.getParent d) := by
  unfold getNextInstr at h
  simp only at h
  split at h
  · simp at h
  · split_ifs at h with hc
    · simp only [Option.map_eq_some'] at h
      obtain ⟨y, hy, hyx⟩ := h
      simp at hyx; subst hyx
      exact ⟨(skipToActual_some P _ _ hy).1, scanPast_sub _ _ _ _ (skipToActual_some P _ _ hy).2⟩
    · simp at h

/-- The call `getNextInstr` has a defined result whenever the block of its
argument holds a substantive instruction. -/
theorem getNextInstr_defined (P : Program) (num : Nat → Nat) (d x : Nat)
    (hx : x ∈ P.insts (P.getParent d)) (ha : P.isActualInstr x = true) :
    ∃ r, getNextInstr P num d = some r := by
  obtain ⟨last, hlast⟩ := getLastActualInstr_isSome P _ x hx ha
  obtain ⟨hl1, hl2⟩ := getLastActualInstr_some P _ _ hlast
  unfold getNextInstr
  simp only [hlast]
  split_ifs with hc
  · obtain ⟨y, hy⟩ := skipToActual_isSome P _ last (mem_scanPast num _ _ last hl1 hc) hl2
    exact ⟨some y, by simp [hy]⟩
  · exact ⟨none, rfl⟩

/-! ## The frontier loop over instructions -/

/-- What one run of the inner loop over the data dependents of an instruction
does: `processed_insts` stays, the instructions pushed are exactly those added
to `data_dependents`, every substantive dependent in `T` is pushed, and so is
the substantive successor of such a dependent when it is a conditional branch
not yet processed. -/
theorem expandDeps_spec (P : Program) (num : Nat → Nat) (T : List Nat) (ds : List Nat)
    (s r : DDState) (h : expandDeps P num T ds s = some r) :
    r.processed_insts = s.processed_insts ∧
    ∃ pushed, r.inst_queue = s.inst_queue ++ pushed ∧ pushed.length ≤ 2 * ds.length ∧
      (∀ x, x ∈ r.data_dependents ↔ x ∈ s.data_dependents ∨ x ∈ pushed) ∧
      (∀ d ∈ ds, P.isActualInstr d = true → d ∈ T → d ∈ pushed) ∧
      (∀ d ∈ ds, P.isActualInstr d = true → d ∈ T → ∀ nx,
          getNextInstr P num d = some (some nx) → P.isConditionalBranch nx = true →
          nx ∉ s.processed_insts → nx ∈ pushed) ∧
      (∀ x ∈ pushed, (x ∈ ds ∧ P.isActualInstr x = true ∧ x ∈ T) ∨
          ∃ d ∈ ds, P.isActualInstr d = true ∧ d ∈ T ∧
            getNextInstr P num d = some (some x) ∧ P.isConditionalBranch x = true ∧
            x ∉ s.processed_insts) ∧
      (s.data_dependents.Sorted (· < ·) → r.data_dependents.Sorted (· < ·)) := by
  induction ds generalizing s with
  | nil =>
    simp only [expandDeps, Option.some.injEq] at h
    subst h
    exact ⟨rfl, [], by simp⟩
  | cons d ds ih =>
    unfold expandDeps at h
    split_ifs at h with h1 h2
    · obtain ⟨hp, pushed, hq, hlen, hdd, hall, hnest, horig, hsort⟩ := ih s h
      simp only [Bool.not_eq_true', ] at h1
      refine ⟨hp, pushed, hq, by simp only [List.length_cons]; omega, hdd, ?_, ?_, ?_, hsort⟩
      · intro e he hea heT
        rcases List.mem_cons.1 he with he | he
        · subst he; rw [h1] at hea; exact absurd hea (by simp)
        · exact hall e he hea heT
      · intro e he hea heT
        rcases List.mem_cons.1 he with he | he
        · subst he; rw [h1] at hea; exact absurd hea (by simp)
        · exact hnest e he hea heT
      · intro x hx
        rcases horig x hx with hx | ⟨e, he, hx⟩
        · exact Or.inl ⟨List.mem_cons_of_mem _ hx.1, hx.2⟩
        · exact Or.inr ⟨e, List.mem_cons_of_mem _ he, hx⟩
    · have hda : P.isActualInstr d = true := by simpa using h1
      have hdT : d ∈ T := h2
      simp only at h
      cases hnx : getNextInstr P num d with
      | none => rw [hnx] at h; simp at h
      | some o =>
        rw [hnx] at h
        cases o with
        | none =>
          simp only at h
          obtain ⟨hp, pushed, hq, hlen, hdd, hall, hnest, horig, hsort⟩ := ih _ h
          simp only at hp hq hdd hnest horig hsort
          refine ⟨hp, d :: pushed, by simp [hq], by simp only [List.length_cons]; omega,
            ?_, ?_, ?_, ?_, fun hs => hsort (setInsert_sorted _ _ hs)⟩
          · intro x; rw [hdd, mem_setInsert, List.mem_cons]; tauto
          · intro e he hea heT
            rcases List.mem_cons.1 he with he | he
            · subst he; exact List.mem_cons_self _ _
            · exact List.mem_cons_of_mem _ (hall e he hea heT)
          · intro e he hea heT nx hn hc hnp
            rcases List.mem_cons.1 he with he | he
            · subst he; rw [hnx] at hn; simp at hn
            · exact List.mem_cons_of_mem _ (hnest e he hea heT nx hn hc hnp)
          · intro x hx
            rcases List.mem_cons.1 hx with hx | hx
            · subst hx; exact Or.inl ⟨List.mem_cons_self _ _, hda, hdT⟩
            · rcases horig x hx with hx | ⟨e, he, hx⟩
              · exact Or.inl ⟨List.mem_cons_of_mem _ hx.1, hx.2⟩
              · exact Or.inr ⟨e, List.mem_cons_of_mem _ he, hx⟩
        | some nx0 =>
          simp only at h
          split_ifs at h with hc
          · obtain ⟨hp, pushed, hq, hlen, hdd, hall, hnest, horig, hsort⟩ := ih _ h
            simp only at hp hq hdd hnest horig hsort
            refine ⟨hp, d :: nx0 :: pushed, by simp [hq],
              by simp only [List.length_cons]; omega, ?_, ?_, ?_, ?_,
              fun hs => hsort (setInsert_sorted _ _ (setInsert_sorted _ _ hs))⟩
            · intro x; rw [hdd, mem_setInsert, mem_setInsert]; simp only [List.mem_cons]; tauto
            · intro e he hea heT
              rcases List.mem_cons.1 he with he | he
              · subst he; exact List.mem_cons_self _ _
              · exact List.mem_cons_of_mem _ (List.mem_cons_of_mem _ (hall e he hea heT))
            · intro e he hea heT nx hn hcb hnp
              rcases List.mem_cons.1 he with he | he
              · subst he; rw [hnx] at hn; simp at hn; subst hn; simp
              · exact List.mem_cons_of_mem _
                  (List.mem_cons_of_mem _ (hnest e he hea heT nx hn hcb hnp))
            · intro x hx
              rcases List.mem_cons.1 hx with hx | hx
              · subst hx; exact Or.inl ⟨List.mem_cons_self _ _, hda, hdT⟩
              · rcases List.mem_cons.1 hx with hx | hx
                · subst hx
                  exact Or.inr ⟨d, List.mem_cons_self _ _, hda, hdT, hnx, hc.1, hc.2⟩
                · rcases horig x hx with hx | ⟨e, he, hx⟩
                  · exact Or.inl ⟨List.mem_cons_of_mem _ hx.1, hx.2⟩
                  · exact Or.inr ⟨e, List.mem_cons_of_mem _ he, hx⟩
          · obtain ⟨hp, pushed, hq, hlen, hdd, hall, hnest, horig, hsort⟩ := ih _ h
            simp only at hp hq hdd hnest horig hsort
            refine ⟨hp, d :: pushed, by simp [hq], by simp only [List.length_cons]; omega,
              ?_, ?_, ?_, ?_, fun hs => hsort (setInsert_sorted _ _ hs)⟩
            · intro x; rw [hdd, mem_setInsert, List.mem_cons]; tauto
            · intro e he hea heT
              rcases List.mem_cons.1 he with he | he
              · subst he; exact List.mem_cons_self _ _
              · exact List.mem_cons_of_mem _ (hall e he hea heT)
            · intro e he hea heT nx hn hcb hnp
              rcases List.mem_cons.1 he with he | he
              · subst he; rw [hnx] at hn; simp at hn; subst hn
                exact absurd ⟨hcb, hnp⟩ hc
              · exact List.mem_cons_of_mem _ (hnest e he hea heT nx hn hcb hnp)
            · intro x hx
              rcases List.mem_cons.1 hx with hx | hx
              · subst hx; exact Or.inl ⟨List.mem_cons_self _ _, hda, hdT⟩
              · rcases horig x hx with hx | ⟨e, he, hx⟩
                · exact Or.inl ⟨List.mem_cons_of_mem _ hx.1, hx.2⟩
                · exact Or.inr ⟨e, List.mem_cons_of_mem _ he, hx⟩
    · obtain ⟨hp, pushed, hq, hlen, hdd, hall, hnest, horig, hsort⟩ := ih s h
      refine ⟨hp, pushed, hq, by simp only [List.length_cons]; omega, hdd, ?_, ?_, ?_, hsort⟩
      · intro e he hea heT
        rcases List.mem_cons.1 he with he | he
        · subst he; exact absurd heT h2
        · exact hall e he hea heT
      · intro e he hea heT
        rcases List.mem_cons.1 he with he | he
        · subst he; exact absurd heT h2
        · exact hnest e he hea heT
      · intro x hx
        rcases horig x hx with hx | ⟨e, he, hx⟩
        · exact Or.inl ⟨List.mem_cons_of_mem _ hx.1, hx.2⟩
        · exact Or.inr ⟨e, List.mem_cons_of_mem _ he, hx⟩

theorem ddInv_init (P : Program) (num : Nat → Nat) (T seeds : List Nat) :
    DDInv P num T seeds { inst_queue := seeds, processed_insts := [], data_dependents := [] } := by
  constructor <;> simp

theorem ddLoop_inv (P : Program) (num : Nat → Nat) (T seeds : List Nat) (fuel : Nat)
    (s r : DDState) (h : DDInv P num T seeds s) (hr : ddLoop P num T fuel s = some r) :
    DDInv P num T seeds r ∧ r.inst_queue = [] := by
  induction fuel generalizing s with
  | zero =>
    unfold ddLoop at hr
    split_ifs at hr with hq
    simp at hr; subst hr; exact ⟨h, hq⟩
  | succ fuel ih =>
    unfold ddLoop at hr
    cases hq : s.inst_queue with
    | nil => rw [hq] at hr; simp at hr; subst hr; exact ⟨h, hq⟩
    | cons Inst q =>
      rw [hq] at hr
      simp only at hr
      split_ifs at hr with hproc
      · refine ih _ ?_ hr
        refine { h with pending := ?_, origin := ?_ }
        · intro x hx
          rcases h.pending x hx with hx | hx
          · rw [hq] at hx
            rcases List.mem_cons.1 hx with hx | hx
            · subst hx; exact Or.inr hproc
            · exact Or.inl hx
          · exact Or.inr hx
        · intro x hx
          apply h.origin
          rcases hx with hx | hx
          · exact Or.inl (by rw [hq]; exact List.mem_cons_of_mem _ hx)
          · exact Or.inr hx
      · cases he : expandDeps P num T (P.data_dependent Inst)
            { s with inst_queue := q, processed_insts := setInsert Inst s.processed_insts } with
        | none => rw [he] at hr; simp at hr
        | some s2 =>
          rw [he] at hr
          simp only [Option.some_bind] at hr
          refine ih _ ?_ hr
          obtain ⟨hp, pushed, hqq, -, hdd, hall, hnest, horig, hsort⟩ :=
            expandDeps_spec P num T _ _ _ he
          simp only at hp hqq hdd hnest horig hsort
          have hInst : Inst ∈ seeds ∨ Inst ∈ s.data_dependents :=
            h.origin Inst (Or.inl (by simp [hq]))
          constructor
          · intro x hx d hd hda hdT
            rw [hp, mem_setInsert] at hx
            rw [hdd]
            rcases hx with hx | hx
            · subst hx; exact Or.inr (hall d hd hda hdT)
            · exact Or.inl (h.closed x hx d hd hda hdT)
          · intro x hx d hd hda hdT nx hn hc
            rw [hp, mem_setInsert] at hx
            rw [hdd]
            rcases hx with hx | hx
            · subst hx
              by_cases hnp : nx ∈ setInsert x s.processed_insts
              · rw [mem_setInsert] at hnp
                rcases hnp with hnp | hnp
                · subst hnp; tauto
                · have := h.origin nx (Or.inr hnp); tauto
              · exact Or.inl (Or.inr (hnest d hd hda hdT nx hn hc hnp))
            · have := h.nested x hx d hd hda hdT nx hn hc; tauto
          · intro x hx
            rw [hdd] at hx
            rw [hqq, hp, mem_setInsert, List.mem_append]
            have hpend := h.pending x
            rw [hq, List.mem_cons] at hpend
            tauto
          · intro x hx
            rw [hqq, hp, mem_setInsert, List.mem_append] at hx
            rw [hdd]
            have horg := h.origin x
            rw [hq, List.mem_cons] at horg
            rcases hx with (hx | hx) | hx | hx
            · have := horg (Or.inl (Or.inr hx)); tauto
            · tauto
            · subst hx; tauto
            · have := horg (Or.inr hx); tauto
          · intro x hx
            rw [hdd] at hx
            rcases hx with hx | hx
            · exact h.sound x hx
            · rcases horig x hx with hx | ⟨d, -, hda, hdT, hn, hc, -⟩
              · exact Or.inl hx.2
              · exact Or.inr ⟨d, hdT, hda, hn, hc⟩
          · exact hsort h.sorted

/-- More fuel does not change what the frontier loop returns. -/
theorem ddLoop_mono (P : Program) (num : Nat → Nat) (T : List Nat) (fuel fuel2 : Nat)
    (s r : DDState) (hle : fuel ≤ fuel2) (hr : ddLoop P num T fuel s = some r) :
    ddLoop P num T fuel2 s = some r := by
  induction fuel generalizing s fuel2 with
  | zero =>
    unfold ddLoop at hr
    split_ifs at hr with hq
    cases fuel2 with
    | zero => simpa [ddLoop, hq] using hr
    | succ n => unfold ddLoop; rw [hq]; simpa using hr
  | succ fuel ih =>
    cases fuel2 with
    | zero => omega
    | succ n =>
      unfold ddLoop at hr ⊢
      cases hq : s.inst_queue with
      | nil => rw [hq] at hr; simpa using hr
      | cons Inst q =>
        rw [hq] at hr
        simp only at hr ⊢
        split_ifs at hr ⊢ with hproc
        · exact ih n _ (by omega) hr
        · cases he : expandDeps P num T (P.data_dependent Inst)
              { s with inst_queue := q, processed_insts := setInsert Inst s.processed_insts } with
          | none => rw [he] at hr; simp at hr
          | some s2 =>
            rw [he] at hr
            simp only [Option.some_bind] at hr ⊢
            exact ih n _ (by omega) hr

theorem expandDeps_total (P : Program) (num : Nat → Nat) (T : List Nat)
    (hdef : ∀ d ∈ T, P.isActualInstr d = true → ∃ r, getNextInstr P num d = some r)
    (ds : List Nat) (s : DDState) : ∃ r, expandDeps P num T ds s = some r := by
  induction ds generalizing s with
  | nil => exact ⟨s, rfl⟩
  | cons d ds ih =>
    unfold expandDeps
    split_ifs with h1 h2
    · exact ih s
    · obtain ⟨o, ho⟩ := hdef d h2 (by simpa using h1)
      simp only [ho]
      cases o with
      | none => exact ih _
      | some nx =>
        simp only
        split_ifs
        · exact ih _
        · exact ih _
    · exact ih s

theorem expansionCost_insert_of_not_mem (P : Program) (processed : List Nat) (x : Nat)
    (U : List Nat) (hx : x ∉ U) :
    expansionCost P (setInsert x processed) U = expansionCost P processed U := by
  induction U with
  | nil => rfl
  | cons u us ih =>
    have hne : u ≠ x := fun h => hx (by simp [h])
    have hus : x ∉ us := fun h => hx (List.mem_cons_of_mem _ h)
    simp only [expansionCost, ih hus, mem_setInsert, hne, false_or]

theorem expansionCost_insert (P : Program) (processed : List Nat) (x : Nat)
    (U : List Nat) (hU : U.Nodup) (hx : x ∈ U) (hp : x ∉ processed) :
    expansionCost P (setInsert x processed) U + 2 * (P.data_dependent x).length
      = expansionCost P processed U := by
  induction U with
  | nil => simp at hx
  | cons u us ih =>
    have hnd := List.nodup_cons.1 hU
    rcases List.mem_cons.1 hx with h | h
    · subst h
      simp only [expansionCost, mem_setInsert, true_or, if_true, hp, if_false,
        expansionCost_insert_of_not_mem P processed x us hnd.1]
      omega
    · have hne : u ≠ x := fun e => hnd.1 (e ▸ h)
      have := ih hnd.2 h
      simp only [expansionCost, mem_setInsert, hne, false_or]
      omega

/-- The frontier loop ends: every expansion uses up the edges of an instruction
of the finite universe `U` that was not processed before. -/
theorem ddLoop_terminates (P : Program) (num : Nat → Nat) (T U : List Nat) (hU : U.Nodup)
    (hT : ∀ d ∈ T, d ∈ U)
    (hN : ∀ d ∈ T, ∀ nx, getNextInstr P num d = some (some nx) → nx ∈ U)
    (hdef : ∀ d ∈ T, P.isActualInstr d = true → ∃ r, getNextInstr P num d = some r)
    (fuel : Nat) (s : DDState) (hq : ∀ x ∈ s.inst_queue, x ∈ U)
    (hfuel : s.inst_queue.length + expansionCost P s.processed_insts U ≤ fuel) :
    ∃ r, ddLoop P num T fuel s = some r := by
  induction fuel generalizing s with
  | zero =>
    have hq0 : s.inst_queue = [] := List.length_eq_zero.1 (by omega)
    exact ⟨s, by simp [ddLoop, hq0]⟩
  | succ fuel ih =>
    unfold ddLoop
    cases hqq : s.inst_queue with
    | nil => exact ⟨s, rfl⟩
    | cons Inst q =>
      rw [hqq] at hfuel hq
      simp only [List.length_cons] at hfuel
      simp only
      split_ifs with hproc
      · exact ih _ (fun x hx => hq x (List.mem_cons_of_mem _ hx)) (by simp only; omega)
      · obtain ⟨s2, hs2⟩ := expandDeps_total P num T hdef (P.data_dependent Inst)
          { s with inst_queue := q, processed_insts := setInsert Inst s.processed_insts }
        rw [hs2]
        simp only [Option.some_bind]
        obtain ⟨hp, pushed, hqueue, hlen, -, -, -, horig, -⟩ := expandDeps_spec P num T _ _ _ hs2
        simp only at hp hqueue horig
        have hcost := expansionCost_insert P s.processed_insts Inst U hU
          (hq Inst (List.mem_cons_self _ _)) hproc
        apply ih
        · intro x hx
          rw [hqueue, List.mem_append] at hx
          rcases hx with hx | hx
          · exact hq x (List.mem_cons_of_mem _ hx)
          · rcases horig x hx with hx | ⟨d, -, -, hdT, hn, -, -⟩
            · exact hT x hx.2.2
            · exact hN d hdT x hn
        · rw [hqueue, hp, List.length_append]
          omega

theorem frontierUniverse_spec (P : Program) (num : Nat → Nat) (T seeds : List Nat) :
    (frontierUniverse P num T seeds).Nodup ∧
    (∀ x ∈ seeds, x ∈ frontierUniverse P num T seeds) ∧
    (∀ d ∈ T, d ∈ frontierUniverse P num T seeds) ∧
    (∀ d ∈ T, ∀ nx, getNextInstr P num d = some (some nx) →
      nx ∈ frontierUniverse P num T seeds) := by
  unfold frontierUniverse
  refine ⟨List.nodup_dedup _, ?_, ?_, ?_⟩
  · intro x hx; simp [hx]
  · intro d hd; simp [hd]
  · intro d hd nx hn
    rw [List.mem_dedup, List.mem_append]
    right
    rw [List.mem_filterMap]
    exact ⟨d, hd, by simp [hn]⟩

/-- The frontier loop started on `seeds` returns with the fuel `frontierFuel`. -/
theorem ddLoop_seeds_terminates (P : Program) (num : Nat → Nat) (T seeds : List Nat)
    (hdef : ∀ d ∈ T, P.isActualInstr d = true → ∃ r, getNextInstr P num d = some r) :
    ∃ r, ddLoop P num T (frontierFuel P num T seeds)
      { inst_queue := seeds, processed_insts := [], data_dependents := [] } = some r := by
  obtain ⟨h1, h2, h3, h4⟩ := frontierUniverse_spec P num T seeds
  exact ddLoop_terminates P num T _ h1 h3 h4 hdef _ _ h2 (le_refl _)

/-! ## One branch -/

theorem reachableBlocks_mono (P : Program) (fuel fuel2 MBB R : Nat) (rb : List Nat)
    (hle : fuel ≤ fuel2) (h : reachableBlocks P fuel MBB R = some rb) :
    reachableBlocks P fuel2 MBB R = some rb := by
  unfold reachableBlocks at h ⊢
  simp only [Option.map_eq_some'] at h ⊢
  obtain ⟨st, hst, hrb⟩ := h
  exact ⟨st, bbLoop_mono P R fuel fuel2 _ _ hle hst, hrb⟩

theorem bbInv_init (P : Program) (MBB R : Nat) (blocks : List Nat)
    (hsucc : ∀ s ∈ P.succs MBB, s ∈ blocks) :
    BBInv P R blocks
      { bb_queue := initQueue P MBB R, visited_bb_numbers := [], reachable_blocks := [] } := by
  constructor
  · intro b hb
    exact hsucc b (List.mem_of_mem_filter hb)
  · simp
  · simp
  · simp
  · simp
  · simp

/-- The first step returns, with a fuel of the successors of the block plus the
number of blocks, and its blocks are blocks of the function not numbered like
the reconvergence point. -/
theorem reachableBlocks_terminates (P : Program) (MBB R : Nat) (blocks : List Nat)
    (hclosed : ∀ b ∈ blocks, ∀ s ∈ P.succs b, s ∈ blocks) (hMBB : MBB ∈ blocks) :
    ∃ rb, reachableBlocks P ((P.succs MBB).length + blocks.length) MBB R = some rb := by
  have hinv := bbInv_init P MBB R blocks (hclosed MBB hMBB)
  obtain ⟨r, hr⟩ := bbLoop_terminates P R blocks hclosed
    ((P.succs MBB).length + blocks.length) _ hinv (by
      simp only [List.length_nil, add_zero]
      have : (initQueue P MBB R).length ≤ (P.succs MBB).length := List.length_filter_le _ _
      omega)
  exact ⟨r.reachable_blocks, by simp [reachableBlocks, hr]⟩

theorem reachableBlocks_spec (P : Program) (fuel MBB R : Nat) (blocks rb : List Nat)
    (hclosed : ∀ b ∈ blocks, ∀ s ∈ P.succs b, s ∈ blocks) (hMBB : MBB ∈ blocks)
    (h : reachableBlocks P fuel MBB R = some rb) :
    (∀ b ∈ rb, b ∈ blocks) ∧ (∀ b ∈ rb, P.getNumber b ≠ P.getNumber R) ∧
      rb.Sorted (· < ·) := by
  unfold reachableBlocks at h
  simp only [Option.map_eq_some'] at h
  obtain ⟨st, hst, hrb⟩ := h
  have hinv := bbLoop_inv P R blocks hclosed fuel _ _
    (bbInv_init P MBB R blocks (hclosed MBB hMBB)) hst
  subst hrb
  exact ⟨hinv.reach_mem, hinv.reach_ne, hinv.reach_sorted⟩

/-- The blocks of the first step are never numbered like the reconvergence
point, whatever the graph. -/
theorem reachableBlocks_ne (P : Program) (fuel MBB R : Nat) (rb : List Nat)
    (h : reachableBlocks P fuel MBB R = some rb) :
    ∀ b ∈ rb, P.getNumber b ≠ P.getNumber R := by
  unfold reachableBlocks at h
  simp only [Option.map_eq_some'] at h
  obtain ⟨st, hst, hrb⟩ := h
  subst hrb
  have key : ∀ (fuel : Nat) (s r : BBState),
      (∀ b ∈ s.reachable_blocks, P.getNumber b ≠ P.getNumber R) →
      bbLoop P R fuel s = some r → ∀ b ∈ r.reachable_blocks, P.getNumber b ≠ P.getNumber R := by
    have hexp : ∀ (ps : List Nat) (s : BBState),
        (∀ b ∈ s.reachable_blocks, P.getNumber b ≠ P.getNumber R) →
        ∀ b ∈ (expandSuccs P R ps s).reachable_blocks, P.getNumber b ≠ P.getNumber R := by
      intro ps
      induction ps with
      | nil => intro s hs; simpa [expandSuccs] using hs
      | cons p ps ih =>
        intro s hs
        unfold expandSuccs
        split_ifs with hc
        · apply ih
          intro b hb
          rcases (mem_setInsert b p _).1 hb with hb | hb
          · subst hb; exact hc.1
          · exact hs b hb
        · exact ih s hs
    intro fuel
    induction fuel with
    | zero =>
      intro s r hs hr
      unfold bbLoop at hr
      split_ifs at hr
      simp at hr; subst hr; exact hs
    | succ fuel ih =>
      intro s r hs hr
      unfold bbLoop at hr
      cases hq : s.bb_queue with
      | nil => rw [hq] at hr; simp at hr; subst hr; exact hs
      | cons b q =>
        rw [hq] at hr
        simp only at hr
        exact ih _ r (hexp (P.succs b) { s with bb_queue := q } hs) hr
  exact key fuel _ st (by simp) hst

theorem branchSets_some (P : Program) (num : Nat → Nat) (T : List Nat) (fuel MBB R inst : Nat)
    (cd dd : List Nat) (h : branchSets P num T fuel MBB R inst = some (cd, dd)) :
    ∃ rb, reachableBlocks P fuel MBB R = some rb ∧ cd = collectInsts P rb [] ∧
      ∃ s, ddLoop P num T fuel
          { inst_queue := seedQueue P num inst cd, processed_insts := [],
            data_dependents := [] } = some s ∧ dd = s.data_dependents := by
  unfold branchSets at h
  simp only [Option.bind_eq_some, Option.map_eq_some', Prod.mk.injEq] at h
  obtain ⟨rb, hrb, s, hs, hcd, hdd⟩ := h
  subst hcd
  exact ⟨rb, hrb, rfl, s, hs, hdd.symm⟩

theorem branchSets_mono (P : Program) (num : Nat → Nat) (T : List Nat)
    (fuel fuel2 MBB R inst : Nat) (r : List Nat × List Nat) (hle : fuel ≤ fuel2)
    (h : branchSets P num T fuel MBB R inst = some r) :
    branchSets P num T fuel2 MBB R inst = some r := by
  obtain ⟨cd, dd⟩ := r
  obtain ⟨rb, hrb, hcd, s, hs, hdd⟩ := branchSets_some P num T fuel MBB R inst cd dd h
  unfold branchSets
  rw [reachableBlocks_mono P fuel fuel2 MBB R rb hle hrb]
  simp only [Option.some_bind]
  rw [← hcd, ddLoop_mono P num T fuel fuel2 _ s hle hs]
  simp [hdd]

/-- The two steps return for every branch of a function whose successor lists
stay inside the function, when `getNextInstr` is defined on the universe. -/
theorem branchSets_terminates (P : Program) (num : Nat → Nat) (T : List Nat)
    (MBB R inst : Nat) (blocks : List Nat)
    (hclosed : ∀ b ∈ blocks, ∀ s ∈ P.succs b, s ∈ blocks) (hMBB : MBB ∈ blocks)
    (hdef : ∀ d ∈ T, P.isActualInstr d = true → ∃ r, getNextInstr P num d = some r) :
    ∃ fuel0 r, ∀ fuel, fuel0 ≤ fuel → branchSets P num T fuel MBB R inst = some r := by
  obtain ⟨rb, hrb⟩ := reachableBlocks_terminates P MBB R blocks hclosed hMBB
  obtain ⟨s, hs⟩ := ddLoop_seeds_terminates P num T
    (seedQueue P num inst (collectInsts P rb [])) hdef
  refine ⟨max ((P.succs MBB).length + blocks.length)
    (frontierFuel P num T (seedQueue P num inst (collectInsts P rb []))),
    (collectInsts P rb [], s.data_dependents), ?_⟩
  intro fuel hfuel
  unfold branchSets
  rw [reachableBlocks_mono P _ fuel MBB R rb (le_trans (le_max_left _ _) hfuel) hrb]
  simp only [Option.some_bind]
  rw [ddLoop_mono P num T _ fuel _ s (le_trans (le_max_right _ _) hfuel) hs]
  rfl

theorem mem_mergeDependents (P : Program) (cd dd target : List Nat) (x : Nat) :
    x ∈ mergeDependents P cd dd target ↔
      (x ∈ cd ∧ P.isDebugInstr x = false) ∨ (x ∈ dd ∧ P.isActualInstr x = true) ∨
        x ∈ target := by
  unfold mergeDependents
  simp only [mem_setInsertAll, List.mem_filter, Bool.not_eq_true']
  tauto

theorem mergeDependents_sorted (P : Program) (cd dd target : List Nat)
    (h : target.Sorted (· < ·)) : (mergeDependents P cd dd target).Sorted (· < ·) :=
  setInsertAll_sorted _ _ (setInsertAll_sorted _ _ h)

/-! ## The loop over the branches of the function -/

theorem analyseBranch_some (P : Program) (fuel MBB R inst : Nat) (st st2 : PassState)
    (h : analyseBranch P fuel MBB R inst st = some st2) :
    st2.InstructionNumber = st.InstructionNumber ∧
    st2.total_actual_insts = st.total_actual_insts ∧
    st2.info = st.info ∧ st2.errs = st.errs ∧
    ∃ cd dd, branchSets P st.InstructionNumber st.total_actual_insts fuel MBB R inst
        = some (cd, dd) ∧
      st2.dependent_insts
        = Function.update st.dependent_insts inst (mergeDependents P cd dd []) ∧
      st2.reconvergence_point = Function.update st.reconvergence_point inst (some R) := by
  unfold analyseBranch at h
  simp only [Option.map_eq_some'] at h
  obtain ⟨sets, hsets, hst⟩ := h
  subst hst
  exact ⟨rfl, rfl, rfl, rfl, sets.1, sets.2, hsets, rfl, rfl⟩

/-- What the loop over one block leaves behind: numbering, universe and streams
are untouched, and an instruction either was analysed here and carries the
result of its analysis, or keeps what it had. -/
theorem analyseInsts_spec (P : Program) (fuel MBB : Nat) (rp : Option Nat) (l : List Nat)
    (st st2 : PassState) (h : analyseInsts P fuel MBB rp l st = some st2) :
    st2.InstructionNumber = st.InstructionNumber ∧
    st2.total_actual_insts = st.total_actual_insts ∧
    st2.info = st.info ∧ st2.errs = st.errs ∧
    ∀ inst,
      (inst ∈ l ∧ P.isConditionalBranch inst = true ∧ ∃ R cd dd, rp = some R ∧
          st2.reconvergence_point inst = some R ∧
          BranchResult P st.InstructionNumber st.total_actual_insts fuel MBB R inst cd dd
            (st2.dependent_insts inst)) ∨
      (¬ (inst ∈ l ∧ P.isConditionalBranch inst = true ∧ rp.isSome = true) ∧
          st2.dependent_insts inst = st.dependent_insts inst ∧
          st2.reconvergence_point inst = st.reconvergence_point inst) := by
  induction l generalizing st with
  | nil =>
    simp only [analyseInsts, Option.some.injEq] at h
    subst h
    exact ⟨rfl, rfl, rfl, rfl, fun inst => Or.inr ⟨by simp, rfl, rfl⟩⟩
  | cons i rest ih =>
    unfold analyseInsts at h
    simp only at h
    cases rp with
    | none =>
      simp only at h
      obtain ⟨h1, h2, h3, h4, h5⟩ := ih _ h
      refine ⟨h1, h2, h3, h4, ?_⟩
      intro inst
      rcases h5 inst with ⟨-, -, R, cd, dd, hR, -⟩ | ⟨-, h6, h7⟩
      · simp at hR
      · exact Or.inr ⟨by simp, h6, h7⟩
    | some R =>
      simp only at h
      split_ifs at h with hc
      · simp only [Option.bind_eq_some] at h
        obtain ⟨s1, hs1, hs2⟩ := h
        obtain ⟨a1, a2, a3, a4, cd, dd, hsets, hdep, hrp⟩ := analyseBranch_some P fuel MBB R i _ _ hs1
        obtain ⟨h1, h2, h3, h4, h5⟩ := ih _ hs2
        simp only at a1 a2 a3 a4 hsets hdep hrp
        refine ⟨h1.trans a1, h2.trans a2, h3.trans a3, h4.trans a4, ?_⟩
        intro inst
        rcases h5 inst with ⟨b1, b2, R2, cd2, dd2, hR2, b3, b4⟩ | ⟨b1, b2, b3⟩
        · left
          refine ⟨List.mem_cons_of_mem _ b1, b2, R2, cd2, dd2, hR2, b3, ?_⟩
          rw [a1, a2] at b4
          exact b4
        · by_cases hi : inst = i
          · subst hi
            left
            refine ⟨List.mem_cons_self _ _, hc, R, cd, dd, rfl, ?_, hsets, ?_⟩
            · rw [b3, hrp, Function.update_same]
            · rw [b2, hdep, Function.update_same]
          · right
            refine ⟨?_, ?_, ?_⟩
            · intro hh
              apply b1
              refine ⟨?_, hh.2.1, hh.2.2⟩
              rcases List.mem_cons.1 hh.1 with e | e
              · exact absurd e hi
              · exact e
            · rw [b2, hdep, Function.update_noteq hi]
            · rw [b3, hrp, Function.update_noteq hi]
      · obtain ⟨h1, h2, h3, h4, h5⟩ := ih _ h
        refine ⟨h1, h2, h3, h4, ?_⟩
        intro inst
        rcases h5 inst with ⟨b1, b2, b3⟩ | ⟨b1, b2, b3⟩
        · exact Or.inl ⟨List.mem_cons_of_mem _ b1, b2, b3⟩
        · right
          refine ⟨?_, b2, b3⟩
          intro hh
          apply b1
          refine ⟨?_, hh.2.1, hh.2.2⟩
          rcases List.mem_cons.1 hh.1 with e | e
          · subst e; exact absurd hh.2.1 hc
          · exact e

/-- What the loop over the blocks leaves behind, in the same terms. -/
theorem analyseBlocks_spec (P : Program) (MF : MachineFunction) (fuel : Nat) (bs : List Nat)
    (st st2 : PassState) (h : analyseBlocks P MF fuel bs st = some st2) :
    st2.InstructionNumber = st.InstructionNumber ∧
    st2.total_actual_insts = st.total_actual_insts ∧
    st2.info = st.info ∧ st2.errs = st.errs ∧
    ∀ inst,
      (∃ MBB R cd dd, MBB ∈ bs ∧ MF.getIDom MBB = some R ∧ inst ∈ P.insts MBB ∧
          P.isConditionalBranch inst = true ∧ st2.reconvergence_point inst = some R ∧
          BranchResult P st.InstructionNumber st.total_actual_insts fuel MBB R inst cd dd
            (st2.dependent_insts inst)) ∨
      (¬ (∃ MBB R, MBB ∈ bs ∧ MF.getIDom MBB = some R ∧ inst ∈ P.insts MBB ∧
            P.isConditionalBranch inst = true) ∧
          st2.dependent_insts inst = st.dependent_insts inst ∧
          st2.reconvergence_point inst = st.reconvergence_point inst) := by
  induction bs generalizing st with
  | nil =>
    simp only [analyseBlocks, Option.some.injEq] at h
    subst h
    exact ⟨rfl, rfl, rfl, rfl, fun inst => Or.inr ⟨by simp, rfl, rfl⟩⟩
  | cons b rest ih =>
    unfold analyseBlocks at h
    simp only [Option.bind_eq_some] at h
    obtain ⟨s1, hs1, hs2⟩ := h
    obtain ⟨a1, a2, a3, a4, a5⟩ := analyseInsts_spec P fuel b _ _ _ _ hs1
    obtain ⟨h1, h2, h3, h4, h5⟩ := ih _ hs2
    refine ⟨h1.trans a1, h2.trans a2, h3.trans a3, h4.trans a4, ?_⟩
    intro inst
    rcases h5 inst with ⟨MBB, R, cd, dd, c1, c2, c3, c4, c5, c6⟩ | ⟨c1, c2, c3⟩
    · left
      rw [a1, a2] at c6
      exact ⟨MBB, R, cd, dd, List.mem_cons_of_mem _ c1, c2, c3, c4, c5, c6⟩
    · rcases a5 inst with ⟨d1, d2, R, cd, dd, d3, d4, d5⟩ | ⟨d1, d2, d3⟩
      · left
        exact ⟨b, R, cd, dd, List.mem_cons_self _ _, d3, d1, d2, c3.trans d4, c2 ▸ d5⟩
      · right
        refine ⟨?_, c2.trans d2, c3.trans d3⟩
        rintro ⟨MBB, R, e1, e2, e3, e4⟩
        rcases List.mem_cons.1 e1 with e | e
        · subst e
          exact d1 ⟨e3, e4, by simp [e2]⟩
        · exact c1 ⟨MBB, R, e, e2, e3, e4⟩

theorem analyseInsts_total (P : Program) (num : Nat → Nat) (T : List Nat) (MBB : Nat)
    (rp : Option Nat) (blocks : List Nat)
    (hclosed : ∀ b ∈ blocks, ∀ s ∈ P.succs b, s ∈ blocks) (hMBB : MBB ∈ blocks)
    (hdef : ∀ d ∈ T, P.isActualInstr d = true → ∃ r, getNextInstr P num d = some r)
    (l : List Nat) :
    ∃ fuel0, ∀ fuel, fuel0 ≤ fuel → ∀ st : PassState, st.InstructionNumber = num →
      st.total_actual_insts = T → ∃ st2, analyseInsts P fuel MBB rp l st = some st2 := by
  induction l with
  | nil => exact ⟨0, fun fuel _ st _ _ => ⟨st, rfl⟩⟩
  | cons i rest ih =>
    obtain ⟨f1, hf1⟩ := ih
    cases rp with
    | none =>
      refine ⟨f1, fun fuel hfuel st hn hT => ?_⟩
      unfold analyseInsts
      exact hf1 fuel hfuel _ hn hT
    | some R =>
      obtain ⟨f2, r, hf2⟩ := branchSets_terminates P num T MBB R i blocks hclosed hMBB hdef
      refine ⟨max f1 f2, fun fuel hfuel st hn hT => ?_⟩
      unfold analyseInsts
      simp only
      split_ifs with hc
      · have hb : ∃ s1, analyseBranch P fuel MBB R i
            { st with total_insts := setInsert i st.total_insts } = some s1 := by
          unfold analyseBranch
          simp only [hn, hT, hf2 fuel (le_trans (le_max_right _ _) hfuel)]
          exact ⟨_, rfl⟩
        obtain ⟨s1, hs1⟩ := hb
        obtain ⟨a1, a2, -⟩ := analyseBranch_some P fuel MBB R i _ _ hs1
        rw [hs1]
        simp only [Option.some_bind]
        exact hf1 fuel (le_trans (le_max_left _ _) hfuel) s1 (a1.trans hn) (a2.trans hT)
      · exact hf1 fuel (le_trans (le_max_left _ _) hfuel) _ hn hT

theorem analyseBlocks_total (P : Program) (MF : MachineFunction) (num : Nat → Nat)
    (T : List Nat) (blocks : List Nat)
    (hclosed : ∀ b ∈ blocks, ∀ s ∈ P.succs b, s ∈ blocks)
    (hdef : ∀ d ∈ T, P.isActualInstr d = true → ∃ r, getNextInstr P num d = some r)
    (bs : List Nat) (hbs : ∀ b ∈ bs, b ∈ blocks) :
    ∃ fuel0, ∀ fuel, fuel0 ≤ fuel → ∀ st : PassState, st.InstructionNumber = num →
      st.total_actual_insts = T → ∃ st2, analyseBlocks P MF fuel bs st = some st2 := by
  induction bs with
  | nil => exact ⟨0, fun fuel _ st _ _ => ⟨st, rfl⟩⟩
  | cons b rest ih =>
    obtain ⟨f1, hf1⟩ := ih (fun c hc => hbs c (List.mem_cons_of_mem _ hc))
    obtain ⟨f2, hf2⟩ := analyseInsts_total P num T b (MF.getIDom b) blocks hclosed
      (hbs b (List.mem_cons_self _ _)) hdef (P.insts b)
    refine ⟨max f1 f2, fun fuel hfuel st hn hT => ?_⟩
    unfold analyseBlocks
    obtain ⟨s1, hs1⟩ := hf2 fuel (le_trans (le_max_right _ _) hfuel) st hn hT
    obtain ⟨a1, a2, -⟩ := analyseInsts_spec P fuel b _ _ _ _ hs1
    rw [hs1]
    simp only [Option.some_bind]
    exact hf1 fuel (le_trans (le_max_left _ _) hfuel) s1 (a1.trans hn) (a2.trans hT)

/-! ## Numbering -/

theorem numbered_refl (P : Program) (c : Nat) (st st2 : PassState)
    (h1 : st2.InstructionNumber = st.InstructionNumber)
    (h2 : st2.total_actual_insts = st.total_actual_insts) (h3 : st2.info = st.info)
    (h4 : st2.dependent_insts = st.dependent_insts)
    (h5 : st2.reconvergence_point = st.reconvergence_point) :
    Numbered P [] c st c st2 := by
  constructor <;> simp [h1, h2, h3, h4, h5]

theorem numbered_trans (P : Program) (l1 l2 : List Nat) (c c1 c2 : Nat)
    (st st1 st2 : PassState) (h1 : Numbered P l1 c st c1 st1)
    (h2 : Numbered P l2 c1 st1 c2 st2) : Numbered P (l1 ++ l2) c st c2 st2 := by
  have hc1 := h1.counter
  have hc2 := h2.counter
  constructor
  · rw [List.filter_append, List.length_append]; omega
  · intro i hi
    rw [List.filter_append, List.mem_append] at hi
    push_neg at hi
    rw [h2.keep i hi.2, h1.keep i hi.1]
  · intro hnd
    rw [List.filter_append] at hnd ⊢
    have hnd1 := (List.nodup_append.1 hnd).1
    have hnd2 := (List.nodup_append.1 hnd).2.1
    have hdisj := (List.nodup_append.1 hnd).2.2
    rw [List.map_append, h2.numbers hnd2, List.length_append]
    have : (l1.filter P.isActualInstr).map st2.InstructionNumber
        = (l1.filter P.isActualInstr).map st1.InstructionNumber := by
      apply List.map_congr_left
      intro i hi
      exact h2.keep i (fun hi2 => hdisj hi hi2)
    rw [this, h1.numbers hnd1, hc1, List.range'_append_1, Nat.add_comm]
  · intro i hi
    rw [List.filter_append, List.mem_append] at hi
    by_cases hi2 : i ∈ l2.filter P.isActualInstr
    · have := h2.bound i hi2; omega
    · rcases hi with hi | hi
      · have := h1.bound i hi
        rw [h2.keep i hi2]; omega
      · exact absurd hi hi2
  · intro x
    rw [h2.univ, h1.univ, List.filter_append, List.mem_append]; tauto
  · exact fun h => h2.sorted (h1.sorted h)
  · rw [h2.info, h1.info]
  · rw [h2.deps, h1.deps]
  · rw [h2.rp, h1.rp]

theorem numberInst_numbered (P : Program) (v : Bool) (c : Nat × PassState) (i : Nat) :
    Numbered P [i] c.1 c.2 (numberInst P v c i).1 (numberInst P v c i).2 := by
  unfold numberInst
  by_cases h : P.isActualInstr i = true
  · rw [if_pos h]
    have hf : [i].filter P.isActualInstr = [i] := by simp [h]
    constructor
    · simp [hf]
    · intro j hj
      have : j ≠ i := by simpa [hf] using hj
      simp [Function.update_noteq this]
    · intro _; simp [hf, List.range']
    · intro j hj
      have : j = i := by simpa [hf] using hj
      subst this; simp
    · intro x; rw [hf]; simp only [mem_setInsert, List.mem_singleton]; tauto
    · exact fun hs => setInsert_sorted _ _ hs
    · rfl
    · rfl
    · rfl
  · rw [if_neg h]
    have hf : [i].filter P.isActualInstr = [] := by simp [h]
    constructor <;> simp [hf]

theorem foldl_numberInst_numbered (P : Program) (v : Bool) (l : List Nat)
    (c : Nat × PassState) :
    Numbered P l c.1 c.2 (l.foldl (numberInst P v) c).1 (l.foldl (numberInst P v) c).2 := by
  induction l generalizing c with
  | nil => exact numbered_refl P _ _ _ rfl rfl rfl rfl rfl
  | cons i rest ih =>
    have := numbered_trans P [i] rest _ _ _ _ _ _ (numberInst_numbered P v c i)
      (ih (numberInst P v c i))
    simpa using this

theorem numberBlock_numbered (P : Program) (v : Bool) (c : Nat × PassState) (b : Nat) :
    Numbered P (P.insts b) c.1 c.2 (numberBlock P v c b).1 (numberBlock P v c b).2 := by
  unfold numberBlock
  have h1 := foldl_numberInst_numbered P v (P.insts b)
    (c.1, { c.2 with errs := if v = true then
        c.2.errs ++ ["===================\n",
          "BB Number: " ++ toString (P.getNumber b) ++ "\n",
          "===================\n"]
      else c.2.errs })
  have h0 : Numbered P [] c.1 c.2 c.1 { c.2 with errs := if v = true then
        c.2.errs ++ ["===================\n",
          "BB Number: " ++ toString (P.getNumber b) ++ "\n",
          "===================\n"]
      else c.2.errs } := numbered_refl P _ _ _ rfl rfl rfl rfl rfl
  simpa using numbered_trans P [] _ _ _ _ _ _ _ h0 h1

theorem foldl_numberBlock_numbered (P : Program) (v : Bool) (bs : List Nat)
    (c : Nat × PassState) :
    Numbered P (layout P bs) c.1 c.2 (bs.foldl (numberBlock P v) c).1
      (bs.foldl (numberBlock P v) c).2 := by
  induction bs generalizing c with
  | nil => exact numbered_refl P _ _ _ rfl rfl rfl rfl rfl
  | cons b rest ih =>
    exact numbered_trans P (P.insts b) (layout P rest) _ _ _ _ _ _
      (numberBlock_numbered P v c b) (ih (numberBlock P v c b))

theorem numberFunction_numbered (P : Program) (v : Bool) (MF : MachineFunction)
    (st : PassState) :
    Numbered P (layout P MF.blocks) 0 st (numberFunction P v MF st).1
      (numberFunction P v MF st).2 :=
  foldl_numberBlock_numbered P v MF.blocks (0, st)

theorem mem_layout (P : Program) (bs : List Nat) (x : Nat) :
    x ∈ layout P bs ↔ ∃ b ∈ bs, x ∈ P.insts b := by
  induction bs with
  | nil => simp [layout]
  | cons b rest ih => simp [layout, ih]

/-! ## The report -/

theorem dependentLines_congr (P : Program) (num num2 : Nat → Nat) (fn : Nat) (l : List Nat)
    (h : ∀ x ∈ l, num x = num2 x) : dependentLines P num fn l = dependentLines P num2 fn l := by
  induction l with
  | nil => rfl
  | cons d ds ih =>
    simp only [dependentLines, h d (List.mem_cons_self _ _),
      ih (fun x hx => h x (List.mem_cons_of_mem _ hx))]

theorem branchRecord_congr (P : Program) (st st2 : PassState) (fn inst : Nat)
    (h1 : st2.InstructionNumber = st.InstructionNumber)
    (h2 : st2.dependent_insts = st.dependent_insts) :
    branchRecord P st2 fn inst = branchRecord P st fn inst := by
  unfold branchRecord
  rw [h1, h2]

theorem reportOf_congr (P : Program) (st st2 : PassState) (fn : Nat) (l : List Nat)
    (h1 : st2.InstructionNumber = st.InstructionNumber)
    (h2 : st2.dependent_insts = st.dependent_insts) :
    reportOf P st2 fn l = reportOf P st fn l := by
  induction l with
  | nil => rfl
  | cons i rest ih => simp only [reportOf, ih, branchRecord_congr P st st2 fn i h1 h2]

theorem reportOf_append (P : Program) (st : PassState) (fn : Nat) (l1 l2 : List Nat) :
    reportOf P st fn (l1 ++ l2) = reportOf P st fn l1 ++ reportOf P st fn l2 := by
  induction l1 with
  | nil => simp [reportOf]
  | cons i rest ih => rw [List.cons_append, reportOf, reportOf, ih, String.append_assoc]

/-- The final loop over one block only writes: it appends the records of the
block's branches to `info` when the block has a reconvergence point. -/
theorem dumpInsts_spec (P : Program) (v : Bool) (fn MBB : Nat) (bb : Option Nat)
    (l : List Nat) (st : PassState) :
    (dumpInsts P v fn MBB bb l st).InstructionNumber = st.InstructionNumber ∧
    (dumpInsts P v fn MBB bb l st).dependent_insts = st.dependent_insts ∧
    (dumpInsts P v fn MBB bb l st).reconvergence_point = st.reconvergence_point ∧
    (dumpInsts P v fn MBB bb l st).total_actual_insts = st.total_actual_insts ∧
    (dumpInsts P v fn MBB bb l st).info = st.info ++ reportOf P st fn
      (if bb.isSome then l.filter P.isConditionalBranch else []) := by
  induction l generalizing st with
  | nil => simp [dumpInsts, reportOf]
  | cons i rest ih =>
    unfold dumpInsts
    by_cases hc : P.isConditionalBranch i = true ∧ bb ≠ none
    · rw [if_pos hc]
      obtain ⟨h1, h2, h3, h4, h5⟩ := ih
        { st with
          info := st.info ++ branchRecord P st fn i,
          errs := if v = true then st.errs ++ verboseRecord P st fn MBB i else st.errs }
      refine ⟨h1, h2, h3, h4, ?_⟩
      rw [h5]
      have hb : bb.isSome = true := by
        cases bb with
        | none => exact absurd rfl hc.2
        | some r => rfl
      simp only [hb, if_true, List.filter_cons, hc.1, reportOf, String.append_assoc]
      congr 2
      exact reportOf_congr P st _ fn _ rfl rfl
    · rw [if_neg hc]
      obtain ⟨h1, h2, h3, h4, h5⟩ := ih st
      refine ⟨h1, h2, h3, h4, ?_⟩
      rw [h5]
      congr 1
      by_cases hb : bb.isSome = true
      · have hi : ¬ P.isConditionalBranch i = true := by
          intro hi
          apply hc
          refine ⟨hi, ?_⟩
          intro hn; rw [hn] at hb; simp at hb
        simp only [hb, if_true, List.filter_cons, hi, if_false]
        simp
      · simp only [hb]
        simp

theorem dumpBlocks_spec (P : Program) (v : Bool) (MF : MachineFunction) (fn : Nat)
    (bs : List Nat) (st : PassState) :
    (dumpBlocks P v MF fn bs st).InstructionNumber = st.InstructionNumber ∧
    (dumpBlocks P v MF fn bs st).dependent_insts = st.dependent_insts ∧
    (dumpBlocks P v MF fn bs st).reconvergence_point = st.reconvergence_point ∧
    (dumpBlocks P v MF fn bs st).total_actual_insts = st.total_actual_insts ∧
    (dumpBlocks P v MF fn bs st).info = st.info ++ reportOf P st fn (analysedBranches P MF bs) := by
  induction bs generalizing st with
  | nil => simp [dumpBlocks, analysedBranches, reportOf]
  | cons b rest ih =>
    unfold dumpBlocks
    obtain ⟨a1, a2, a3, a4, a5⟩ := dumpInsts_spec P v fn b (MF.getIDom b) (P.insts b) st
    obtain ⟨h1, h2, h3, h4, h5⟩ := ih (dumpInsts P v fn b (MF.getIDom b) (P.insts b) st)
    refine ⟨h1.trans a1, h2.trans a2, h3.trans a3, h4.trans a4, ?_⟩
    rw [h5, a5, analysedBranches, reportOf_append, String.append_assoc,
      reportOf_congr P st _ fn _ a1 a2]

theorem mem_analysedBranches (P : Program) (MF : MachineFunction) (bs : List Nat) (inst : Nat) :
    inst ∈ analysedBranches P MF bs ↔
      ∃ MBB R, MBB ∈ bs ∧ MF.getIDom MBB = some R ∧ inst ∈ P.insts MBB ∧
        P.isConditionalBranch inst = true := by
  induction bs with
  | nil => simp [analysedBranches]
  | cons b rest ih =>
    rw [analysedBranches, List.mem_append, ih]
    constructor
    · rintro (h | ⟨MBB, R, h1, h2⟩)
      · cases hb : MF.getIDom b with
        | none => rw [hb] at h; simp at h
        | some R =>
          rw [hb] at h
          simp only [Option.isSome_some, if_true, List.mem_filter] at h
          exact ⟨b, R, List.mem_cons_self _ _, hb, h.1, h.2⟩
      · exact ⟨MBB, R, List.mem_cons_of_mem _ h1, h2⟩
    · rintro ⟨MBB, R, h1, h2, h3, h4⟩
      rcases List.mem_cons.1 h1 with e | e
      · subst e
        left
        simp [h2, h3, h4]
      · exact Or.inr ⟨MBB, R, e, h2, h3, h4⟩

/-! ## The pass on one function -/

/-- What a run leaves behind: the numbering of the function, for every
instruction either the result of its analysis or what it had, and the report
extended by the records of the analysed branches in order. -/
theorem run_spec (P : Program) (v : Bool) (fuel : Nat) (MF : MachineFunction)
    (st st2 : PassState) (h : runOnMachineFunction P v fuel MF st = some st2) :
    (∃ c st1, Numbered P (layout P MF.blocks) 0 st c st1 ∧
      st2.InstructionNumber = st1.InstructionNumber ∧
      st2.total_actual_insts = st1.total_actual_insts) ∧
    (∀ inst,
      (∃ MBB R cd dd, Analysed P MF MBB R inst ∧ st2.reconvergence_point inst = some R ∧
          BranchResult P st2.InstructionNumber st2.total_actual_insts fuel MBB R inst cd dd
            (st2.dependent_insts inst)) ∨
      (¬ (∃ MBB R, Analysed P MF MBB R inst) ∧
          st2.dependent_insts inst = st.dependent_insts inst ∧
          st2.reconvergence_point inst = st.reconvergence_point inst)) ∧
    st2.info = st.info ++ reportOf P st2 ((10000 + MF.getFunctionNumber) % 4294967296)
      (analysedBranches P MF MF.blocks) := by
  unfold runOnMachineFunction at h
  simp only [Option.map_eq_some'] at h
  obtain ⟨s1, hs1, hs2⟩ := h
  have hnum := numberFunction_numbered P v MF
    (printBanner v MF ((10000 + MF.getFunctionNumber) % 4294967296) st)
  have hnum0 : Numbered P (layout P MF.blocks) 0 st _ _ :=
    numbered_trans P [] _ 0 0 _ st (printBanner v MF ((10000 + MF.getFunctionNumber) % 4294967296) st) _
      (numbered_refl P 0 st _ rfl rfl rfl rfl rfl) hnum
  obtain ⟨a1, a2, a3, -, a5⟩ := analyseBlocks_spec P MF fuel MF.blocks _ _ hs1
  obtain ⟨d1, d2, d3, d4, d5⟩ := dumpBlocks_spec P v MF ((10000 + MF.getFunctionNumber) % 4294967296)
    MF.blocks s1
  rw [hs2] at d1 d2 d3 d4 d5
  refine ⟨⟨_, _, hnum0, d1.trans a1, d4.trans a2⟩, ?_, ?_⟩
  · intro inst
    rcases a5 inst with ⟨MBB, R, cd, dd, c1, c2, c3, c4, c5, c6⟩ | ⟨c1, c2, c3⟩
    · left
      refine ⟨MBB, R, cd, dd, ⟨c1, c2, c3, c4⟩, by rw [d3]; exact c5, ?_⟩
      rw [d1, d4, d2, a1, a2]
      exact c6
    · right
      refine ⟨?_, ?_, ?_⟩
      · rintro ⟨MBB, R, e1, e2, e3, e4⟩
        exact c1 ⟨MBB, R, e1, e2, e3, e4⟩
      · rw [d2, c2, hnum0.deps]
      · rw [d3, c3, hnum0.rp]
  · rw [d5, a3, hnum0.info]
    congr 1
    exact (reportOf_congr P s1 st2 _ _ d1 d2).symm

/-- Every instruction left in the universe by the numbering lies in its parent
block, so `getNextInstr` is defined on the universe. -/
theorem getNextInstr_defined_on_universe (P : Program) (MF : MachineFunction)
    (st : PassState) (c : Nat) (st1 : PassState) (hwf : WellFormed P MF)
    (hold : UniverseInBlocks P st) (hnum : Numbered P (layout P MF.blocks) 0 st c st1) :
    ∀ d ∈ st1.total_actual_insts, P.isActualInstr d = true →
      ∃ r, getNextInstr P st1.InstructionNumber d = some r := by
  intro d hd ha
  apply getNextInstr_defined P _ d d _ ha
  rcases (hnum.univ d).1 hd with h | h
  · exact hold d h ha
  · have hl : d ∈ layout P MF.blocks := List.mem_of_mem_filter h
    obtain ⟨b, hb, hdb⟩ := (mem_layout P MF.blocks d).1 hl
    rw [hwf.2.2 b hb d hdb]
    exact hdb

/-- The pass returns on every well-formed function: there is a fuel from which
on both work-queue loops of every branch come to their end. -/
theorem run_total (P : Program) (v : Bool) (MF : MachineFunction) (st : PassState)
    (hwf : WellFormed P MF) (hold : UniverseInBlocks P st) :
    ∃ fuel0, ∀ fuel, fuel0 ≤ fuel → ∃ st2, runOnMachineFunction P v fuel MF st = some st2 := by
  have hnum := numberFunction_numbered P v MF
    (printBanner v MF ((10000 + MF.getFunctionNumber) % 4294967296) st)
  have hdef := getNextInstr_defined_on_universe P MF
    (printBanner v MF ((10000 + MF.getFunctionNumber) % 4294967296) st) _ _ hwf
    (show UniverseInBlocks P (printBanner v MF ((10000 + MF.getFunctionNumber) % 4294967296) st) from hold) hnum
  obtain ⟨fuel0, hf⟩ := analyseBlocks_total P MF _ _ MF.blocks hwf.1 hdef MF.blocks
    (fun b hb => hb)
  refine ⟨fuel0, fun fuel hfuel => ?_⟩
  obtain ⟨s1, hs1⟩ := hf fuel hfuel _ rfl rfl
  unfold runOnMachineFunction
  simp only [hs1, Option.map_some']
  exact ⟨_, rfl⟩

/-- In a well-formed function an analysed branch carries the result of the
analysis of its own block. -/
theorem run_branch_result (P : Program) (v : Bool) (fuel : Nat) (MF : MachineFunction)
    (st st2 : PassState) (hwf : WellFormed P MF)
    (h : runOnMachineFunction P v fuel MF st = some st2) (MBB R inst : Nat)
    (hA : Analysed P MF MBB R inst) :
    st2.reconvergence_point inst = some R ∧
    ∃ cd dd, BranchResult P st2.InstructionNumber st2.total_actual_insts fuel MBB R inst cd dd
      (st2.dependent_insts inst) := by
  rcases (run_spec P v fuel MF st st2 h).2.1 inst with ⟨MBB2, R2, cd, dd, hA2, hrp, hres⟩ | ⟨hn, -⟩
  · have e1 : MBB2 = MBB := by
      rw [← hwf.2.2 MBB2 hA2.1 inst hA2.2.2.1, ← hwf.2.2 MBB hA.1 inst hA.2.2.1]
    subst e1
    have e2 : R2 = R := by
      have := hA2.2.1.symm.trans hA.2.1
      simpa using this
    subst e2
    exact ⟨hrp, cd, dd, hres⟩
  · exact absurd ⟨MBB, R, hA⟩ hn

/-! ## What the sets of one branch contain -/

theorem mem_seedQueue (P : Program) (num : Nat → Nat) (inst : Nat) (cd : List Nat) (x : Nat) :
    x ∈ seedQueue P num inst cd ↔
      x = inst ∨ getPrevInstr P num inst = some x ∨ (x ∈ cd ∧ P.isActualInstr x = true) := by
  unfold seedQueue
  simp only [List.mem_cons, List.mem_append, Option.mem_toList, Option.mem_def, List.mem_filter]

/-- The invariant of the frontier loop holds for the data dependents of a
branch, and every seed and every data dependent has been processed. -/
theorem branchSets_inv (P : Program) (num : Nat → Nat) (T : List Nat) (fuel MBB R inst : Nat)
    (cd dd : List Nat) (h : branchSets P num T fuel MBB R inst = some (cd, dd)) :
    ∃ s, s.data_dependents = dd ∧ s.inst_queue = [] ∧
      DDInv P num T (seedQueue P num inst cd) s := by
  obtain ⟨rb, -, -, s, hs, hdd⟩ := branchSets_some P num T fuel MBB R inst cd dd h
  obtain ⟨hinv, hq⟩ := ddLoop_inv P num T _ fuel _ s (ddInv_init P num T _) hs
  exact ⟨s, hdd.symm, hq, hinv⟩

/-- The data dependents of a branch are closed under the data-dependency edges
that lead to substantive instructions of the universe. -/
theorem branchSets_closed (P : Program) (num : Nat → Nat) (T : List Nat)
    (fuel MBB R inst : Nat) (cd dd : List Nat)
    (h : branchSets P num T fuel MBB R inst = some (cd, dd)) (src : Nat)
    (hsrc : src = inst ∨ getPrevInstr P num inst = some src ∨
      (src ∈ cd ∧ P.isActualInstr src = true) ∨ src ∈ dd)
    (d : Nat) (hd : d ∈ P.data_dependent src) (ha : P.isActualInstr d = true) (hT : d ∈ T) :
    d ∈ dd := by
  obtain ⟨s, hdd, hq, hinv⟩ := branchSets_inv P num T fuel MBB R inst cd dd h
  have hp : src ∈ s.processed_insts := by
    have := hinv.pending src (by
      rw [mem_seedQueue, hdd]
      tauto)
    rw [hq] at this
    simpa using this
  rw [← hdd]
  exact hinv.closed src hp d hd ha hT

/-- The nested-branch rule on the data dependents of a branch: the conditional
branch that `getNextInstr` finds behind a discovered dependent is a data
dependent, unless it was a seed. -/
theorem branchSets_nested (P : Program) (num : Nat → Nat) (T : List Nat)
    (fuel MBB R inst : Nat) (cd dd : List Nat)
    (h : branchSets P num T fuel MBB R inst = some (cd, dd)) (src : Nat)
    (hsrc : src = inst ∨ getPrevInstr P num inst = some src ∨
      (src ∈ cd ∧ P.isActualInstr src = true) ∨ src ∈ dd)
    (d : Nat) (hd : d ∈ P.data_dependent src) (ha : P.isActualInstr d = true) (hT : d ∈ T)
    (nx : Nat) (hn : getNextInstr P num d = some (some nx))
    (hc : P.isConditionalBranch nx = true) :
    nx ∈ dd ∨ nx = inst ∨ getPrevInstr P num inst = some nx ∨ nx ∈ cd := by
  obtain ⟨s, hdd, hq, hinv⟩ := branchSets_inv P num T fuel MBB R inst cd dd h
  have hp : src ∈ s.processed_insts := by
    have := hinv.pending src (by
      rw [mem_seedQueue, hdd]
      tauto)
    rw [hq] at this
    simpa using this
  have := hinv.nested src hp d hd ha hT nx hn hc
  rw [mem_seedQueue, hdd] at this
  tauto

/-- Every data dependent of a branch is a substantive instruction of the
universe, or a conditional branch `getNextInstr` found behind one. -/
theorem branchSets_sound (P : Program) (num : Nat → Nat) (T : List Nat)
    (fuel MBB R inst : Nat) (cd dd : List Nat)
    (h : branchSets P num T fuel MBB R inst = some (cd, dd)) :
    ∀ x ∈ dd, (P.isActualInstr x = true ∧ x ∈ T) ∨
      ∃ d ∈ T, P.isActualInstr d = true ∧ getNextInstr P num d = some (some x) ∧
        P.isConditionalBranch x = true := by
  obtain ⟨s, hdd, -, hinv⟩ := branchSets_inv P num T fuel MBB R inst cd dd h
  rw [← hdd]
  exact hinv.sound

theorem dependentLines_eq_linesOf (P : Program) (num : Nat → Nat) (fn : Nat) (l : List Nat) :
    dependentLines P num fn l
      = linesOf num fn (l.filter (fun d => !P.isDebugInstr d)) := by
  induction l with
  | nil => rfl
  | cons d ds ih =>
    by_cases hd : P.isDebugInstr d = true
    · simp [dependentLines, hd, ih]
    · simp only [Bool.not_eq_true] at hd
      simp [dependentLines, hd, ih, linesOf, dependentLine]

/-- The final dependent set of a branch holds no debug instruction when
substantive instructions are no debug instructions. -/
theorem mergeDependents_no_debug (P : Program)
    (hAD : ∀ i, P.isActualInstr i = true → P.isDebugInstr i = false) (cd dd : List Nat) :
    ∀ x ∈ mergeDependents P cd dd [], P.isDebugInstr x = false := by
  intro x hx
  rw [mem_mergeDependents] at hx
  rcases hx with hx | hx | hx
  · exact hx.2
  · exact hAD x hx.2
  · simp at hx

/-! ## The claims -/

/-- C1 (the code departs from the claim).  On the diamond B1 -> {B2, B3} -> B4
with reconvergence point B4 the first step finds no reachable block at all: the
successors B2 and B3 are only queued, never recorded, so the control dependents
and the final dependent set of the branch 11 are empty although B2 and B3 hold
the instructions 20 and 30. -/
theorem diamond_successors_not_control_dependent :
    reachableBlocks diamondP 10 1 4 = some [] ∧
    (runOnMachineFunction diamondP false 10 diamondF freshState).map
      (fun s => (s.control_dependents, s.data_dependents, s.dependent_insts 11))
      = some ([], [], []) ∧
    Analysed diamondP diamondF 1 4 11 ∧
    layout diamondP [2, 3] = [20, 30] := by
  decide

/-- C2.  On every well-formed function the pass returns, and for every analysed
branch the stored dependent set is closed under the forward data-dependency
edges: a substantive instruction of the universe (which holds every substantive
instruction of the function) that consumes the branch, its compare, a
substantive control dependent or a data dependent is itself a data dependent
and a member of the final dependent set. -/
theorem data_dependence_closed (P : Program) (v : Bool) (MF : MachineFunction)
    (st : PassState) (hwf : WellFormed P MF) (hold : UniverseInBlocks P st) :
    (∃ fuel st2, runOnMachineFunction P v fuel MF st = some st2) ∧
    ∀ fuel st2, runOnMachineFunction P v fuel MF st = some st2 →
      (∀ b ∈ MF.blocks, ∀ d ∈ P.insts b, P.isActualInstr d = true →
        d ∈ st2.total_actual_insts) ∧
      ∀ MBB R inst, Analysed P MF MBB R inst →
        ∃ cd dd, BranchResult P st2.InstructionNumber st2.total_actual_insts fuel MBB R inst
            cd dd (st2.dependent_insts inst) ∧
          ∀ src, (src = inst ∨ getPrevInstr P st2.InstructionNumber inst = some src ∨
              (src ∈ cd ∧ P.isActualInstr src = true) ∨ src ∈ dd) →
            ∀ d ∈ P.data_dependent src, P.isActualInstr d = true →
              d ∈ st2.total_actual_insts → d ∈ dd ∧ d ∈ st2.dependent_insts inst := by
  refine ⟨?_, ?_⟩
  · obtain ⟨fuel0, h⟩ := run_total P v MF st hwf hold
    obtain ⟨st2, hst2⟩ := h fuel0 (le_refl _)
    exact ⟨fuel0, st2, hst2⟩
  · intro fuel st2 hrun
    refine ⟨?_, ?_⟩
    · obtain ⟨⟨c, st1, hnum, -, hT⟩, -, -⟩ := run_spec P v fuel MF st st2 hrun
      intro b hb d hd ha
      rw [hT, hnum.univ]
      right
      exact List.mem_filter.2 ⟨(mem_layout P MF.blocks d).2 ⟨b, hb, hd⟩, ha⟩
    · intro MBB R inst hA
      obtain ⟨-, cd, dd, hres⟩ := run_branch_result P v fuel MF st st2 hwf hrun MBB R inst hA
      refine ⟨cd, dd, hres, ?_⟩
      intro src hsrc d hd ha hT
      have hdd := branchSets_closed P _ _ fuel MBB R inst cd dd hres.1 src hsrc d hd ha hT
      refine ⟨hdd, ?_⟩
      rw [hres.2, mem_mergeDependents]
      exact Or.inr (Or.inl ⟨hdd, ha⟩)

/-- C2, on the loop function with the cyclic data edges 10 -> 30 -> 10: the
instruction 30 consumes the compare 10 of the branch 11 and is in the dependent
set of 11. -/
theorem data_dependence_closed_witness :
    WellFormed loopP loopF ∧ UniverseInBlocks loopP freshState ∧
    runOnMachineFunction loopP false 20 loopF freshState = some loopState ∧
    30 ∈ loopState.dependent_insts 11 := by
  refine ⟨by decide, by decide, rfl, ?_⟩
  obtain ⟨cd, dd, -, hcl⟩ :=
    ((data_dependence_closed loopP false loopF freshState (by decide) (by decide)).2
      20 loopState rfl).2 1 4 11 (by decide)
  exact (hcl 10 (Or.inr (Or.inl (by decide))) 30 (by decide) (by decide) (by decide)).2

/-- C3 (the claim as it stands fails).  In the chain function the instruction 10
is substantive, lies in the universe and consumes the control dependent 30,
which the closure of the branch 12 expands; `getNextInstr` finds the conditional
branch 11 behind it; yet 11 is not in the dependent set of 12, because 11, the
instruction before 12, had been processed as a seed. -/
theorem nested_branch_not_propagated :
    runOnMachineFunction nestedP false 20 nestedF freshState = some nestedState ∧
    Analysed nestedP nestedF 1 4 12 ∧
    branchSets nestedP nestedState.InstructionNumber nestedState.total_actual_insts 20 1 4 12
      = some ([30], [10]) ∧
    nestedP.isActualInstr 10 = true ∧ 10 ∈ nestedState.total_actual_insts ∧
    10 ∈ nestedP.data_dependent 30 ∧
    getNextInstr nestedP nestedState.InstructionNumber 10 = some (some 11) ∧
    nestedP.isConditionalBranch 11 = true ∧
    nestedState.dependent_insts 12 = [10, 30] ∧
    11 ∉ nestedState.dependent_insts 12 := by
  refine ⟨rfl, ?_⟩
  decide

/-- C3 (amended).  On every well-formed function whose substantive instructions
are no debug instructions the pass returns, and for every analysed branch and
every substantive instruction `d` of the universe that consumes an instruction
the closure expands: when `getNextInstr` finds a conditional branch behind `d`,
that branch is in the final dependent set, or it is one of the two seeds that
were processed first, the analysed branch itself or the instruction before it. -/
theorem nested_branch_propagated_unless_seed (P : Program) (v : Bool) (MF : MachineFunction)
    (st : PassState) (hwf : WellFormed P MF) (hold : UniverseInBlocks P st)
    (hAD : ∀ i, P.isActualInstr i = true → P.isDebugInstr i = false) :
    (∃ fuel st2, runOnMachineFunction P v fuel MF st = some st2) ∧
    ∀ fuel st2, runOnMachineFunction P v fuel MF st = some st2 →
      ∀ MBB R inst, Analysed P MF MBB R inst →
        ∃ cd dd, BranchResult P st2.InstructionNumber st2.total_actual_insts fuel MBB R inst
            cd dd (st2.dependent_insts inst) ∧
          ∀ src, (src = inst ∨ getPrevInstr P st2.InstructionNumber inst = some src ∨
              (src ∈ cd ∧ P.isActualInstr src = true) ∨ src ∈ dd) →
            ∀ d ∈ P.data_dependent src, P.isActualInstr d = true →
              d ∈ st2.total_actual_insts →
              ∀ nx, getNextInstr P st2.InstructionNumber d = some (some nx) →
                P.isConditionalBranch nx = true →
                nx ∈ st2.dependent_insts inst ∨ nx = inst ∨
                  getPrevInstr P st2.InstructionNumber inst = some nx := by
  refine ⟨?_, ?_⟩
  · obtain ⟨fuel0, h⟩ := run_total P v MF st hwf hold
    obtain ⟨st2, hst2⟩ := h fuel0 (le_refl _)
    exact ⟨fuel0, st2, hst2⟩
  · intro fuel st2 hrun MBB R inst hA
    obtain ⟨-, cd, dd, hres⟩ := run_branch_result P v fuel MF st st2 hwf hrun MBB R inst hA
    refine ⟨cd, dd, hres, ?_⟩
    intro src hsrc d hd ha hT nx hn hc
    have hnx := (getNextInstr_some P _ d nx hn).1
    rw [hres.2, mem_mergeDependents]
    rcases branchSets_nested P _ _ fuel MBB R inst cd dd hres.1 src hsrc d hd ha hT nx hn hc
      with h | h | h | h
    · exact Or.inl (Or.inr (Or.inl ⟨h, hnx⟩))
    · exact Or.inr (Or.inl h)
    · exact Or.inr (Or.inr h)
    · exact Or.inl (Or.inl ⟨h, hAD nx hnx⟩)

/-- C3 (amended), on the function with the nested compare-and-branch: the
compare 20 consumes the compare 10 of the branch 11, the branch 21 follows 20,
and 21 is in the dependent set of 11 though no data edge leads to it. -/
theorem nested_branch_propagated_unless_seed_witness :
    WellFormed feedP feedF ∧ UniverseInBlocks feedP freshState ∧
    (∀ i, feedP.isActualInstr i = true → feedP.isDebugInstr i = false) ∧
    runOnMachineFunction feedP false 20 feedF freshState = some feedState ∧
    (∀ src, 21 ∉ feedP.data_dependent src) ∧
    21 ∈ feedState.dependent_insts 11 := by
  refine ⟨by decide, by decide, fun _ _ => rfl, rfl, ?_, ?_⟩
  · intro src
    show 21 ∉ (if src = 10 then [20] else [])
    split_ifs <;> decide
  · obtain ⟨cd, dd, -, hn⟩ :=
      (nested_branch_propagated_unless_seed feedP false feedF freshState (by decide)
        (by decide) (fun _ _ => rfl)).2 20 feedState rfl 1 4 11 (by decide)
    rcases hn 10 (Or.inr (Or.inl (by decide))) 20 (by decide) (by decide) (by decide) 21
      (by decide) (by decide) with h | h | h
    · exact h
    · exact absurd h (by decide)
    · exact absurd h (by decide)

/-- C4.  For every analysed branch of a well-formed function, whatever the
edges of the graph, the first step returns, the reconvergence block is not among
the reachable blocks, and no instruction of the reconvergence block is a
control dependent. -/
theorem reconvergence_block_not_control_dependent (P : Program) (MF : MachineFunction)
    (MBB R inst : Nat) (hwf : WellFormed P MF) (hA : Analysed P MF MBB R inst) :
    (∃ fuel rb, reachableBlocks P fuel MBB R = some rb) ∧
    (∀ fuel rb, reachableBlocks P fuel MBB R = some rb →
      R ∉ rb ∧ ∀ i ∈ P.insts R, i ∉ collectInsts P rb []) ∧
    ∀ num T fuel cd dd, branchSets P num T fuel MBB R inst = some (cd, dd) →
      ∀ i ∈ P.insts R, i ∉ cd := by
  have hR : R ∈ MF.blocks := hwf.2.1 MBB hA.1 R hA.2.1
  have key : ∀ fuel rb, reachableBlocks P fuel MBB R = some rb →
      R ∉ rb ∧ ∀ i ∈ P.insts R, i ∉ collectInsts P rb [] := by
    intro fuel rb hrb
    obtain ⟨h1, h2, -⟩ := reachableBlocks_spec P fuel MBB R MF.blocks rb hwf.1 hA.1 hrb
    refine ⟨fun hmem => h2 R hmem rfl, ?_⟩
    intro i hi hcd
    rw [mem_collectInsts] at hcd
    rcases hcd with hcd | ⟨b, hb, hib⟩
    · simp at hcd
    · have e1 := hwf.2.2 b (h1 b hb) i hib
      have e2 := hwf.2.2 R hR i hi
      have : b = R := e1.symm.trans e2
      subst this
      exact h2 b hb rfl
  refine ⟨?_, key, ?_⟩
  · obtain ⟨rb, hrb⟩ := reachableBlocks_terminates P MBB R MF.blocks hwf.1 hA.1
    exact ⟨_, rb, hrb⟩
  · intro num T fuel cd dd h i hi
    obtain ⟨rb, hrb, hcd, -⟩ := branchSets_some P num T fuel MBB R inst cd dd h
    rw [hcd]
    exact (key fuel rb hrb).2 i hi

/-- C4, on the loop function, whose back edges lead into the block of the
branch 11, into its successor B2 and into the reconvergence block B4: the
reachable blocks are B1, B2 and B3, and the instruction 40 of B4 is no control
dependent. -/
theorem reconvergence_block_not_control_dependent_witness :
    WellFormed loopP loopF ∧ Analysed loopP loopF 1 4 11 ∧
    reachableBlocks loopP 20 1 4 = some [1, 2, 3] ∧
    4 ∉ [1, 2, 3] ∧ 40 ∉ collectInsts loopP [1, 2, 3] [] :=
  ⟨by decide, by decide, by decide,
    ((reconvergence_block_not_control_dependent loopP loopF 1 4 11 (by decide)
      (by decide)).2.1 20 [1, 2, 3] (by decide)).1,
    ((reconvergence_block_not_control_dependent loopP loopF 1 4 11 (by decide)
      (by decide)).2.1 20 [1, 2, 3] (by decide)).2 40 (by decide)⟩

/-- C5.  A conditional branch all of whose blocks lack an immediate
post-dominator is skipped: the run leaves its dependent set and its
reconvergence point as they were and the branch is not among those the report
has a record for; when no block of the function has an immediate
post-dominator the report is not written to at all.  The pass returns on every
well-formed function. -/
theorem undefined_reconvergence_skipped (P : Program) (v : Bool) (MF : MachineFunction)
    (st : PassState) (inst : Nat)
    (hund : ∀ MBB ∈ MF.blocks, inst ∈ P.insts MBB → MF.getIDom MBB = none) :
    (WellFormed P MF → UniverseInBlocks P st →
      ∃ fuel st2, runOnMachineFunction P v fuel MF st = some st2) ∧
    ∀ fuel st2, runOnMachineFunction P v fuel MF st = some st2 →
      st2.dependent_insts inst = st.dependent_insts inst ∧
      st2.reconvergence_point inst = st.reconvergence_point inst ∧
      inst ∉ analysedBranches P MF MF.blocks ∧
      st2.info = st.info ++ reportOf P st2 ((10000 + MF.getFunctionNumber) % 4294967296)
        (analysedBranches P MF MF.blocks) ∧
      ((∀ MBB ∈ MF.blocks, MF.getIDom MBB = none) → st2.info = st.info) := by
  have hnot : ¬ ∃ MBB R, Analysed P MF MBB R inst := by
    rintro ⟨MBB, R, h1, h2, h3, -⟩
    rw [hund MBB h1 h3] at h2
    simp at h2
  refine ⟨?_, ?_⟩
  · intro hwf hold
    obtain ⟨fuel0, h⟩ := run_total P v MF st hwf hold
    obtain ⟨st2, hst2⟩ := h fuel0 (le_refl _)
    exact ⟨fuel0, st2, hst2⟩
  · intro fuel st2 hrun
    obtain ⟨-, hres, hinfo⟩ := run_spec P v fuel MF st st2 hrun
    rcases hres inst with ⟨MBB, R, cd, dd, hA, -⟩ | ⟨-, h1, h2⟩
    · exact absurd ⟨MBB, R, hA⟩ hnot
    · refine ⟨h1, h2, ?_, hinfo, ?_⟩
      · rw [mem_analysedBranches]
        exact hnot
      · intro hall
        have hnil : ∀ bs, (∀ b ∈ bs, MF.getIDom b = none) → analysedBranches P MF bs = [] := by
          intro bs
          induction bs with
          | nil => intro _; rfl
          | cons b rest ih =>
            intro hb
            simp [analysedBranches, hb b (List.mem_cons_self _ _),
              ih (fun c hc => hb c (List.mem_cons_of_mem _ hc))]
        rw [hinfo, hnil MF.blocks hall]
        simp [reportOf]

/-- C5, on the branch whose two successors end the function each on its own:
the branch 11 keeps the empty dependent set of the fresh state and the report
stays empty. -/
theorem undefined_reconvergence_skipped_witness :
    (∀ MBB ∈ exitsF.blocks, 11 ∈ exitsP.insts MBB → exitsF.getIDom MBB = none) ∧
    runOnMachineFunction exitsP false 20 exitsF freshState = some exitsState ∧
    exitsState.dependent_insts 11 = [] ∧ exitsState.reconvergence_point 11 = none ∧
    exitsState.info = "" := by
  have h := (undefined_reconvergence_skipped exitsP false exitsF freshState 11
    (by decide)).2 20 exitsState rfl
  exact ⟨by decide, rfl, h.1, h.2.1, h.2.2.2.2 (by decide)⟩

/-- C6.  When substantive instructions are no debug instructions, no debug
instruction is in the dependent set stored for an analysed branch; and in any
case the dependent lines of a record are the lines of the members that are no
debug instructions.  The pass returns on every well-formed function. -/
theorem no_debug_instruction_in_dependents (P : Program) (v : Bool) (MF : MachineFunction)
    (st : PassState) (hAD : ∀ i, P.isActualInstr i = true → P.isDebugInstr i = false) :
    (WellFormed P MF → UniverseInBlocks P st →
      ∃ fuel st2, runOnMachineFunction P v fuel MF st = some st2) ∧
    ∀ fuel st2, runOnMachineFunction P v fuel MF st = some st2 →
      ∀ MBB R inst, Analysed P MF MBB R inst →
        (∀ x ∈ st2.dependent_insts inst, P.isDebugInstr x = false) ∧
        dependentLines P st2.InstructionNumber ((10000 + MF.getFunctionNumber) % 4294967296)
            (st2.dependent_insts inst)
          = linesOf st2.InstructionNumber ((10000 + MF.getFunctionNumber) % 4294967296)
              ((st2.dependent_insts inst).filter (fun d => !P.isDebugInstr d)) := by
  refine ⟨?_, ?_⟩
  · intro hwf hold
    obtain ⟨fuel0, h⟩ := run_total P v MF st hwf hold
    obtain ⟨st2, hst2⟩ := h fuel0 (le_refl _)
    exact ⟨fuel0, st2, hst2⟩
  · intro fuel st2 hrun MBB R inst hA
    refine ⟨?_, dependentLines_eq_linesOf P _ _ _⟩
    rcases (run_spec P v fuel MF st st2 hrun).2.1 inst with ⟨_, _, cd, dd, -, -, hres⟩ | ⟨hn, -⟩
    · rw [hres.2]
      exact mergeDependents_no_debug P hAD cd dd
    · exact absurd ⟨MBB, R, hA⟩ hn

/-- C6, on the loop function: the debug instruction 21 lies in the control
dependent block B2 and is the target of a data edge of the compare 10, and it
is not in the dependent set of the branch 11. -/
theorem no_debug_instruction_in_dependents_witness :
    (∀ i, loopP.isActualInstr i = true → loopP.isDebugInstr i = false) ∧
    runOnMachineFunction loopP false 20 loopF freshState = some loopState ∧
    loopP.isDebugInstr 21 = true ∧ 21 ∈ loopP.insts 2 ∧ 21 ∈ loopP.data_dependent 10 ∧
    21 ∉ loopState.dependent_insts 11 := by
  have hAD : ∀ i, loopP.isActualInstr i = true → loopP.isDebugInstr i = false := by
    intro i hi
    show (i == 21) = false
    have : (i != 21) = true := hi
    simpa using this
  refine ⟨hAD, rfl, by decide, by decide, by decide, ?_⟩
  intro hmem
  have h := ((no_debug_instruction_in_dependents loopP false loopF freshState hAD).2
    20 loopState rfl 1 4 11 (by decide)).1 21 hmem
  exact absurd h (by decide)

/-- C7.  When the substantive instructions of the function are distinct
objects, the numbering gives them, read in layout order, the numbers
0, 1, ..., n-1, the counter ends at n, and an instruction that is not a
substantive instruction of the function keeps the number it had; the run
leaves that numbering in place.  The pass returns on every well-formed
function. -/
theorem instruction_numbers_consecutive (P : Program) (v : Bool) (MF : MachineFunction)
    (st : PassState) (hnd : ((layout P MF.blocks).filter P.isActualInstr).Nodup) :
    (numberFunction P v MF st).1 = ((layout P MF.blocks).filter P.isActualInstr).length ∧
    ((layout P MF.blocks).filter P.isActualInstr).map
        (numberFunction P v MF st).2.InstructionNumber
      = List.range ((layout P MF.blocks).filter P.isActualInstr).length ∧
    (∀ i, i ∉ (layout P MF.blocks).filter P.isActualInstr →
      (numberFunction P v MF st).2.InstructionNumber i = st.InstructionNumber i) ∧
    (WellFormed P MF → UniverseInBlocks P st →
      ∃ fuel st2, runOnMachineFunction P v fuel MF st = some st2) ∧
    ∀ fuel st2, runOnMachineFunction P v fuel MF st = some st2 →
      ((layout P MF.blocks).filter P.isActualInstr).map st2.InstructionNumber
        = List.range ((layout P MF.blocks).filter P.isActualInstr).length ∧
      ∀ i, i ∉ (layout P MF.blocks).filter P.isActualInstr →
        st2.InstructionNumber i = st.InstructionNumber i := by
  have hnum := numberFunction_numbered P v MF st
  refine ⟨?_, ?_, hnum.keep, ?_, ?_⟩
  · simpa using hnum.counter
  · rw [hnum.numbers hnd, List.range_eq_range']
  · intro hwf hold
    obtain ⟨fuel0, h⟩ := run_total P v MF st hwf hold
    obtain ⟨st2, hst2⟩ := h fuel0 (le_refl _)
    exact ⟨fuel0, st2, hst2⟩
  · intro fuel st2 hrun
    obtain ⟨⟨c, st1, hn, h1, -⟩, -, -⟩ := run_spec P v fuel MF st st2 hrun
    rw [h1]
    exact ⟨by rw [hn.numbers hnd, List.range_eq_range'], hn.keep⟩

/-- C7, on the loop function: its six substantive instructions get the numbers
0 to 5 and the debug instruction 21 keeps the number it had. -/
theorem instruction_numbers_consecutive_witness :
    ((layout loopP loopF.blocks).filter loopP.isActualInstr).Nodup ∧
    (layout loopP loopF.blocks).filter loopP.isActualInstr = [10, 11, 20, 30, 31, 40] ∧
    runOnMachineFunction loopP false 20 loopF freshState = some loopState ∧
    [10, 11, 20, 30, 31, 40].map loopState.InstructionNumber = List.range 6 ∧
    loopState.InstructionNumber 21 = freshState.InstructionNumber 21 := by
  have h := (instruction_numbers_consecutive loopP false loopF freshState
    (by decide)).2.2.2.2 20 loopState rfl
  exact ⟨by decide, by decide, rfl, h.1, h.2 21 (by decide)⟩

theorem analysedBranches_sublist (P : Program) (MF : MachineFunction) (bs : List Nat) :
    List.Sublist (analysedBranches P MF bs) (layout P bs) := by
  induction bs with
  | nil => exact List.Sublist.refl _
  | cons b rest ih =>
    unfold analysedBranches layout
    refine List.Sublist.append ?_ ih
    split_ifs
    · exact List.filter_sublist _
    · exact List.nil_sublist _

/-- C8.  What a run adds to the report is the records of the analysed branches,
one whole record after the other: the branches are those conditional branches
whose block has a reconvergence point, in layout order, each of them once when
the instructions of the function are distinct objects.  The pass returns on
every well-formed function. -/
theorem report_is_records_in_order (P : Program) (v : Bool) (MF : MachineFunction)
    (st : PassState) :
    (WellFormed P MF → UniverseInBlocks P st →
      ∃ fuel st2, runOnMachineFunction P v fuel MF st = some st2) ∧
    (∀ fuel st2, runOnMachineFunction P v fuel MF st = some st2 →
      st2.info = st.info ++ reportOf P st2 ((10000 + MF.getFunctionNumber) % 4294967296)
        (analysedBranches P MF MF.blocks)) ∧
    (∀ inst, inst ∈ analysedBranches P MF MF.blocks ↔ ∃ MBB R, Analysed P MF MBB R inst) ∧
    List.Sublist (analysedBranches P MF MF.blocks) (layout P MF.blocks) ∧
    ((layout P MF.blocks).Nodup → (analysedBranches P MF MF.blocks).Nodup) := by
  refine ⟨?_, ?_, ?_, analysedBranches_sublist P MF MF.blocks,
    fun h => List.Nodup.sublist (analysedBranches_sublist P MF MF.blocks) h⟩
  · intro hwf hold
    obtain ⟨fuel0, h⟩ := run_total P v MF st hwf hold
    obtain ⟨st2, hst2⟩ := h fuel0 (le_refl _)
    exact ⟨fuel0, st2, hst2⟩
  · intro fuel st2 hrun
    exact (run_spec P v fuel MF st st2 hrun).2.2
  · intro inst
    rw [mem_analysedBranches]
    rfl

/-- C8, on the chain function with its two branches 11 and 12: the report is the
record of 11 followed by the record of 12. -/
theorem report_is_records_in_order_witness :
    runOnMachineFunction nestedP false 20 nestedF freshState = some nestedState ∧
    analysedBranches nestedP nestedF nestedF.blocks = [11, 12] ∧
    nestedState.info
      = "* 1  10000\n0 10000\n4 10000\n---\n" ++ ("* 2  10000\n0 10000\n4 10000\n---\n" ++ "") := by
  refine ⟨rfl, by decide, ?_⟩
  have h := (report_is_records_in_order nestedP false nestedF freshState).2.1 20 nestedState rfl
  rw [h]
  decide

/-- C10 (the code departs from the claim).  The set `total_actual_insts` is never
cleared: after the pass has run on the first function of the module, the
instruction 10 of that function is still in the universe when the second
function is analysed, so the data edge from the compare 20 to the foreign
instruction 10 passes the filter and 10 ends up in the data dependents and in
the dependent set of the branch 21, and the report lists it under the number 0
of function 10001.  Analysed on its own, the second function gives the branch
21 an empty dependent set. -/
theorem stale_universe_admits_foreign_instruction :
    ((runOnMachineFunction moduleP false 20 firstF freshState).bind
        (runOnMachineFunction moduleP false 20 secondF)).map
      (fun s => (s.total_actual_insts, s.data_dependents, s.dependent_insts 21, s.info))
      = some ([10, 20, 21, 30], [10], [10], "* 1  10001\n0 10001\n---\n") ∧
    10 ∉ layout moduleP secondF.blocks ∧
    10 ∈ moduleP.data_dependent 20 ∧
    (runOnMachineFunction moduleP false 20 secondF freshState).map
      (fun s => (s.total_actual_insts, s.data_dependents, s.dependent_insts 21, s.info))
      = some ([20, 21, 30], [], [], "* 1  10001\n---\n") := by
  decide

/-! ## Termination of the two loops -/

theorem bbLoop_queue_empty (P : Program) (R : Nat) (fuel : Nat) (st r : BBState)
    (hr : bbLoop P R fuel st = some r) : r.bb_queue = [] := by
  induction fuel generalizing st with
  | zero =>
    unfold bbLoop at hr
    split_ifs at hr with hq
    simp at hr; subst hr; exact hq
  | succ fuel ih =>
    unfold bbLoop at hr
    cases hq : st.bb_queue with
    | nil => rw [hq] at hr; simp at hr; subst hr; exact hq
    | cons b q =>
      rw [hq] at hr
      simp only at hr
      exact ih _ hr

theorem bbLoop_deterministic (P : Program) (R : Nat) (fuel fuel2 : Nat) (st r r2 : BBState)
    (hr : bbLoop P R fuel st = some r) (hr2 : bbLoop P R fuel2 st = some r2) : r2 = r := by
  have h1 := bbLoop_mono P R fuel (max fuel fuel2) st r (le_max_left _ _) hr
  have h2 := bbLoop_mono P R fuel2 (max fuel fuel2) st r2 (le_max_right _ _) hr2
  rw [h1] at h2
  exact (Option.some.inj h2).symm

/-- C11.  For every analysed branch of a well-formed function, whatever the
edges of the graph (back edges and self loops included), the work-queue loop of
the first step comes to its end within as many pops as the block of the branch
has successors plus the function has blocks: the queue is empty, every block
number was recorded, and so every block queued by the expansion step, at most
once, and more fuel gives the same result. -/
theorem block_loop_terminates (P : Program) (MF : MachineFunction) (MBB R inst : Nat)
    (hwf : WellFormed P MF) (hA : Analysed P MF MBB R inst) :
    ∃ r, bbLoop P R ((P.succs MBB).length + MF.blocks.length)
        { bb_queue := initQueue P MBB R, visited_bb_numbers := [], reachable_blocks := [] }
        = some r ∧
      r.bb_queue = [] ∧ r.visited_bb_numbers.Nodup ∧
      r.visited_bb_numbers.length ≤ MF.blocks.length ∧
      reachableBlocks P ((P.succs MBB).length + MF.blocks.length) MBB R
        = some r.reachable_blocks ∧
      ∀ fuel r2, bbLoop P R fuel
        { bb_queue := initQueue P MBB R, visited_bb_numbers := [], reachable_blocks := [] }
        = some r2 → r2 = r := by
  have hinv := bbInv_init P MBB R MF.blocks (hwf.1 MBB hA.1)
  obtain ⟨r, hr⟩ := bbLoop_terminates P R MF.blocks hwf.1
    ((P.succs MBB).length + MF.blocks.length) _ hinv (by
      simp only [List.length_nil, add_zero]
      have : (initQueue P MBB R).length ≤ (P.succs MBB).length := List.length_filter_le _ _
      omega)
  have hinv2 := bbLoop_inv P R MF.blocks hwf.1 _ _ r hinv hr
  refine ⟨r, hr, bbLoop_queue_empty P R _ _ r hr, hinv2.visited_nodup,
    bbInv_visited_le P R MF.blocks r hinv2, by simp [reachableBlocks, hr], ?_⟩
  intro fuel r2 hr2
  exact bbLoop_deterministic P R _ fuel _ r r2 hr hr2

/-- C11, on the loop function, whose graph has back edges and a self loop: for
the branch 11 the loop ends within 2 + 4 pops and has recorded the block
numbers 3, 2 and 1, each once. -/
theorem block_loop_terminates_witness :
    WellFormed loopP loopF ∧ Analysed loopP loopF 1 4 11 ∧
    (bbLoop loopP 4 6
      { bb_queue := initQueue loopP 1 4, visited_bb_numbers := [], reachable_blocks := [] }).map
      (fun r => (r.bb_queue, r.visited_bb_numbers, r.reachable_blocks))
      = some ([], [3, 2, 1], [1, 2, 3]) ∧
    ∃ r, bbLoop loopP 4 ((loopP.succs 1).length + loopF.blocks.length)
        { bb_queue := initQueue loopP 1 4, visited_bb_numbers := [], reachable_blocks := [] }
        = some r ∧ r.bb_queue = [] := by
  refine ⟨by decide, by decide, by decide, ?_⟩
  obtain ⟨r, h1, h2, -⟩ := block_loop_terminates loopP loopF 1 4 11 (by decide) (by decide)
  exact ⟨r, h1, h2⟩

theorem ddLoop_processed_mono (P : Program) (num : Nat → Nat) (T : List Nat) (fuel : Nat)
    (s r : DDState) (hr : ddLoop P num T fuel s = some r) :
    ∀ x ∈ s.processed_insts, x ∈ r.processed_insts := by
  induction fuel generalizing s with
  | zero =>
    unfold ddLoop at hr
    split_ifs at hr with hq
    simp at hr; subst hr; exact fun x hx => hx
  | succ fuel ih =>
    unfold ddLoop at hr
    cases hq : s.inst_queue with
    | nil => rw [hq] at hr; simp at hr; subst hr; exact fun x hx => hx
    | cons Inst q =>
      rw [hq] at hr
      simp only at hr
      split_ifs at hr with hproc
      · exact ih { s with inst_queue := q } hr
      · cases he : expandDeps P num T (P.data_dependent Inst)
            { s with inst_queue := q, processed_insts := setInsert Inst s.processed_insts } with
        | none => rw [he] at hr; simp at hr
        | some s2 =>
          rw [he] at hr
          simp only [Option.some_bind] at hr
          have hp := (expandDeps_spec P num T _ _ _ he).1
          intro x hx
          apply ih s2 hr
          rw [hp]
          simp only [mem_setInsert]
          exact Or.inr hx

/-- C12.  On every well-formed function the pass returns, and with the numbering
and the universe it leaves, the frontier loop started on any seeds (those of a
branch among them) comes to its end, whatever the data-dependency edges: a fuel
of one pop per seed plus two pops per edge of each instruction of the finite
universe, counted once, is enough.  An instruction found in `processed_insts`
is popped without being expanded, an instruction that is expanded is put in
`processed_insts` first, and what is in `processed_insts` stays there, so no
instruction is expanded twice; the queue is empty at the end. -/
theorem frontier_loop_terminates (P : Program) (v : Bool) (MF : MachineFunction)
    (st : PassState) (hwf : WellFormed P MF) (hold : UniverseInBlocks P st) :
    (∃ fuel st2, runOnMachineFunction P v fuel MF st = some st2) ∧
    ∀ fuel st2, runOnMachineFunction P v fuel MF st = some st2 →
      (∀ seeds, ∃ r, ddLoop P st2.InstructionNumber st2.total_actual_insts
          (frontierFuel P st2.InstructionNumber st2.total_actual_insts seeds)
          { inst_queue := seeds, processed_insts := [], data_dependents := [] } = some r ∧
        r.inst_queue = [] ∧ ∀ x ∈ seeds, x ∈ r.processed_insts) ∧
      (∀ n (s : DDState) Inst q, s.inst_queue = Inst :: q → Inst ∈ s.processed_insts →
        ddLoop P st2.InstructionNumber st2.total_actual_insts (n + 1) s
          = ddLoop P st2.InstructionNumber st2.total_actual_insts n { s with inst_queue := q }) ∧
      (∀ n (s : DDState) Inst q, s.inst_queue = Inst :: q → Inst ∉ s.processed_insts →
        ∃ s2, expandDeps P st2.InstructionNumber st2.total_actual_insts (P.data_dependent Inst)
            { s with inst_queue := q, processed_insts := setInsert Inst s.processed_insts }
            = some s2 ∧
          Inst ∈ s2.processed_insts ∧
          ddLoop P st2.InstructionNumber st2.total_actual_insts (n + 1) s
            = ddLoop P st2.InstructionNumber st2.total_actual_insts n s2) ∧
      (∀ n (s r : DDState), ddLoop P st2.InstructionNumber st2.total_actual_insts n s = some r →
        ∀ x ∈ s.processed_insts, x ∈ r.processed_insts) := by
  refine ⟨?_, ?_⟩
  · obtain ⟨fuel0, h⟩ := run_total P v MF st hwf hold
    obtain ⟨st2, hst2⟩ := h fuel0 (le_refl _)
    exact ⟨fuel0, st2, hst2⟩
  · intro fuel st2 hrun
    obtain ⟨⟨c, st1, hnum, h1, h2⟩, -, -⟩ := run_spec P v fuel MF st st2 hrun
    have hdef : ∀ d ∈ st2.total_actual_insts, P.isActualInstr d = true →
        ∃ r, getNextInstr P st2.InstructionNumber d = some r := by
      rw [h1, h2]
      exact getNextInstr_defined_on_universe P MF st c st1 hwf hold hnum
    refine ⟨?_, ?_, ?_, ?_⟩
    · intro seeds
      obtain ⟨r, hr⟩ := ddLoop_seeds_terminates P st2.InstructionNumber
        st2.total_actual_insts seeds hdef
      obtain ⟨hinv, hq⟩ := ddLoop_inv P _ _ seeds _ _ r (ddInv_init P _ _ seeds) hr
      refine ⟨r, hr, hq, ?_⟩
      intro x hx
      have := hinv.pending x (Or.inl hx)
      rw [hq] at this
      simpa using this
    · intro n s Inst q hq hproc
      conv_lhs => unfold ddLoop
      simp only [hq, hproc, if_true]
    · intro n s Inst q hq hproc
      obtain ⟨s2, hs2⟩ := expandDeps_total P _ _ hdef (P.data_dependent Inst)
        { s with inst_queue := q, processed_insts := setInsert Inst s.processed_insts }
      refine ⟨s2, hs2, ?_, ?_⟩
      · rw [(expandDeps_spec P _ _ _ _ _ hs2).1]
        simp [mem_setInsert]
      · conv_lhs => unfold ddLoop
        simp only [hq, hproc, if_false, hs2, Option.some_bind]
    · intro n s r hr
      exact ddLoop_processed_mono P _ _ n s r hr

/-- C12, on the loop function with the cyclic data edges 10 -> 30 -> 10: the
frontier loop of the branch 11 ends with an empty queue, although 10, 11 and 30
were each pushed more than once. -/
theorem frontier_loop_terminates_witness :
    WellFormed loopP loopF ∧ UniverseInBlocks loopP freshState ∧
    runOnMachineFunction loopP false 20 loopF freshState = some loopState ∧
    seedQueue loopP loopState.InstructionNumber 11 [10, 11, 20, 21, 30, 31]
      = [11, 10, 10, 11, 20, 30, 31] ∧
    ∃ r, ddLoop loopP loopState.InstructionNumber loopState.total_actual_insts
        (frontierFuel loopP loopState.InstructionNumber loopState.total_actual_insts
          [11, 10, 10, 11, 20, 30, 31])
        { inst_queue := [11, 10, 10, 11, 20, 30, 31], processed_insts := [],
          data_dependents := [] } = some r ∧
      r.inst_queue = [] := by
  refine ⟨by decide, by decide, rfl, by decide, ?_⟩
  obtain ⟨r, h1, h2, -⟩ :=
    ((frontier_loop_terminates loopP false loopF freshState (by decide) (by decide)).2
      20 loopState rfl).1 [11, 10, 10, 11, 20, 30, 31]
  exact ⟨r, h1, h2⟩

/-! ## Running the pass again -/

theorem expandDeps_congr (P : Program) (num : Nat → Nat) (T T2 : List Nat)
    (hT : ∀ x, x ∈ T ↔ x ∈ T2) (ds : List Nat) (s : DDState) :
    expandDeps P num T ds s = expandDeps P num T2 ds s := by
  induction ds generalizing s with
  | nil => rfl
  | cons d ds ih =>
    unfold expandDeps
    simp only [hT d, ih]

theorem ddLoop_congr (P : Program) (num : Nat → Nat) (T T2 : List Nat)
    (hT : ∀ x, x ∈ T ↔ x ∈ T2) (fuel : Nat) (s : DDState) :
    ddLoop P num T fuel s = ddLoop P num T2 fuel s := by
  induction fuel generalizing s with
  | zero => rfl
  | succ fuel ih =>
    unfold ddLoop
    cases s.inst_queue with
    | nil => rfl
    | cons Inst q =>
      simp only [ih, expandDeps_congr P num T T2 hT]

theorem branchSets_congr (P : Program) (num : Nat → Nat) (T T2 : List Nat)
    (hT : ∀ x, x ∈ T ↔ x ∈ T2) (fuel MBB R inst : Nat) :
    branchSets P num T fuel MBB R inst = branchSets P num T2 fuel MBB R inst := by
  unfold branchSets
  simp only [ddLoop_congr P num T T2 hT]

theorem branchSets_deterministic (P : Program) (num : Nat → Nat) (T : List Nat)
    (fuel fuel2 MBB R inst : Nat) (r r2 : List Nat × List Nat)
    (h : branchSets P num T fuel MBB R inst = some r)
    (h2 : branchSets P num T fuel2 MBB R inst = some r2) : r2 = r := by
  have a := branchSets_mono P num T fuel (max fuel fuel2) MBB R inst r (le_max_left _ _) h
  have b := branchSets_mono P num T fuel2 (max fuel fuel2) MBB R inst r2 (le_max_right _ _) h2
  rw [a] at b
  exact (Option.some.inj b).symm

/-- The numbers the loop over a block gives to its substantive instructions,
and the counter it ends with, do not depend on the state it starts from. -/
theorem foldl_numberInst_agree (P : Program) (v v2 : Bool) (l : List Nat) (c : Nat)
    (st st2 : PassState) :
    (l.foldl (numberInst P v) (c, st)).1 = (l.foldl (numberInst P v2) (c, st2)).1 ∧
    ∀ i ∈ l.filter P.isActualInstr,
      (l.foldl (numberInst P v) (c, st)).2.InstructionNumber i
        = (l.foldl (numberInst P v2) (c, st2)).2.InstructionNumber i := by
  induction l generalizing c st st2 with
  | nil => exact ⟨rfl, by simp⟩
  | cons i0 rest ih =>
    simp only [List.foldl_cons]
    by_cases ha : P.isActualInstr i0 = true
    · have e1 : numberInst P v (c, st) i0 = (c + 1, (numberInst P v (c, st) i0).2) := by
        simp [numberInst, ha]
      have e2 : numberInst P v2 (c, st2) i0 = (c + 1, (numberInst P v2 (c, st2) i0).2) := by
        simp [numberInst, ha]
      rw [e1, e2]
      obtain ⟨h1, h2⟩ := ih (c + 1) (numberInst P v (c, st) i0).2 (numberInst P v2 (c, st2) i0).2
      refine ⟨h1, ?_⟩
      intro i hi
      by_cases hr : i ∈ rest.filter P.isActualInstr
      · exact h2 i hr
      · have hi0 : i = i0 := by
          simp only [List.filter_cons, ha, if_true, List.mem_cons] at hi
          rcases hi with hi | hi
          · exact hi
          · exact absurd hi hr
        subst hi0
        have k1 := (foldl_numberInst_numbered P v rest
          (c + 1, (numberInst P v (c, st) i).2)).keep i hr
        have k2 := (foldl_numberInst_numbered P v2 rest
          (c + 1, (numberInst P v2 (c, st2) i).2)).keep i hr
        simp only at k1 k2
        rw [k1, k2]
        simp [numberInst, ha]
    · have e1 : numberInst P v (c, st) i0 = (c, st) := by simp [numberInst, ha]
      have e2 : numberInst P v2 (c, st2) i0 = (c, st2) := by simp [numberInst, ha]
      rw [e1, e2]
      obtain ⟨h1, h2⟩ := ih c st st2
      refine ⟨h1, ?_⟩
      intro i hi
      apply h2
      simpa [List.filter_cons, ha] using hi

/-- The same for the loop over the blocks of a function. -/
theorem foldl_numberBlock_agree (P : Program) (v v2 : Bool) (bs : List Nat) (c : Nat)
    (st st2 : PassState) :
    (bs.foldl (numberBlock P v) (c, st)).1 = (bs.foldl (numberBlock P v2) (c, st2)).1 ∧
    ∀ i ∈ (layout P bs).filter P.isActualInstr,
      (bs.foldl (numberBlock P v) (c, st)).2.InstructionNumber i
        = (bs.foldl (numberBlock P v2) (c, st2)).2.InstructionNumber i := by
  induction bs generalizing c st st2 with
  | nil => exact ⟨rfl, by simp [layout]⟩
  | cons b rest ih =>
    simp only [List.foldl_cons]
    have hb : (numberBlock P v (c, st) b).1 = (numberBlock P v2 (c, st2) b).1 ∧
        ∀ i ∈ (P.insts b).filter P.isActualInstr,
          (numberBlock P v (c, st) b).2.InstructionNumber i
            = (numberBlock P v2 (c, st2) b).2.InstructionNumber i := by
      unfold numberBlock
      exact foldl_numberInst_agree P v v2 (P.insts b) c _ _
    obtain ⟨hb1, hb2⟩ := hb
    have e1 : numberBlock P v (c, st) b
        = ((numberBlock P v (c, st) b).1, (numberBlock P v (c, st) b).2) := rfl
    have e2 : numberBlock P v2 (c, st2) b
        = ((numberBlock P v (c, st) b).1, (numberBlock P v2 (c, st2) b).2) := by
      rw [hb1]
    rw [e1, e2]
    obtain ⟨h1, h2⟩ := ih (numberBlock P v (c, st) b).1 (numberBlock P v (c, st) b).2
      (numberBlock P v2 (c, st2) b).2
    refine ⟨h1, ?_⟩
    intro i hi
    by_cases hr : i ∈ (layout P rest).filter P.isActualInstr
    · exact h2 i hr
    · have hib : i ∈ (P.insts b).filter P.isActualInstr := by
        simp only [layout, List.filter_append, List.mem_append] at hi
        rcases hi with hi | hi
        · exact hi
        · exact absurd hi hr
      have k1 := (foldl_numberBlock_numbered P v rest
        ((numberBlock P v (c, st) b).1, (numberBlock P v (c, st) b).2)).keep i hr
      have k2 := (foldl_numberBlock_numbered P v2 rest
        ((numberBlock P v (c, st) b).1, (numberBlock P v2 (c, st2) b).2)).keep i hr
      simp only at k1 k2
      rw [k1, k2]
      exact hb2 i hib

/-- Numbering a function that carries the numbers of an earlier numbering of
the same function changes no number. -/
theorem numberFunction_again (P : Program) (v v2 : Bool) (MF : MachineFunction)
    (st st2 : PassState)
    (h : st2.InstructionNumber = (numberFunction P v MF st).2.InstructionNumber) :
    (numberFunction P v2 MF st2).2.InstructionNumber = st2.InstructionNumber := by
  funext i
  by_cases hi : i ∈ (layout P MF.blocks).filter P.isActualInstr
  · rw [h]
    exact ((foldl_numberBlock_agree P v2 v MF.blocks 0 st2 st).2 i hi)
  · exact (numberFunction_numbered P v2 MF st2).keep i hi

theorem run_numbering (P : Program) (v : Bool) (fuel : Nat) (MF : MachineFunction)
    (st st2 : PassState) (h : runOnMachineFunction P v fuel MF st = some st2) :
    st2.InstructionNumber
      = (numberFunction P v MF
          (printBanner v MF ((10000 + MF.getFunctionNumber) % 4294967296) st)).2.InstructionNumber ∧
    st2.total_actual_insts
      = (numberFunction P v MF
          (printBanner v MF ((10000 + MF.getFunctionNumber) % 4294967296) st)).2.total_actual_insts := by
  unfold runOnMachineFunction at h
  simp only [Option.map_eq_some'] at h
  obtain ⟨s1, hs1, hs2⟩ := h
  obtain ⟨a1, a2, -⟩ := analyseBlocks_spec P MF fuel MF.blocks _ _ hs1
  obtain ⟨d1, -, -, d4, -⟩ := dumpBlocks_spec P v MF ((10000 + MF.getFunctionNumber) % 4294967296)
    MF.blocks s1
  rw [hs2] at d1 d4
  exact ⟨d1.trans a1, d4.trans a2⟩

theorem run_universe (P : Program) (v : Bool) (fuel : Nat) (MF : MachineFunction)
    (st st2 : PassState) (h : runOnMachineFunction P v fuel MF st = some st2) :
    ∀ x, x ∈ st2.total_actual_insts ↔
      x ∈ st.total_actual_insts ∨ x ∈ (layout P MF.blocks).filter P.isActualInstr := by
  obtain ⟨⟨c, st1, hnum, -, hT⟩, -, -⟩ := run_spec P v fuel MF st st2 h
  intro x
  rw [hT, hnum.univ]

theorem run_universe_in_blocks (P : Program) (v : Bool) (fuel : Nat) (MF : MachineFunction)
    (st st2 : PassState) (hwf : WellFormed P MF) (hold : UniverseInBlocks P st)
    (h : runOnMachineFunction P v fuel MF st = some st2) : UniverseInBlocks P st2 := by
  intro d hd ha
  rcases (run_universe P v fuel MF st st2 h d).1 hd with h1 | h1
  · exact hold d h1 ha
  · obtain ⟨b, hb, hdb⟩ := (mem_layout P MF.blocks d).1 (List.mem_of_mem_filter h1)
    rw [hwf.2.2 b hb d hdb]
    exact hdb

theorem analyseBranch_mono (P : Program) (fuel fuel2 MBB R inst : Nat) (st st2 : PassState)
    (hle : fuel ≤ fuel2) (h : analyseBranch P fuel MBB R inst st = some st2) :
    analyseBranch P fuel2 MBB R inst st = some st2 := by
  unfold analyseBranch at h ⊢
  simp only [Option.map_eq_some'] at h ⊢
  obtain ⟨sets, hs, hst⟩ := h
  exact ⟨sets, branchSets_mono P _ _ fuel fuel2 MBB R inst sets hle hs, hst⟩

theorem analyseInsts_mono (P : Program) (fuel fuel2 MBB : Nat) (rp : Option Nat)
    (l : List Nat) (st st2 : PassState) (hle : fuel ≤ fuel2)
    (h : analyseInsts P fuel MBB rp l st = some st2) :
    analyseInsts P fuel2 MBB rp l st = some st2 := by
  induction l generalizing st with
  | nil => simpa [analyseInsts] using h
  | cons i rest ih =>
    unfold analyseInsts at h ⊢
    simp only at h ⊢
    cases rp with
    | none => exact ih _ h
    | some R =>
      simp only at h ⊢
      split_ifs at h ⊢ with hc
      · simp only [Option.bind_eq_some] at h ⊢
        obtain ⟨s1, hs1, hs2⟩ := h
        exact ⟨s1, analyseBranch_mono P fuel fuel2 MBB R i _ s1 hle hs1, ih _ hs2⟩
      · exact ih _ h

theorem analyseBlocks_mono (P : Program) (MF : MachineFunction) (fuel fuel2 : Nat)
    (bs : List Nat) (st st2 : PassState) (hle : fuel ≤ fuel2)
    (h : analyseBlocks P MF fuel bs st = some st2) :
    analyseBlocks P MF fuel2 bs st = some st2 := by
  induction bs generalizing st with
  | nil => simpa [analyseBlocks] using h
  | cons b rest ih =>
    unfold analyseBlocks at h ⊢
    simp only [Option.bind_eq_some] at h ⊢
    obtain ⟨s1, hs1, hs2⟩ := h
    exact ⟨s1, analyseInsts_mono P fuel fuel2 b _ _ _ s1 hle hs1, ih _ hs2⟩

/-- More fuel does not change what the pass returns. -/
theorem run_mono (P : Program) (v : Bool) (fuel fuel2 : Nat) (MF : MachineFunction)
    (st st2 : PassState) (hle : fuel ≤ fuel2)
    (h : runOnMachineFunction P v fuel MF st = some st2) :
    runOnMachineFunction P v fuel2 MF st = some st2 := by
  unfold runOnMachineFunction at h ⊢
  simp only [Option.map_eq_some'] at h ⊢
  obtain ⟨s1, hs1, hs2⟩ := h
  exact ⟨s1, analyseBlocks_mono P MF fuel fuel2 MF.blocks _ s1 hle hs1, hs2⟩

/-- C13.  On a well-formed function the pass can be run twice in a row, and the
second run, started from the state the first one left, leaves the numbering,
the dependent set and the reconvergence point of every instruction as they
were and adds to the report the very text the first run added: the report ends
in two identical blocks. -/
theorem rerun_is_idempotent (P : Program) (v : Bool) (MF : MachineFunction)
    (st : PassState) (hwf : WellFormed P MF) (hold : UniverseInBlocks P st) :
    (∃ fuel st2 st3, runOnMachineFunction P v fuel MF st = some st2 ∧
      runOnMachineFunction P v fuel MF st2 = some st3) ∧
    ∀ fuel fuel2 st2 st3, runOnMachineFunction P v fuel MF st = some st2 →
      runOnMachineFunction P v fuel2 MF st2 = some st3 →
      st3.InstructionNumber = st2.InstructionNumber ∧
      st3.dependent_insts = st2.dependent_insts ∧
      st3.reconvergence_point = st2.reconvergence_point ∧
      st2.info = st.info ++ reportOf P st2 ((10000 + MF.getFunctionNumber) % 4294967296)
        (analysedBranches P MF MF.blocks) ∧
      st3.info = st.info ++ reportOf P st2 ((10000 + MF.getFunctionNumber) % 4294967296)
          (analysedBranches P MF MF.blocks)
        ++ reportOf P st2 ((10000 + MF.getFunctionNumber) % 4294967296) (analysedBranches P MF MF.blocks) := by
  refine ⟨?_, ?_⟩
  · obtain ⟨f1, h1⟩ := run_total P v MF st hwf hold
    obtain ⟨st2, hst2⟩ := h1 f1 (le_refl _)
    obtain ⟨f2, h2⟩ := run_total P v MF st2 hwf
      (run_universe_in_blocks P v f1 MF st st2 hwf hold hst2)
    obtain ⟨st3, hst3⟩ := h2 (max f1 f2) (le_max_right _ _)
    exact ⟨max f1 f2, st2, st3, run_mono P v f1 _ MF st st2 (le_max_left _ _) hst2, hst3⟩
  · intro fuel fuel2 st2 st3 hrun hrun2
    obtain ⟨n1, t1⟩ := run_numbering P v fuel MF st st2 hrun
    obtain ⟨n2, -⟩ := run_numbering P v fuel2 MF st2 st3 hrun2
    have hnum : st3.InstructionNumber = st2.InstructionNumber := by
      rw [n2]
      exact numberFunction_again P v v MF
        (printBanner v MF ((10000 + MF.getFunctionNumber) % 4294967296) st)
        (printBanner v MF ((10000 + MF.getFunctionNumber) % 4294967296) st2) n1
    have hT : ∀ x, x ∈ st3.total_actual_insts ↔ x ∈ st2.total_actual_insts := by
      intro x
      rw [run_universe P v fuel2 MF st2 st3 hrun2 x, run_universe P v fuel MF st st2 hrun x]
      tauto
    have hpoint : ∀ inst, st3.dependent_insts inst = st2.dependent_insts inst ∧
        st3.reconvergence_point inst = st2.reconvergence_point inst := by
      intro inst
      rcases (run_spec P v fuel2 MF st2 st3 hrun2).2.1 inst with
        ⟨MBB, R, -, -, hA, -, -⟩ | ⟨-, h1, h2⟩
      · obtain ⟨r3, cd3, dd3, b3, e3⟩ :=
          run_branch_result P v fuel2 MF st2 st3 hwf hrun2 MBB R inst hA
        obtain ⟨r2, cd2, dd2, b2, e2⟩ :=
          run_branch_result P v fuel MF st st2 hwf hrun MBB R inst hA
        rw [hnum, branchSets_congr P _ _ _ hT] at b3
        have := branchSets_deterministic P _ _ fuel fuel2 MBB R inst _ _ b2 b3
        simp only [Prod.mk.injEq] at this
        rw [e3, e2, this.1, this.2, r3, r2]
        exact ⟨rfl, rfl⟩
      · exact ⟨h1, h2⟩
    have hdep : st3.dependent_insts = st2.dependent_insts := funext fun i => (hpoint i).1
    have hrp : st3.reconvergence_point = st2.reconvergence_point :=
      funext fun i => (hpoint i).2
    have i2 := (run_spec P v fuel MF st st2 hrun).2.2
    have i3 := (run_spec P v fuel2 MF st2 st3 hrun2).2.2
    refine ⟨hnum, hdep, hrp, i2, ?_⟩
    rw [i3, reportOf_congr P st2 st3 _ _ hnum hdep]
    conv_lhs => rw [i2]

/-- C13, on the loop function: the second run leaves the dependent set of the
branch 11 as it was, and the report holds the text of the first run twice. -/
theorem rerun_is_idempotent_witness :
    WellFormed loopP loopF ∧ UniverseInBlocks loopP freshState ∧
    runOnMachineFunction loopP false 20 loopF freshState = some loopState ∧
    ∃ st3, runOnMachineFunction loopP false 20 loopF loopState = some st3 ∧
      st3.dependent_insts 11 = [10, 11, 20, 30, 31] ∧
      st3.info = loopState.info ++ loopState.info := by
  have hs : (runOnMachineFunction loopP false 20 loopF loopState).isSome = true := by decide
  obtain ⟨st3, h3⟩ := Option.isSome_iff_exists.1 hs
  obtain ⟨-, hdep, -, i2, i3⟩ :=
    (rerun_is_idempotent loopP false loopF freshState (by decide) (by decide)).2
      20 20 loopState st3 rfl h3
  refine ⟨by decide, by decide, rfl, st3, h3, ?_, ?_⟩
  · rw [hdep]; decide
  · have e : freshState.info = "" := rfl
    rw [e, String.empty_append] at i2
    rw [i3, e, String.empty_append, ← i2]

/-! ## The diagnostic stream -/

theorem numberInst_setErrs (P : Program) (v : Bool) (c : Nat) (st : PassState)
    (e : List String) (i : Nat) :
    ∃ e2, numberInst P v (c, st.setErrs e) i
      = ((numberInst P false (c, st) i).1, (numberInst P false (c, st) i).2.setErrs e2) := by
  unfold numberInst
  by_cases ha : P.isActualInstr i = true
  · simp only [ha, if_true]
    exact ⟨_, rfl⟩
  · simp only [ha]
    exact ⟨e, rfl⟩

theorem foldl_numberInst_setErrs (P : Program) (v : Bool) (l : List Nat) (c : Nat)
    (st : PassState) (e : List String) :
    ∃ e2, l.foldl (numberInst P v) (c, st.setErrs e)
      = ((l.foldl (numberInst P false) (c, st)).1,
          (l.foldl (numberInst P false) (c, st)).2.setErrs e2) := by
  induction l generalizing c st e with
  | nil => exact ⟨e, rfl⟩
  | cons i rest ih =>
    obtain ⟨e1, h1⟩ := numberInst_setErrs P v c st e i
    simp only [List.foldl_cons, h1]
    exact ih _ _ e1

theorem numberBlock_setErrs (P : Program) (v : Bool) (c : Nat) (st : PassState)
    (e : List String) (b : Nat) :
    ∃ e2, numberBlock P v (c, st.setErrs e) b
      = ((numberBlock P false (c, st) b).1, (numberBlock P false (c, st) b).2.setErrs e2) := by
  unfold numberBlock
  exact foldl_numberInst_setErrs P v (P.insts b) c st _

theorem foldl_numberBlock_setErrs (P : Program) (v : Bool) (bs : List Nat) (c : Nat)
    (st : PassState) (e : List String) :
    ∃ e2, bs.foldl (numberBlock P v) (c, st.setErrs e)
      = ((bs.foldl (numberBlock P false) (c, st)).1,
          (bs.foldl (numberBlock P false) (c, st)).2.setErrs e2) := by
  induction bs generalizing c st e with
  | nil => exact ⟨e, rfl⟩
  | cons b rest ih =>
    obtain ⟨e1, h1⟩ := numberBlock_setErrs P v c st e b
    simp only [List.foldl_cons, h1]
    exact ih _ _ e1

theorem analyseBranch_setErrs (P : Program) (fuel MBB R inst : Nat) (st : PassState)
    (e : List String) :
    analyseBranch P fuel MBB R inst (st.setErrs e)
      = (analyseBranch P fuel MBB R inst st).map (fun s => s.setErrs e) := by
  unfold analyseBranch
  show Option.map _ (branchSets P st.InstructionNumber st.total_actual_insts fuel MBB R inst)
    = _
  cases branchSets P st.InstructionNumber st.total_actual_insts fuel MBB R inst with
  | none => rfl
  | some sets => rfl

theorem analyseInsts_setErrs (P : Program) (fuel MBB : Nat) (rp : Option Nat) (l : List Nat)
    (st : PassState) (e : List String) :
    analyseInsts P fuel MBB rp l (st.setErrs e)
      = (analyseInsts P fuel MBB rp l st).map (fun s => s.setErrs e) := by
  induction l generalizing st with
  | nil => rfl
  | cons i rest ih =>
    cases rp with
    | none =>
      simp only [analyseInsts]
      exact ih { st with total_insts := setInsert i st.total_insts }
    | some R =>
      simp only [analyseInsts]
      split_ifs with hc
      · have := analyseBranch_setErrs P fuel MBB R i
          { st with total_insts := setInsert i st.total_insts } e
        simp only [PassState.setErrs] at this ⊢
        rw [this]
        cases analyseBranch P fuel MBB R i
            { st with total_insts := setInsert i st.total_insts } with
        | none => rfl
        | some s1 => exact ih s1
      · exact ih { st with total_insts := setInsert i st.total_insts }

theorem analyseBlocks_setErrs (P : Program) (MF : MachineFunction) (fuel : Nat)
    (bs : List Nat) (st : PassState) (e : List String) :
    analyseBlocks P MF fuel bs (st.setErrs e)
      = (analyseBlocks P MF fuel bs st).map (fun s => s.setErrs e) := by
  induction bs generalizing st with
  | nil => rfl
  | cons b rest ih =>
    unfold analyseBlocks
    rw [analyseInsts_setErrs]
    cases analyseInsts P fuel b (MF.getIDom b) (P.insts b) st with
    | none => rfl
    | some s1 => exact ih s1

theorem dumpInsts_setErrs (P : Program) (v : Bool) (fn MBB : Nat) (bb : Option Nat)
    (l : List Nat) (st : PassState) (e : List String) :
    ∃ e2, dumpInsts P v fn MBB bb l (st.setErrs e)
      = (dumpInsts P false fn MBB bb l st).setErrs e2 := by
  induction l generalizing st e with
  | nil => exact ⟨e, rfl⟩
  | cons i rest ih =>
    unfold dumpInsts
    by_cases hc : P.isConditionalBranch i = true ∧ bb ≠ none
    · rw [if_pos hc, if_pos hc]
      exact ih { st with info := st.info ++ branchRecord P st fn i } _
    · rw [if_neg hc, if_neg hc]
      exact ih st e

theorem dumpBlocks_setErrs (P : Program) (v : Bool) (MF : MachineFunction) (fn : Nat)
    (bs : List Nat) (st : PassState) (e : List String) :
    ∃ e2, dumpBlocks P v MF fn bs (st.setErrs e)
      = (dumpBlocks P false MF fn bs st).setErrs e2 := by
  induction bs generalizing st e with
  | nil => exact ⟨e, rfl⟩
  | cons b rest ih =>
    unfold dumpBlocks
    obtain ⟨e1, h1⟩ := dumpInsts_setErrs P v fn b (MF.getIDom b) (P.insts b) st e
    rw [h1]
    exact ih _ e1

theorem dumpBlocks_false_errs (P : Program) (MF : MachineFunction) (fn : Nat)
    (bs : List Nat) (st : PassState) :
    (dumpBlocks P false MF fn bs st).errs = st.errs := by
  have hi : ∀ (MBB : Nat) (bb : Option Nat) (l : List Nat) (s : PassState),
      (dumpInsts P false fn MBB bb l s).errs = s.errs := by
    intro MBB bb l
    induction l with
    | nil => intro s; rfl
    | cons i rest ih =>
      intro s
      unfold dumpInsts
      by_cases hc : P.isConditionalBranch i = true ∧ bb ≠ none
      · rw [if_pos hc, ih]
        rfl
      · rw [if_neg hc]
        exact ih s
  induction bs generalizing st with
  | nil => rfl
  | cons b rest ih =>
    unfold dumpBlocks
    rw [ih, hi]

/-- The run with the diagnostics on is the run with the diagnostics off, up to
the diagnostic stream. -/
theorem run_verbose (P : Program) (v : Bool) (fuel : Nat) (MF : MachineFunction)
    (st : PassState) :
    (∀ b, runOnMachineFunction P false fuel MF st = some b →
      ∃ e, runOnMachineFunction P v fuel MF st = some (b.setErrs e)) ∧
    (runOnMachineFunction P false fuel MF st = none →
      runOnMachineFunction P v fuel MF st = none) := by
  have hst : printBanner v MF ((10000 + MF.getFunctionNumber) % 4294967296) st
      = (printBanner false MF ((10000 + MF.getFunctionNumber) % 4294967296) st).setErrs
          (printBanner v MF ((10000 + MF.getFunctionNumber) % 4294967296) st).errs := rfl
  obtain ⟨e1, h1⟩ := foldl_numberBlock_setErrs P v MF.blocks 0
    (printBanner false MF ((10000 + MF.getFunctionNumber) % 4294967296) st)
    (printBanner v MF ((10000 + MF.getFunctionNumber) % 4294967296) st).errs
  have hrun : runOnMachineFunction P v fuel MF st
      = (analyseBlocks P MF fuel MF.blocks
          ((numberFunction P false MF
            (printBanner false MF ((10000 + MF.getFunctionNumber) % 4294967296) st)).2.setErrs e1)).map
          (dumpBlocks P v MF ((10000 + MF.getFunctionNumber) % 4294967296) MF.blocks) := by
    unfold runOnMachineFunction numberFunction
    simp only
    rw [hst, h1]
  rw [hrun, analyseBlocks_setErrs]
  have hrun0 : runOnMachineFunction P false fuel MF st
      = (analyseBlocks P MF fuel MF.blocks
          (numberFunction P false MF
            (printBanner false MF ((10000 + MF.getFunctionNumber) % 4294967296) st)).2).map
          (dumpBlocks P false MF ((10000 + MF.getFunctionNumber) % 4294967296) MF.blocks) := rfl
  rw [hrun0]
  cases analyseBlocks P MF fuel MF.blocks
      (numberFunction P false MF
        (printBanner false MF ((10000 + MF.getFunctionNumber) % 4294967296) st)).2 with
  | none => exact ⟨fun b hb => by simp at hb, fun _ => rfl⟩
  | some s1 =>
    refine ⟨?_, fun h => by simp at h⟩
    intro b hb
    simp only [Option.map_some', Option.some.injEq] at hb ⊢
    obtain ⟨e2, h2⟩ := dumpBlocks_setErrs P v MF ((10000 + MF.getFunctionNumber) % 4294967296) MF.blocks s1 e1
    rw [h2, hb]
    exact ⟨e2, rfl⟩

theorem numberFunction_false_errs (P : Program) (MF : MachineFunction) (st : PassState) :
    (numberFunction P false MF st).2.errs = st.errs := by
  have hi : ∀ (l : List Nat) (c : Nat × PassState),
      (l.foldl (numberInst P false) c).2.errs = c.2.errs := by
    intro l
    induction l with
    | nil => intro c; rfl
    | cons i rest ih =>
      intro c
      rw [List.foldl_cons, ih]
      by_cases ha : P.isActualInstr i = true
      · simp [numberInst, ha]
      · simp [numberInst, ha]
  have hb : ∀ (bs : List Nat) (c : Nat × PassState),
      (bs.foldl (numberBlock P false) c).2.errs = c.2.errs := by
    intro bs
    induction bs with
    | nil => intro c; rfl
    | cons b rest ih =>
      intro c
      rw [List.foldl_cons, ih]
      unfold numberBlock
      rw [hi]
      rfl
  exact hb MF.blocks (0, st)

/-- C14.  For every function, state and fuel, the run with the option
`print-dep` on returns exactly when the run with the option off does, and the
two results agree in everything but the diagnostic stream: numbering, universe,
reconvergence points, dependent sets and report text are the same; with the
option off the diagnostic stream is not written to. -/
theorem verbose_does_not_change_analysis (P : Program) (fuel : Nat) (MF : MachineFunction)
    (st : PassState) :
    (runOnMachineFunction P true fuel MF st).isSome
      = (runOnMachineFunction P false fuel MF st).isSome ∧
    ∀ a b, runOnMachineFunction P true fuel MF st = some a →
      runOnMachineFunction P false fuel MF st = some b →
      a.setErrs [] = b.setErrs [] ∧
      a.InstructionNumber = b.InstructionNumber ∧
      a.total_actual_insts = b.total_actual_insts ∧
      a.reconvergence_point = b.reconvergence_point ∧
      a.dependent_insts = b.dependent_insts ∧
      a.info = b.info ∧
      b.errs = st.errs := by
  obtain ⟨h1, h2⟩ := run_verbose P true fuel MF st
  refine ⟨?_, ?_⟩
  · cases hb : runOnMachineFunction P false fuel MF st with
    | none => rw [h2 hb]
    | some b =>
      obtain ⟨e, he⟩ := h1 b hb
      rw [he]
      rfl
  · intro a b ha hb
    obtain ⟨e, he⟩ := h1 b hb
    rw [ha] at he
    have hab : a = b.setErrs e := Option.some.inj he
    subst hab
    refine ⟨rfl, rfl, rfl, rfl, rfl, rfl, ?_⟩
    unfold runOnMachineFunction at hb
    simp only [Option.map_eq_some'] at hb
    obtain ⟨s1, hs1, hs2⟩ := hb
    obtain ⟨-, -, -, a4, -⟩ := analyseBlocks_spec P MF fuel MF.blocks _ _ hs1
    rw [← hs2, dumpBlocks_false_errs, a4, numberFunction_false_errs]
    rfl

/-- C14, on the loop function: with the option on the run returns too, with the
same numbers, the same dependent set of the branch 11 and the same report, and
has written diagnostics. -/
theorem verbose_does_not_change_analysis_witness :
    runOnMachineFunction loopP false 20 loopF freshState = some loopState ∧
    ∃ a, runOnMachineFunction loopP true 20 loopF freshState = some a ∧
      a.InstructionNumber = loopState.InstructionNumber ∧
      a.dependent_insts 11 = loopState.dependent_insts 11 ∧
      a.info = loopState.info ∧ loopState.errs = [] ∧ a.errs ≠ [] := by
  have hs : (runOnMachineFunction loopP true 20 loopF freshState).isSome = true := by
    rw [(verbose_does_not_change_analysis loopP 20 loopF freshState).1]
    rfl
  obtain ⟨a, ha⟩ := Option.isSome_iff_exists.1 hs
  obtain ⟨-, h1, -, -, h2, h3, h4⟩ :=
    (verbose_does_not_change_analysis loopP 20 loopF freshState).2 a loopState ha rfl
  refine ⟨rfl, a, ha, h1, by rw [h2], h3, h4, ?_⟩
  intro hnil
  have : (runOnMachineFunction loopP true 20 loopF freshState).map
      (fun s => s.errs.length) = some 0 := by
    rw [ha, Option.map_some', hnil]
    rfl
  revert this
  decide

/-! ## What the first step records -/

theorem mem_initQueue (P : Program) (MBB R X : Nat) :
    X ∈ initQueue P MBB R ↔ X ∈ P.succs MBB ∧ P.getNumber X ≠ P.getNumber R := by
  unfold initQueue
  simp [List.mem_filter]

theorem expandSuccs_exact (P : Program) (MBB R X : Nat) (ps : List Nat) (st : BBState)
    (hX : (X ∈ P.succs MBB ∧ X ≠ R) ∨ ControlReach P MBB R X)
    (hps : ∀ p ∈ ps, p ∈ P.succs X) (h : BBExact P MBB R (fun Z => Z = X) st) :
    BBExact P MBB R (fun Z => Z = X) (expandSuccs P R ps st) ∧
    (∀ n ∈ st.visited_bb_numbers, n ∈ (expandSuccs P R ps st).visited_bb_numbers) ∧
    (∀ p ∈ ps, P.getNumber p ≠ P.getNumber R →
      P.getNumber p ∈ (expandSuccs P R ps st).visited_bb_numbers) := by
  induction ps generalizing st with
  | nil => exact ⟨h, fun n hn => hn, by simp⟩
  | cons p ps ih =>
    have hp : p ∈ P.succs X := hps p (List.mem_cons_self _ _)
    have hps2 : ∀ q ∈ ps, q ∈ P.succs X := fun q hq => hps q (List.mem_cons_of_mem _ hq)
    unfold expandSuccs
    split_ifs with hc
    · have hpR : p ≠ R := fun e => hc.1 (by rw [e])
      have hinv : BBExact P MBB R (fun Z => Z = X)
          { bb_queue := st.bb_queue ++ [p],
            visited_bb_numbers := st.visited_bb_numbers ++ [P.getNumber p],
            reachable_blocks := setInsert p st.reachable_blocks } := by
        constructor
        · intro n hn
          simp only [List.mem_append, List.mem_singleton] at hn
          rcases hn with hn | hn
          · obtain ⟨b, hb, hbn⟩ := h.vis_reach n hn
            exact ⟨b, (mem_setInsert b p _).2 (Or.inr hb), hbn⟩
          · exact ⟨p, (mem_setInsert p p _).2 (Or.inl rfl), hn.symm⟩
        · intro b hb
          simp only [List.mem_append, List.mem_singleton]
          rcases (mem_setInsert b p _).1 hb with hb | hb
          · subst hb; exact Or.inr rfl
          · exact Or.inl (h.reach_vis b hb)
        · intro Z hZ
          simp only [mem_setInsert] at hZ
          simp only [List.mem_append, List.mem_singleton]
          by_cases hZp : Z = p
          · exact Or.inr (Or.inl (Or.inr hZp))
          · have hZ2 : Z ∈ initQueue P MBB R ∨ Z ∈ st.reachable_blocks := by tauto
            rcases h.pending Z hZ2 with h1 | h1 | h1
            · exact Or.inl h1
            · exact Or.inr (Or.inl (Or.inl h1))
            · refine Or.inr (Or.inr ?_)
              intro Y hY hYR
              exact List.mem_append_left _ (h1 Y hY hYR)
        · intro Y hY
          rcases (mem_setInsert Y p _).1 hY with hY | hY
          · subst hY
            rcases hX with hX | hX
            · exact ControlReach.start X Y hX.1 hX.2 hp hpR
            · exact ControlReach.step X Y hX hp hpR
          · exact h.sound Y hY
        · intro Z hZ
          simp only [List.mem_append, List.mem_singleton] at hZ
          simp only [mem_setInsert]
          rcases hZ with hZ | hZ
          · have := h.queue_sound Z hZ; tauto
          · exact Or.inr (Or.inl hZ)
      obtain ⟨h1, h2, h3⟩ := ih _ hps2 hinv
      refine ⟨h1, ?_, ?_⟩
      · intro n hn
        exact h2 n (List.mem_append_left _ hn)
      · intro q hq hqR
        rcases List.mem_cons.1 hq with e | e
        · subst e
          exact h2 _ (by simp)
        · exact h3 q e hqR
    · obtain ⟨h1, h2, h3⟩ := ih st hps2 h
      refine ⟨h1, h2, ?_⟩
      intro q hq hqR
      rcases List.mem_cons.1 hq with e | e
      · subst e
        have : P.getNumber q ∈ st.visited_bb_numbers := by
          by_contra hn
          exact hc ⟨hqR, hn⟩
        exact h2 _ this
      · exact h3 q e hqR

theorem controlReach_ne (P : Program) (MBB R Y : Nat) (h : ControlReach P MBB R Y) : Y ≠ R := by
  cases h with
  | start X Y _ _ _ h4 => exact h4
  | step X Y _ _ h3 => exact h3

theorem bbLoop_exact (P : Program) (MBB R : Nat) (fuel : Nat) (st r : BBState)
    (h : BBExact P MBB R (fun _ => False) st) (hr : bbLoop P R fuel st = some r) :
    BBExact P MBB R (fun _ => False) r := by
  induction fuel generalizing st with
  | zero =>
    unfold bbLoop at hr
    split_ifs at hr
    simp at hr; subst hr; exact h
  | succ fuel ih =>
    unfold bbLoop at hr
    cases hq : st.bb_queue with
    | nil => rw [hq] at hr; simp at hr; subst hr; exact h
    | cons X q =>
      rw [hq] at hr
      simp only at hr
      have hXq : X ∈ initQueue P MBB R ∨ X ∈ st.reachable_blocks :=
        h.queue_sound X (by simp [hq])
      have hX : (X ∈ P.succs MBB ∧ X ≠ R) ∨ ControlReach P MBB R X := by
        rcases hXq with h1 | h1
        · left
          rw [mem_initQueue] at h1
          exact ⟨h1.1, fun e => h1.2 (by rw [e])⟩
        · exact Or.inr (h.sound X h1)
      have hweak : BBExact P MBB R (fun Z => Z = X) { st with bb_queue := q } := by
        constructor
        · exact h.vis_reach
        · exact h.reach_vis
        · intro Z hZ
          rcases h.pending Z hZ with h1 | h1 | h1
          · exact absurd h1 id
          · rw [hq] at h1
            rcases List.mem_cons.1 h1 with e | e
            · exact Or.inl e
            · exact Or.inr (Or.inl e)
          · exact Or.inr (Or.inr h1)
        · exact h.sound
        · intro Z hZ
          exact h.queue_sound Z (by rw [hq]; exact List.mem_cons_of_mem _ hZ)
      obtain ⟨e1, -, e3⟩ := expandSuccs_exact P MBB R X (P.succs X) _ hX (fun p hp => hp) hweak
      refine ih _ ?_ hr
      constructor
      · exact e1.vis_reach
      · exact e1.reach_vis
      · intro Z hZ
        rcases e1.pending Z hZ with h1 | h1 | h1
        · right; right
          rw [h1]
          exact e3
        · exact Or.inr (Or.inl h1)
        · exact Or.inr (Or.inr h1)
      · exact e1.sound
      · exact e1.queue_sound

theorem bbExact_init (P : Program) (MBB R : Nat) :
    BBExact P MBB R (fun _ => False)
      { bb_queue := initQueue P MBB R, visited_bb_numbers := [], reachable_blocks := [] } := by
  constructor
  · simp
  · simp
  · intro Z hZ
    simp only [List.not_mem_nil, or_false] at hZ
    exact Or.inr (Or.inl hZ)
  · simp
  · intro X hX
    exact Or.inl hX

theorem controlReach_iff_path (P : Program) (MBB R Y : Nat) :
    ControlReach P MBB R Y ↔
      ∃ X, X ∈ P.succs MBB ∧ Relation.TransGen (edgeAvoiding P R) X Y := by
  constructor
  · intro h
    induction h with
    | start X Y h1 h2 h3 h4 => exact ⟨X, h1, Relation.TransGen.single ⟨h3, h2, h4⟩⟩
    | step X Y h1 h2 h3 ih =>
      obtain ⟨X0, hX0, ht⟩ := ih
      exact ⟨X0, hX0, Relation.TransGen.tail ht ⟨h2, controlReach_ne P MBB R X h1, h3⟩⟩
  · rintro ⟨X, hX, ht⟩
    induction ht with
    | single h => exact ControlReach.start X _ hX h.2.1 h.1 h.2.2
    | tail _ h ih => exact ControlReach.step _ _ ih h.1 h.2.2

/-- C15.  For every analysed branch of a well-formed function whose block
numbers are pairwise different, the first step returns and the set `S` of
blocks it records is closed (every successor other than `R` of a successor of
the branch's block other than `R`, or of a block of `S`, is in `S`), it is
contained in every set closed in this way, and a block is in `S` exactly when
it is not `R` and is the end of a path of at least one edge that starts at a
successor of the branch's block and passes through no block equal to `R`. -/
theorem control_dependent_blocks_exact (P : Program) (MF : MachineFunction)
    (MBB R inst : Nat) (hwf : WellFormed P MF) (hA : Analysed P MF MBB R inst)
    (huniq : ∀ a ∈ MF.blocks, ∀ b ∈ MF.blocks, P.getNumber a = P.getNumber b → a = b) :
    (∃ fuel rb, reachableBlocks P fuel MBB R = some rb) ∧
    ∀ fuel rb, reachableBlocks P fuel MBB R = some rb →
      (∀ X, (X ∈ P.succs MBB ∧ X ≠ R) ∨ X ∈ rb → ∀ Y ∈ P.succs X, Y ≠ R → Y ∈ rb) ∧
      (∀ S : Nat → Prop,
        (∀ X, (X ∈ P.succs MBB ∧ X ≠ R) ∨ S X → ∀ Y ∈ P.succs X, Y ≠ R → S Y) →
        ∀ Y ∈ rb, S Y) ∧
      (∀ Y, Y ∈ rb ↔
        Y ≠ R ∧ ∃ X, X ∈ P.succs MBB ∧ Relation.TransGen (edgeAvoiding P R) X Y) := by
  have hR : R ∈ MF.blocks := hwf.2.1 MBB hA.1 R hA.2.1
  refine ⟨?_, ?_⟩
  · obtain ⟨rb, hrb⟩ := reachableBlocks_terminates P MBB R MF.blocks hwf.1 hA.1
    exact ⟨_, rb, hrb⟩
  · intro fuel rb hrb
    unfold reachableBlocks at hrb
    simp only [Option.map_eq_some'] at hrb
    obtain ⟨r, hr, hrr⟩ := hrb
    subst hrr
    have hinv := bbLoop_inv P R MF.blocks hwf.1 fuel _ r
      (bbInv_init P MBB R MF.blocks (hwf.1 MBB hA.1)) hr
    have hex := bbLoop_exact P MBB R fuel _ r (bbExact_init P MBB R) hr
    have hq := bbLoop_queue_empty P R fuel _ r hr
    have hclosed : ∀ X, (X ∈ P.succs MBB ∧ X ≠ R) ∨ X ∈ r.reachable_blocks →
        ∀ Y ∈ P.succs X, Y ≠ R → Y ∈ r.reachable_blocks := by
      intro X hX Y hY hYR
      have hXb : X ∈ MF.blocks := by
        rcases hX with hX | hX
        · exact hwf.1 MBB hA.1 X hX.1
        · exact hinv.reach_mem X hX
      have hYb : Y ∈ MF.blocks := hwf.1 X hXb Y hY
      have hX2 : X ∈ initQueue P MBB R ∨ X ∈ r.reachable_blocks := by
        rcases hX with hX | hX
        · left
          rw [mem_initQueue]
          exact ⟨hX.1, fun e => hX.2 (huniq X hXb R hR e)⟩
        · exact Or.inr hX
      rcases hex.pending X hX2 with h1 | h1 | h1
      · exact absurd h1 id
      · rw [hq] at h1; simp at h1
      · have hn := h1 Y hY (fun e => hYR (huniq Y hYb R hR e))
        obtain ⟨b, hb, hbn⟩ := hex.vis_reach _ hn
        have : b = Y := huniq b (hinv.reach_mem b hb) Y hYb hbn
        rw [← this]
        exact hb
    have hiff : ∀ Y, Y ∈ r.reachable_blocks ↔ ControlReach P MBB R Y := by
      intro Y
      constructor
      · exact hex.sound Y
      · intro h
        induction h with
        | start X Y h1 h2 h3 h4 => exact hclosed X (Or.inl ⟨h1, h2⟩) Y h3 h4
        | step X Y _ h2 h3 ih => exact hclosed X (Or.inr ih) Y h2 h3
    refine ⟨hclosed, ?_, ?_⟩
    · intro S hS Y hY
      have h := (hiff Y).1 hY
      induction h with
      | start X Y h1 h2 h3 h4 => exact hS X (Or.inl ⟨h1, h2⟩) Y h3 h4
      | step X Y h1 h2 h3 ih => exact hS X (Or.inr (ih ((hiff X).2 h1))) Y h2 h3
    · intro Y
      rw [hiff, controlReach_iff_path]
      constructor
      · intro h
        exact ⟨controlReach_ne P MBB R Y ((controlReach_iff_path P MBB R Y).2 h), h⟩
      · exact fun h => h.2

/-- C15, on the loop function: for the branch 11 the recorded blocks are B1, B2
and B3, and the block B1 of the branch itself is among them as the end of a
path that starts at its successor B2. -/
theorem control_dependent_blocks_exact_witness :
    WellFormed loopP loopF ∧ Analysed loopP loopF 1 4 11 ∧
    (∀ a ∈ loopF.blocks, ∀ b ∈ loopF.blocks, loopP.getNumber a = loopP.getNumber b → a = b) ∧
    reachableBlocks loopP 20 1 4 = some [1, 2, 3] ∧
    (1 ≠ 4 ∧ ∃ X, X ∈ loopP.succs 1 ∧ Relation.TransGen (edgeAvoiding loopP 4) X 1) :=
  ⟨by decide, by decide, by decide, by decide,
    (((control_dependent_blocks_exact loopP loopF 1 4 11 (by decide) (by decide)
      (by decide)).2 20 [1, 2, 3] (by decide)).2.2 1).1 (by decide)⟩

/-! ## Where the data dependents come from -/

theorem ddLoop_derived (P : Program) (num : Nat → Nat) (T seeds : List Nat) (fuel : Nat)
    (s r : DDState)
    (hdd : ∀ x ∈ s.data_dependents, Derived P num T seeds x)
    (hq : ∀ x ∈ s.inst_queue, x ∈ seeds ∨ Derived P num T seeds x)
    (hr : ddLoop P num T fuel s = some r) :
    ∀ x ∈ r.data_dependents, Derived P num T seeds x := by
  induction fuel generalizing s with
  | zero =>
    unfold ddLoop at hr
    split_ifs at hr
    simp at hr; subst hr; exact hdd
  | succ fuel ih =>
    unfold ddLoop at hr
    cases hqq : s.inst_queue with
    | nil => rw [hqq] at hr; simp at hr; subst hr; exact hdd
    | cons Inst q =>
      rw [hqq] at hr hq
      simp only at hr
      split_ifs at hr with hproc
      · exact ih { s with inst_queue := q } hdd
          (fun x hx => hq x (List.mem_cons_of_mem _ hx)) hr
      · cases he : expandDeps P num T (P.data_dependent Inst)
            { s with inst_queue := q, processed_insts := setInsert Inst s.processed_insts } with
        | none => rw [he] at hr; simp at hr
        | some s2 =>
          rw [he] at hr
          simp only [Option.some_bind] at hr
          obtain ⟨-, pushed, hqueue, -, hmem, -, -, horig, -⟩ := expandDeps_spec P num T _ _ _ he
          simp only at hqueue hmem horig
          have hInst := hq Inst (List.mem_cons_self _ _)
          have hpushed : ∀ x ∈ pushed, Derived P num T seeds x := by
            intro x hx
            rcases horig x hx with ⟨h1, h2, h3⟩ | ⟨d, h1, h2, h3, h4, h5, -⟩
            · rcases hInst with hs | hs
              · exact Derived.edge_seed Inst x hs h1 h2 h3
              · exact Derived.edge_member Inst x hs h1 h2 h3
            · rcases hInst with hs | hs
              · exact Derived.next_seed Inst d x hs h1 h2 h3 h4 h5
              · exact Derived.next_member Inst d x hs h1 h2 h3 h4 h5
          refine ih s2 ?_ ?_ hr
          · intro x hx
            rcases (hmem x).1 hx with h1 | h1
            · exact hdd x h1
            · exact hpushed x h1
          · intro x hx
            rw [hqueue, List.mem_append] at hx
            rcases hx with h1 | h1
            · exact hq x (List.mem_cons_of_mem _ h1)
            · exact Or.inr (hpushed x h1)

/-- Every data dependent of a branch is derived from the seeds of the branch. -/
theorem branchSets_derived (P : Program) (num : Nat → Nat) (T : List Nat)
    (fuel MBB R inst : Nat) (cd dd : List Nat)
    (h : branchSets P num T fuel MBB R inst = some (cd, dd)) :
    ∀ x ∈ dd, Derived P num T (seedQueue P num inst cd) x := by
  obtain ⟨rb, -, -, s, hs, hdd⟩ := branchSets_some P num T fuel MBB R inst cd dd h
  rw [hdd]
  exact ddLoop_derived P num T _ fuel _ s (by simp) (fun x hx => Or.inl hx) hs

/-- C16 (the claim as it stands fails).  The data dependents depend on the order
in which the frontier is processed.  In the chain function the seeds of the
branch 11 are taken up in the order 11, 10, 30, 40, 41 and the data dependents
are 40 and 41; with the same seeds taken up in the order 11, 10, 40, 41, 30 the
branch 41 has been processed when the compare 40 is found, and the only data
dependent is 40.  The second order is the one the code takes when the
instruction of B3 lies behind those of B4 in memory. -/
theorem data_dependents_depend_on_order :
    runOnMachineFunction orderP false 20 orderF freshState = some orderState ∧
    runOnMachineFunction orderP2 false 20 orderF freshState = some orderState2 ∧
    seedQueue orderP orderState.InstructionNumber 11 [30, 40, 41] = [11, 10, 30, 40, 41] ∧
    (ddLoop orderP orderState.InstructionNumber orderState.total_actual_insts 20
      { inst_queue := [11, 10, 30, 40, 41], processed_insts := [],
        data_dependents := [] }).map (fun s => s.data_dependents) = some [40, 41] ∧
    (ddLoop orderP orderState.InstructionNumber orderState.total_actual_insts 20
      { inst_queue := [11, 10, 40, 41, 30], processed_insts := [],
        data_dependents := [] }).map (fun s => s.data_dependents) = some [40] ∧
    branchSets orderP orderState.InstructionNumber orderState.total_actual_insts 20 1 5 11
      = some ([30, 40, 41], [40, 41]) ∧
    branchSets orderP2 orderState2.InstructionNumber orderState2.total_actual_insts 20 1 5 11
      = some ([40, 41, 60], [40]) := by
  refine ⟨rfl, rfl, ?_⟩
  decide

/-- C16 (amended).  On every well-formed function the pass returns, and for every
analysed branch every member of the data dependents is derived from the seeds
(the branch, the instruction `getPrevInstr` returns for it, the substantive
control dependents) by the two rules of the closure: it is a substantive
instruction of the universe that consumes a seed or a derived instruction, or
it is the conditional branch that `getNextInstr` returns for such a consumer. -/
theorem data_dependents_derived (P : Program) (v : Bool) (MF : MachineFunction)
    (st : PassState) (hwf : WellFormed P MF) (hold : UniverseInBlocks P st) :
    (∃ fuel st2, runOnMachineFunction P v fuel MF st = some st2) ∧
    ∀ fuel st2, runOnMachineFunction P v fuel MF st = some st2 →
      ∀ MBB R inst, Analysed P MF MBB R inst →
        ∃ cd dd, BranchResult P st2.InstructionNumber st2.total_actual_insts fuel MBB R inst
            cd dd (st2.dependent_insts inst) ∧
          (∀ x, x ∈ seedQueue P st2.InstructionNumber inst cd ↔
            x = inst ∨ getPrevInstr P st2.InstructionNumber inst = some x ∨
              (x ∈ cd ∧ P.isActualInstr x = true)) ∧
          ∀ x ∈ dd, Derived P st2.InstructionNumber st2.total_actual_insts
            (seedQueue P st2.InstructionNumber inst cd) x := by
  refine ⟨?_, ?_⟩
  · obtain ⟨fuel0, h⟩ := run_total P v MF st hwf hold
    obtain ⟨st2, hst2⟩ := h fuel0 (le_refl _)
    exact ⟨fuel0, st2, hst2⟩
  · intro fuel st2 hrun MBB R inst hA
    obtain ⟨-, cd, dd, hres⟩ := run_branch_result P v fuel MF st st2 hwf hrun MBB R inst hA
    exact ⟨cd, dd, hres, mem_seedQueue P _ inst cd,
      branchSets_derived P _ _ fuel MBB R inst cd dd hres.1⟩

/-- C16 (amended), on the chain function: the data dependents 40 and 41 of the
branch 11 are derived from its seeds. -/
theorem data_dependents_derived_witness :
    WellFormed orderP orderF ∧ UniverseInBlocks orderP freshState ∧
    runOnMachineFunction orderP false 20 orderF freshState = some orderState ∧
    Derived orderP orderState.InstructionNumber orderState.total_actual_insts
      [11, 10, 30, 40, 41] 40 ∧
    Derived orderP orderState.InstructionNumber orderState.total_actual_insts
      [11, 10, 30, 40, 41] 41 := by
  obtain ⟨cd, dd, hres, -, hder⟩ :=
    (data_dependents_derived orderP false orderF freshState (by decide) (by decide)).2
      20 orderState rfl 1 5 11 (by decide)
  have hb : branchSets orderP orderState.InstructionNumber orderState.total_actual_insts
      20 1 5 11 = some ([30, 40, 41], [40, 41]) := by decide
  have he := hres.1
  rw [hb] at he
  simp only [Option.some.injEq, Prod.mk.injEq] at he
  obtain ⟨e1, e2⟩ := he
  subst e1 e2
  have hs : seedQueue orderP orderState.InstructionNumber 11 [30, 40, 41]
      = [11, 10, 30, 40, 41] := by decide
  rw [hs] at hder
  exact ⟨by decide, by decide, rfl, hder 40 (by decide), hder 41 (by decide)⟩

/-- C17 (the claim as it stands fails).  In the function of `metaP` the
instruction 30 lies in the control dependent block B3 and is neither
substantive nor a debug instruction: the numbering passes it by, it is not in
the universe, yet it is in the dependent set of the branch 11, and the report
lists it under the number 0 it started with, which is the number of the
instruction 10. -/
theorem dependent_set_holds_unnumbered_instruction :
    runOnMachineFunction metaP false 20 metaF freshState = some metaState ∧
    Analysed metaP metaF 1 4 11 ∧
    metaState.dependent_insts 11 = [30, 31] ∧
    metaP.isActualInstr 30 = false ∧ metaP.isDebugInstr 30 = false ∧
    30 ∉ metaState.total_actual_insts ∧
    metaState.InstructionNumber 30 = 0 ∧ metaState.InstructionNumber 10 = 0 ∧
    metaP.isActualInstr 10 = true ∧
    metaState.info = "* 1  10000\n0 10000\n3 10000\n---\n" := by
  refine ⟨rfl, ?_⟩
  decide

/-- C17 (amended).  On a well-formed function whose substantive instructions are
distinct objects, analysed by a pass that starts with an empty universe, the
pass returns, and every member of the dependent set stored for an analysed
branch is a control dependent of the function that is no debug instruction, or
a substantive data dependent; every substantive member is a substantive
instruction of the function, numbered by this run, and no other substantive
instruction of the function has its number. -/
theorem dependents_numbered_or_control (P : Program) (v : Bool) (MF : MachineFunction)
    (st : PassState) (hwf : WellFormed P MF) (hfresh : st.total_actual_insts = [])
    (hnd : ((layout P MF.blocks).filter P.isActualInstr).Nodup) :
    (∃ fuel st2, runOnMachineFunction P v fuel MF st = some st2) ∧
    ∀ fuel st2, runOnMachineFunction P v fuel MF st = some st2 →
      ∀ MBB R inst, Analysed P MF MBB R inst →
        ∃ cd dd, BranchResult P st2.InstructionNumber st2.total_actual_insts fuel MBB R inst
            cd dd (st2.dependent_insts inst) ∧
          ∀ x ∈ st2.dependent_insts inst,
            ((x ∈ cd ∧ P.isDebugInstr x = false ∧ x ∈ layout P MF.blocks) ∨
              (x ∈ dd ∧ P.isActualInstr x = true)) ∧
            (P.isActualInstr x = true →
              x ∈ (layout P MF.blocks).filter P.isActualInstr ∧
              st2.InstructionNumber x < ((layout P MF.blocks).filter P.isActualInstr).length ∧
              ∀ y ∈ (layout P MF.blocks).filter P.isActualInstr,
                st2.InstructionNumber y = st2.InstructionNumber x → y = x) := by
  have hold : UniverseInBlocks P st := by
    intro d hd
    rw [hfresh] at hd
    simp at hd
  refine ⟨?_, ?_⟩
  · obtain ⟨fuel0, h⟩ := run_total P v MF st hwf hold
    obtain ⟨st2, hst2⟩ := h fuel0 (le_refl _)
    exact ⟨fuel0, st2, hst2⟩
  · intro fuel st2 hrun MBB R inst hA
    obtain ⟨-, cd, dd, hres⟩ := run_branch_result P v fuel MF st st2 hwf hrun MBB R inst hA
    refine ⟨cd, dd, hres, ?_⟩
    obtain ⟨⟨c, st1, hnum, hn1, -⟩, -, -⟩ := run_spec P v fuel MF st st2 hrun
    have hT : ∀ x, x ∈ st2.total_actual_insts ↔
        x ∈ (layout P MF.blocks).filter P.isActualInstr := by
      intro x
      rw [run_universe P v fuel MF st st2 hrun x, hfresh]
      simp
    have hmap : ((layout P MF.blocks).filter P.isActualInstr).map st2.InstructionNumber
        = List.range ((layout P MF.blocks).filter P.isActualInstr).length := by
      rw [hn1, hnum.numbers hnd, List.range_eq_range']
    obtain ⟨rb, hrb, hcd, -⟩ := branchSets_some P _ _ fuel MBB R inst cd dd hres.1
    obtain ⟨hrbm, -, -⟩ := reachableBlocks_spec P fuel MBB R MF.blocks rb hwf.1 hA.1 hrb
    have hcdl : ∀ x ∈ cd, x ∈ layout P MF.blocks := by
      intro x hx
      rw [hcd, mem_collectInsts] at hx
      rcases hx with hx | ⟨b, hb, hxb⟩
      · simp at hx
      · exact (mem_layout P MF.blocks x).2 ⟨b, hrbm b hb, hxb⟩
    intro x hx
    rw [hres.2, mem_mergeDependents] at hx
    have hkind : (x ∈ cd ∧ P.isDebugInstr x = false ∧ x ∈ layout P MF.blocks) ∨
        (x ∈ dd ∧ P.isActualInstr x = true) := by
      rcases hx with h1 | h1 | h1
      · exact Or.inl ⟨h1.1, h1.2, hcdl x h1.1⟩
      · exact Or.inr h1
      · simp at h1
    refine ⟨hkind, ?_⟩
    intro ha
    have hxL : x ∈ (layout P MF.blocks).filter P.isActualInstr := by
      rcases hkind with h1 | h1
      · exact List.mem_filter.2 ⟨h1.2.2, ha⟩
      · rcases branchSets_sound P _ _ fuel MBB R inst cd dd hres.1 x h1.1 with
          h2 | ⟨d, hd, hda, hn, -⟩
        · exact (hT x).1 h2.2
        · have hdL := (hT d).1 hd
          obtain ⟨b, hb, hdb⟩ := (mem_layout P MF.blocks d).1 (List.mem_of_mem_filter hdL)
          have hxb := (getNextInstr_some P _ d x hn).2
          rw [hwf.2.2 b hb d hdb] at hxb
          exact List.mem_filter.2 ⟨(mem_layout P MF.blocks x).2 ⟨b, hb, hxb⟩, ha⟩
    refine ⟨hxL, ?_, ?_⟩
    · have : st2.InstructionNumber x ∈
          ((layout P MF.blocks).filter P.isActualInstr).map st2.InstructionNumber :=
        List.mem_map_of_mem _ hxL
      rw [hmap, List.mem_range] at this
      exact this
    · intro y hy hyx
      have hnodup : (((layout P MF.blocks).filter P.isActualInstr).map
          st2.InstructionNumber).Nodup := by
        rw [hmap]
        exact List.nodup_range _
      exact List.inj_on_of_nodup_map hnodup hy hxL hyx

/-- C17 (amended), on the function of `metaP`: the member 31 of the dependent
set of the branch 11 is a substantive instruction of the function and carries
the number 3; the member 30 is a control dependent that is not substantive. -/
theorem dependents_numbered_or_control_witness :
    WellFormed metaP metaF ∧ freshState.total_actual_insts = [] ∧
    ((layout metaP metaF.blocks).filter metaP.isActualInstr).Nodup ∧
    runOnMachineFunction metaP false 20 metaF freshState = some metaState ∧
    31 ∈ metaState.dependent_insts 11 ∧
    31 ∈ (layout metaP metaF.blocks).filter metaP.isActualInstr ∧
    metaState.InstructionNumber 31 < 5 := by
  obtain ⟨cd, dd, -, h⟩ :=
    (dependents_numbered_or_control metaP false metaF freshState (by decide) rfl
      (by decide)).2 20 metaState rfl 1 4 11 (by decide)
  have h31 := (h 31 (by decide)).2 (by decide)
  exact ⟨by decide, rfl, by decide, rfl, by decide, h31.1, h31.2.1⟩

/-! ## The numbers inside one block -/

theorem split_at_first (MI : Nat) (l : List Nat) (h : MI ∈ l) :
    ∃ l2, l.dropWhile (fun i => i != MI) = MI :: l2 ∧
      l = l.takeWhile (fun i => i != MI) ++ MI :: l2 ∧
      MI ∉ l.takeWhile (fun i => i != MI) := by
  induction l with
  | nil => simp at h
  | cons x rest ih =>
    by_cases hx : x = MI
    · subst hx
      exact ⟨rest, by simp, by simp, by simp⟩
    · have hr : MI ∈ rest := by
        rcases List.mem_cons.1 h with e | e
        · exact absurd e.symm hx
        · exact e
      obtain ⟨l2, h1, h2, h3⟩ := ih hr
      have hb : (x != MI) = true := by simpa using hx
      refine ⟨l2, ?_, ?_, ?_⟩
      · rw [List.dropWhile_cons, if_pos hb]
        exact h1
      · rw [List.takeWhile_cons, if_pos hb, List.cons_append, ← h2]
      · rw [List.takeWhile_cons, if_pos hb]
        intro hm
        rcases List.mem_cons.1 hm with e | e
        · exact hx e.symm
        · exact h3 e

theorem number_at (f : Nat → Nat) (U V : List Nat) (a s n : Nat)
    (h : (U ++ a :: V).map f = List.range' s n) : f a = s + U.length := by
  induction U generalizing s n with
  | nil =>
    cases n with
    | zero => simp at h
    | succ n =>
      rw [List.range'_succ] at h
      simp only [List.nil_append, List.map_cons, List.cons.injEq] at h
      simpa using h.1
  | cons x U ih =>
    cases n with
    | zero => simp at h
    | succ n =>
      rw [List.range'_succ] at h
      simp only [List.cons_append, List.map_cons, List.cons.injEq] at h
      have := ih (s + 1) n h.2
      simp only [List.length_cons]
      omega

theorem layout_split (P : Program) (bs : List Nat) (b : Nat) (hb : b ∈ bs) :
    ∃ pre post, layout P bs = pre ++ P.insts b ++ post := by
  induction bs with
  | nil => simp at hb
  | cons c rest ih =>
    rcases List.mem_cons.1 hb with e | e
    · subst e
      exact ⟨[], layout P rest, by simp [layout]⟩
    · obtain ⟨pre, post, h⟩ := ih e
      exact ⟨P.insts c ++ pre, post, by simp [layout, h]⟩

/-- Where the instruction `MI` stands in the block `b` and what numbers the
substantive instructions of the block carry: those before `MI` one by one the
numbers from `s` on, `MI` the next one, those after it the following ones. -/
theorem block_numbers (P : Program) (num : Nat → Nat) (bs : List Nat) (n b MI : Nat)
    (hb : b ∈ bs) (hMI : MI ∈ P.insts b)
    (hnum : ((layout P bs).filter P.isActualInstr).map num = List.range' 0 n) :
    ∃ l2 s, (P.insts b).dropWhile (fun i => i != MI) = MI :: l2 ∧
      P.insts b = (P.insts b).takeWhile (fun i => i != MI) ++ MI :: l2 ∧
      MI ∉ (P.insts b).takeWhile (fun i => i != MI) ∧
      ∀ U a V, ((P.insts b).takeWhile (fun i => i != MI)).filter P.isActualInstr
            ++ (MI :: l2).filter P.isActualInstr = U ++ a :: V →
        num a = s + U.length := by
  obtain ⟨l2, h1, h2, h3⟩ := split_at_first MI (P.insts b) hMI
  obtain ⟨pre, post, hl⟩ := layout_split P bs b hb
  refine ⟨l2, (pre.filter P.isActualInstr).length, h1, h2, h3, ?_⟩
  intro U a V hUV
  have hfil : (layout P bs).filter P.isActualInstr
      = (pre.filter P.isActualInstr ++ U) ++ a :: (V ++ post.filter P.isActualInstr) := by
    rw [hl, List.filter_append, List.filter_append]
    conv_lhs => rw [h2]
    rw [List.filter_append, hUV]
    simp
  rw [hfil] at hnum
  have := number_at num _ _ a 0 n hnum
  simp only [List.length_append] at this
  omega

theorem getPrevInstrLoop_eq (P : Program) (num : Nat → Nat) (MI : Nat) (l1 l2 : List Nat)
    (prev : Option Nat) (ha : P.isActualInstr MI = true)
    (hlt : ∀ x ∈ l1, P.isActualInstr x = true → num x < num MI) :
    getPrevInstrLoop P num MI (l1 ++ MI :: l2) prev
      = ((l1.filter P.isActualInstr).getLast?).or prev := by
  induction l1 generalizing prev with
  | nil => simp [getPrevInstrLoop, ha]
  | cons x rest ih =>
    have hrest : ∀ y ∈ rest, P.isActualInstr y = true → num y < num MI :=
      fun y hy => hlt y (List.mem_cons_of_mem _ hy)
    by_cases hx : P.isActualInstr x = true
    · have hxlt := hlt x (List.mem_cons_self _ _) hx
      have step : getPrevInstrLoop P num MI (x :: (rest ++ MI :: l2)) prev
          = getPrevInstrLoop P num MI (rest ++ MI :: l2) (some x) := by
        simp [getPrevInstrLoop, hx, hxlt]
      rw [List.cons_append, step, ih (some x) hrest]
      simp only [List.filter_cons, hx, if_true]
      cases hf : rest.filter P.isActualInstr with
      | nil => simp
      | cons y ys =>
        cases hz : (y :: ys).getLast? with
        | none => rw [List.getLast?_eq_none_iff] at hz; simp at hz
        | some z => rw [List.getLast?_cons_cons, hz]; rfl
    · have step : getPrevInstrLoop P num MI (x :: (rest ++ MI :: l2)) prev
          = getPrevInstrLoop P num MI (rest ++ MI :: l2) prev := by
        simp [getPrevInstrLoop, hx]
      rw [List.cons_append, step, ih prev hrest]
      simp [List.filter_cons, hx]

/-- C18.  After the pass has numbered a well-formed function whose substantive
instructions are distinct objects, `getPrevInstr` gives for every substantive
instruction `MI` of the function the nearest substantive instruction before
`MI` in the block of `MI`; that instruction carries the number of `MI` minus
one; the result is null exactly when `MI` is the first substantive instruction
of its block, and then the seeds of a branch `MI` are the branch and the
substantive control dependents only.  The pass returns on every such function. -/
theorem getPrevInstr_is_previous (P : Program) (v : Bool) (MF : MachineFunction)
    (st : PassState) (hwf : WellFormed P MF)
    (hnd : ((layout P MF.blocks).filter P.isActualInstr).Nodup) :
    (UniverseInBlocks P st → ∃ fuel st2, runOnMachineFunction P v fuel MF st = some st2) ∧
    ∀ fuel st2, runOnMachineFunction P v fuel MF st = some st2 →
      ∀ MI ∈ (layout P MF.blocks).filter P.isActualInstr,
        getPrevInstr P st2.InstructionNumber MI = prevSubstantive P MI ∧
        (∀ p, getPrevInstr P st2.InstructionNumber MI = some p →
          P.isActualInstr p = true ∧ p ∈ P.insts (P.getParent MI) ∧
          st2.InstructionNumber p + 1 = st2.InstructionNumber MI) ∧
        (getPrevInstr P st2.InstructionNumber MI = none ↔
          firstSubstantive P (P.getParent MI) = some MI) ∧
        (getPrevInstr P st2.InstructionNumber MI = none →
          ∀ cd, seedQueue P st2.InstructionNumber MI cd = MI :: cd.filter P.isActualInstr) := by
  refine ⟨?_, ?_⟩
  · intro hold
    obtain ⟨fuel0, h⟩ := run_total P v MF st hwf hold
    obtain ⟨st2, hst2⟩ := h fuel0 (le_refl _)
    exact ⟨fuel0, st2, hst2⟩
  · intro fuel st2 hrun MI hMI
    obtain ⟨⟨c, st1, hnum, hn1, -⟩, -, -⟩ := run_spec P v fuel MF st st2 hrun
    have hmap : ((layout P MF.blocks).filter P.isActualInstr).map st2.InstructionNumber
        = List.range' 0 ((layout P MF.blocks).filter P.isActualInstr).length := by
      rw [hn1, hnum.numbers hnd]
    have ha : P.isActualInstr MI = true := (List.mem_filter.1 hMI).2
    obtain ⟨b, hb, hMIb⟩ := (mem_layout P MF.blocks MI).1 (List.mem_of_mem_filter hMI)
    have hpar : P.getParent MI = b := hwf.2.2 b hb MI hMIb
    obtain ⟨l2, s, -, h2, h3, hidx⟩ :=
      block_numbers P st2.InstructionNumber MF.blocks _ b MI hb hMIb hmap
    have hfMI : (MI :: l2).filter P.isActualInstr = MI :: l2.filter P.isActualInstr := by
      simp [List.filter_cons, ha]
    rw [hfMI] at hidx
    have hnMI : st2.InstructionNumber MI
        = s + (((P.insts b).takeWhile (fun i => i != MI)).filter P.isActualInstr).length :=
      hidx _ MI _ rfl
    have hlt : ∀ x ∈ (P.insts b).takeWhile (fun i => i != MI), P.isActualInstr x = true →
        st2.InstructionNumber x < st2.InstructionNumber MI := by
      intro x hx hxa
      obtain ⟨X1, Y1, hXY⟩ := List.append_of_mem (List.mem_filter.2 ⟨hx, hxa⟩)
      have := hidx X1 x (Y1 ++ MI :: l2.filter P.isActualInstr) (by rw [hXY]; simp)
      rw [hnMI, hXY, this]
      simp only [List.length_append, List.length_cons]
      omega
    have hloop : getPrevInstr P st2.InstructionNumber MI
        = (((P.insts b).takeWhile (fun i => i != MI)).filter P.isActualInstr).getLast? := by
      unfold getPrevInstr
      rw [hpar]
      conv_lhs => rw [h2]
      rw [getPrevInstrLoop_eq P _ MI _ l2 none ha hlt]
      simp
    have hnone : getPrevInstr P st2.InstructionNumber MI = none ↔
        firstSubstantive P (P.getParent MI) = some MI := by
      rw [hloop, hpar, List.getLast?_eq_none_iff]
      unfold firstSubstantive
      conv_rhs => rw [h2, List.filter_append, hfMI]
      constructor
      · intro he
        rw [he]
        rfl
      · intro hh
        cases hf : ((P.insts b).takeWhile (fun i => i != MI)).filter P.isActualInstr with
        | nil => rfl
        | cons y ys =>
          rw [hf] at hh
          simp only [List.cons_append, List.head?_cons, Option.some.injEq] at hh
          have : MI ∈ ((P.insts b).takeWhile (fun i => i != MI)).filter P.isActualInstr := by
            rw [hf, hh]
            exact List.mem_cons_self _ _
          exact absurd (List.mem_of_mem_filter this) h3
    refine ⟨?_, ?_, hnone, ?_⟩
    · rw [hloop]
      unfold prevSubstantive
      rw [hpar]
    · intro p hp
      rw [hloop, List.getLast?_eq_some_iff] at hp
      obtain ⟨ys, hys⟩ := hp
      have hpm : p ∈ ((P.insts b).takeWhile (fun i => i != MI)).filter P.isActualInstr := by
        rw [hys]; simp
      have hpl : p ∈ P.insts b := by
        rw [h2]
        exact List.mem_append_left _ (List.mem_of_mem_filter hpm)
      have hnp := hidx ys p (MI :: l2.filter P.isActualInstr) (by rw [hys]; simp)
      refine ⟨(List.mem_filter.1 hpm).2, by rw [hpar]; exact hpl, ?_⟩
      rw [hnMI, hnp, hys]
      simp only [List.length_append, List.length_singleton]
      omega
    · intro hn cd
      unfold seedQueue
      rw [hn]
      rfl

/-- C18, on the loop function: the compare 10 is the first substantive
instruction of B1 and has no predecessor; for the instruction 30 of B3, which
stands behind the debug instruction 21 of the block before, and for the branch
31 the call gives null and 30. -/
theorem getPrevInstr_is_previous_witness :
    WellFormed loopP loopF ∧
    ((layout loopP loopF.blocks).filter loopP.isActualInstr).Nodup ∧
    runOnMachineFunction loopP false 20 loopF freshState = some loopState ∧
    getPrevInstr loopP loopState.InstructionNumber 31 = some 30 ∧
    loopState.InstructionNumber 30 + 1 = loopState.InstructionNumber 31 ∧
    getPrevInstr loopP loopState.InstructionNumber 10 = none ∧
    firstSubstantive loopP (loopP.getParent 10) = some 10 := by
  have h := (getPrevInstr_is_previous loopP false loopF freshState (by decide)
    (by decide)).2 20 loopState rfl
  have h31 := h 31 (by decide)
  have h10 := h 10 (by decide)
  have e31 : getPrevInstr loopP loopState.InstructionNumber 31 = some 30 := by decide
  have e10 : getPrevInstr loopP loopState.InstructionNumber 10 = none := by decide
  exact ⟨by decide, by decide, rfl, e31, (h31.2.1 30 e31).2.2, e10, h10.2.2.1.1 e10⟩

/-! ## getNextInstr on a numbered block -/

theorem scanPast_skip (num : Nat → Nat) (n : Nat) (A : List Nat) (y : Nat) (B : List Nat)
    (hA : ∀ x ∈ A, num x ≤ n) (hy : n < num y) :
    scanPast num n (A ++ y :: B) = y :: B := by
  induction A with
  | nil =>
    cases B with
    | nil => rfl
    | cons b B => simp [scanPast, hy]
  | cons a A ih =>
    have ha : ¬ num a > n := Nat.not_lt.2 (hA a (List.mem_cons_self _ _))
    have ih2 := ih (fun x hx => hA x (List.mem_cons_of_mem _ hx))
    cases hl : A ++ y :: B with
    | nil => simp at hl
    | cons z Z =>
      rw [List.cons_append, hl, scanPast, if_neg ha, ← hl, ih2]

theorem filter_head_split (p : Nat → Bool) (l : List Nat) (y : Nat) (F : List Nat)
    (h : l.filter p = y :: F) :
    ∃ A B, l = A ++ y :: B ∧ (∀ x ∈ A, p x = false) ∧ p y = true ∧ B.filter p = F := by
  induction l with
  | nil => simp at h
  | cons a l ih =>
    by_cases ha : p a = true
    · rw [List.filter_cons_of_pos ha] at h
      injection h with h1 h2
      subst h1
      exact ⟨[], l, rfl, by simp, ha, h2⟩
    · rw [List.filter_cons_of_neg ha] at h
      obtain ⟨A, B, e, hA, hy, hB⟩ := ih h
      refine ⟨a :: A, B, by rw [e]; rfl, ?_, hy, hB⟩
      intro x hx
      rcases List.mem_cons.1 hx with rfl | hx
      · simpa using ha
      · exact hA x hx

/-- When the instructions the numbering skips carry the number 0, as they do
in a state no pass has written to, `getNextInstr` gives for every substantive
instruction of the numbered function the next substantive instruction of its
block, and null when there is none. -/
theorem getNextInstr_on_zeroed (P : Program) (v : Bool) (fuel : Nat) (MF : MachineFunction)
    (st st2 : PassState) (hwf : WellFormed P MF)
    (hnd : ((layout P MF.blocks).filter P.isActualInstr).Nodup)
    (hzero : ∀ x, P.isActualInstr x = false → st.InstructionNumber x = 0)
    (hrun : runOnMachineFunction P v fuel MF st = some st2)
    (MI : Nat) (hMI : MI ∈ (layout P MF.blocks).filter P.isActualInstr) :
    getNextInstr P st2.InstructionNumber MI = some (nextSubstantive P MI) := by
  obtain ⟨⟨c, st1, hnum, hn1, -⟩, -, -⟩ := run_spec P v fuel MF st st2 hrun
  have hmap : ((layout P MF.blocks).filter P.isActualInstr).map st2.InstructionNumber
      = List.range' 0 ((layout P MF.blocks).filter P.isActualInstr).length := by
    rw [hn1, hnum.numbers hnd]
  have hz2 : ∀ x, P.isActualInstr x = false → st2.InstructionNumber x = 0 := by
    intro x hx
    rw [hn1, hnum.keep x (by simp [List.mem_filter, hx]), hzero x hx]
  have ha : P.isActualInstr MI = true := (List.mem_filter.1 hMI).2
  obtain ⟨b, hb, hMIb⟩ := (mem_layout P MF.blocks MI).1 (List.mem_of_mem_filter hMI)
  have hpar : P.getParent MI = b := hwf.2.2 b hb MI hMIb
  obtain ⟨l2, s, h1, h2, h3, hidx⟩ :=
    block_numbers P st2.InstructionNumber MF.blocks _ b MI hb hMIb hmap
  have hfMI : (MI :: l2).filter P.isActualInstr = MI :: l2.filter P.isActualInstr := by
    simp [List.filter_cons, ha]
  rw [hfMI] at hidx
  have hnMI : st2.InstructionNumber MI
      = s + (((P.insts b).takeWhile (fun i => i != MI)).filter P.isActualInstr).length :=
    hidx _ MI _ rfl
  have hle : ∀ x ∈ (P.insts b).takeWhile (fun i => i != MI),
      st2.InstructionNumber x ≤ st2.InstructionNumber MI := by
    intro x hx
    by_cases hxa : P.isActualInstr x = true
    · obtain ⟨X1, Y1, hXY⟩ := List.append_of_mem (List.mem_filter.2 ⟨hx, hxa⟩)
      have := hidx X1 x (Y1 ++ MI :: l2.filter P.isActualInstr) (by rw [hXY]; simp)
      rw [hnMI, hXY, this]
      simp only [List.length_append, List.length_cons]
      omega
    · rw [hz2 x (by simpa using hxa)]
      exact Nat.zero_le _
  have hnext : nextSubstantive P MI = (l2.filter P.isActualInstr).head? := by
    unfold nextSubstantive
    rw [hpar, h1]
    rfl
  have hlast : getLastActualInstr P b
      = ((((P.insts b).takeWhile (fun i => i != MI)).filter P.isActualInstr)
          ++ MI :: l2.filter P.isActualInstr).getLast? := by
    unfold getLastActualInstr
    conv_lhs => rw [h2, List.filter_append, hfMI]
  unfold getNextInstr
  simp only []
  rw [hpar, hlast, hnext]
  cases hF : l2.filter P.isActualInstr with
  | nil =>
    rw [List.getLast?_append_cons, List.getLast?_singleton]
    simp
  | cons y F =>
    obtain ⟨A, B, hl2, hA, hya, -⟩ := filter_head_split P.isActualInstr l2 y F hF
    rw [hF] at hidx
    have hny : st2.InstructionNumber y = st2.InstructionNumber MI + 1 := by
      have := hidx (((P.insts b).takeWhile (fun i => i != MI)).filter P.isActualInstr ++ [MI])
        y F (by simp)
      rw [this, hnMI]
      simp only [List.length_append, List.length_singleton]
      omega
    obtain ⟨z, hz⟩ : ∃ z, (((P.insts b).takeWhile (fun i => i != MI)).filter P.isActualInstr
        ++ MI :: y :: F).getLast? = some z := by
      cases hq : (((P.insts b).takeWhile (fun i => i != MI)).filter P.isActualInstr
        ++ MI :: y :: F).getLast? with
      | none => simp at hq
      | some z => exact ⟨z, rfl⟩
    have hzlt : st2.InstructionNumber MI < st2.InstructionNumber z := by
      obtain ⟨ys, hys⟩ := List.getLast?_eq_some_iff.1 hz
      have hlen := congrArg List.length hys
      simp only [List.length_append, List.length_cons, List.length_nil] at hlen
      have := hidx ys z [] hys
      rw [this, hnMI]
      omega
    rw [hz]
    simp only [if_pos hzlt, List.head?_cons]
    have hsplit : P.insts b
        = ((P.insts b).takeWhile (fun i => i != MI) ++ MI :: A) ++ y :: B := by
      conv_lhs => rw [h2, hl2]
      simp
    rw [hsplit, scanPast_skip st2.InstructionNumber _ _ y B ?_ (by omega)]
    · simp [skipToActual, hya]
    · intro x hx
      rcases List.mem_append.1 hx with hx | hx
      · exact hle x hx
      · rcases List.mem_cons.1 hx with rfl | hx
        · exact le_refl _
        · rw [hz2 x (hA x hx)]
          exact Nat.zero_le _

/-- C19, the defect.  The scan of `getNextInstr` compares the number field of
every instruction of the block, also of those the numbering skipped.  On the
well-formed function `staleF`, with the field of the debug instruction 20
holding 9 when the pass starts, the pass numbers 21 with 2 and 22 with 3, and
the call on the substantive instruction 21 stops the scan at 20 and returns 21
itself, where the next substantive instruction of the block is the conditional
branch 22.  The nested branch 22 is then missing from the dependents of the
branch 11, which hold it when the field of 20 is 0. -/
theorem getNextInstr_returns_its_argument :
    WellFormed staleP staleF ∧
    ((layout staleP staleF.blocks).filter staleP.isActualInstr).Nodup ∧
    runOnMachineFunction staleP false 20 staleF staleStart = some staleState ∧
    21 ∈ (layout staleP staleF.blocks).filter staleP.isActualInstr ∧
    [10, 11, 20, 21, 22].map staleState.InstructionNumber = [0, 1, 9, 2, 3] ∧
    nextSubstantive staleP 21 = some 22 ∧
    getNextInstr staleP staleState.InstructionNumber 21 = some (some 21) ∧
    getNextInstr staleP staleState.InstructionNumber 21 ≠ some (nextSubstantive staleP 21) ∧
    staleState.dependent_insts 11 = [21] ∧
    runOnMachineFunction staleP false 20 staleF freshState = some staleFreshState ∧
    getNextInstr staleP staleFreshState.InstructionNumber 21 = some (some 22) ∧
    staleFreshState.dependent_insts 11 = [21, 22] :=
  ⟨by decide, by decide, rfl, by decide, by decide, by decide, by decide, by decide,
    by decide, rfl, by decide, by decide⟩

theorem digitValue_digitChar (k : Nat) (h : k < 10) : digitValue (Nat.digitChar k) = k := by
  interval_cases k <;> rfl

theorem decimalValue_toDigitsCore (fuel : Nat) : ∀ (n : Nat) (ds : List Char), n < fuel →
    decimalValue 0 (Nat.toDigitsCore 10 fuel n ds) = decimalValue n ds := by
  induction fuel with
  | zero => intro n ds h; omega
  | succ fuel ih =>
    intro n ds h
    have hd : digitValue (Nat.digitChar (n % 10)) = n % 10 :=
      digitValue_digitChar _ (Nat.mod_lt _ (by decide))
    unfold Nat.toDigitsCore
    simp only []
    by_cases h0 : n / 10 = 0
    · rw [if_pos h0]
      show decimalValue (10 * 0 + digitValue (Nat.digitChar (n % 10))) ds = _
      rw [hd]
      congr 1
      omega
    · rw [if_neg h0, ih (n / 10) _ (by omega)]
      show decimalValue (10 * (n / 10) + digitValue (Nat.digitChar (n % 10))) ds = _
      rw [hd]
      congr 1
      omega

theorem toString_nat_injective (a b : Nat) (h : toString a = toString b) : a = b := by
  have h1 : Nat.toDigits 10 a = Nat.toDigits 10 b := congrArg String.data h
  have ha := decimalValue_toDigitsCore (a + 1) a [] (Nat.lt_succ_self a)
  have hb := decimalValue_toDigitsCore (b + 1) b [] (Nat.lt_succ_self b)
  unfold Nat.toDigits at h1
  rw [h1, hb] at ha
  exact ha.symm

theorem dependentLine_injective (num : Nat → Nat) (functionNumber x y : Nat)
    (h : dependentLine num functionNumber x = dependentLine num functionNumber y) :
    num x = num y := by
  unfold dependentLine at h
  have h1 := congrArg String.data h
  simp only [String.data_append, List.append_assoc] at h1
  have h2 := List.append_cancel_right h1
  exact toString_nat_injective _ _ (String.ext h2)

/-- On a well-formed function analysed from an empty universe, every substantive
member of the dependent set of an analysed branch is a substantive instruction
of the function. -/
theorem run_substantive_dependents (P : Program) (v : Bool) (fuel : Nat)
    (MF : MachineFunction) (st st2 : PassState) (hwf : WellFormed P MF)
    (hfresh : st.total_actual_insts = [])
    (hrun : runOnMachineFunction P v fuel MF st = some st2)
    (MBB R inst : Nat) (hA : Analysed P MF MBB R inst) :
    ∀ x ∈ st2.dependent_insts inst, P.isActualInstr x = true →
      x ∈ (layout P MF.blocks).filter P.isActualInstr := by
  obtain ⟨-, cd, dd, hres⟩ := run_branch_result P v fuel MF st st2 hwf hrun MBB R inst hA
  have hT : ∀ x, x ∈ st2.total_actual_insts ↔
      x ∈ (layout P MF.blocks).filter P.isActualInstr := by
    intro x
    rw [run_universe P v fuel MF st st2 hrun x, hfresh]
    simp
  obtain ⟨rb, hrb, hcd, -⟩ := branchSets_some P _ _ fuel MBB R inst cd dd hres.1
  obtain ⟨hrbm, -, -⟩ := reachableBlocks_spec P fuel MBB R MF.blocks rb hwf.1 hA.1 hrb
  intro x hx ha
  rw [hres.2, mem_mergeDependents] at hx
  rcases hx with h1 | h1 | h1
  · have hx := h1.1
    rw [hcd, mem_collectInsts] at hx
    rcases hx with hx | ⟨b, hb, hxb⟩
    · simp at hx
    · exact List.mem_filter.2 ⟨(mem_layout P MF.blocks x).2 ⟨b, hrbm b hb, hxb⟩, ha⟩
  · rcases branchSets_sound P _ _ fuel MBB R inst cd dd hres.1 x h1.1 with
      h2 | ⟨d, hd, hda, hn, -⟩
    · exact (hT x).1 h2.2
    · have hdL := (hT d).1 hd
      obtain ⟨b, hb, hdb⟩ := (mem_layout P MF.blocks d).1 (List.mem_of_mem_filter hdL)
      have hxb := (getNextInstr_some P _ d x hn).2
      rw [hwf.2.2 b hb d hdb] at hxb
      exact List.mem_filter.2 ⟨(mem_layout P MF.blocks x).2 ⟨b, hb, hxb⟩, ha⟩
  · simp at h1

/-- C9 (the claim as it stands fails).  The header of the record of the branch
11 of the chain function is `* 1  10000`, with two spaces between the number of
the branch and the function identifier, not one.  In the function of `labelsP`
the members 30 and 31 of the dependent set of the branch 11 are not substantive
and were never numbered; both are listed under the identifier 0 their number
field holds, so the record has the line `0 10000` twice.  For the function with
the number 4294967295 the identifier on every line is 9999, which is 10000 plus
that number in `unsigned` arithmetic. -/
theorem record_departs_from_grammar :
    runOnMachineFunction nestedP false 20 nestedF freshState = some nestedState ∧
    branchRecord nestedP nestedState 10000 11 = "* 1  10000\n0 10000\n4 10000\n---\n" ∧
    branchRecord nestedP nestedState 10000 11 ≠ "* 1 10000\n0 10000\n4 10000\n---\n" ∧
    WellFormed labelsP labelsF ∧
    (∀ i, labelsP.isActualInstr i = true → labelsP.isDebugInstr i = false) ∧
    runOnMachineFunction labelsP false 20 labelsF freshState = some labelsState ∧
    labelsState.dependent_insts 11 = [30, 31, 32] ∧
    labelsState.info = "* 1  10000\n0 10000\n0 10000\n3 10000\n---\n" ∧
    lastF.getFunctionNumber = 4294967295 ∧
    runOnMachineFunction labelsP false 20 lastF freshState = some lastState ∧
    lastState.info = "* 1  9999\n0 9999\n0 9999\n3 9999\n---\n" ∧
    10000 + lastF.getFunctionNumber ≠ 9999 := by
  refine ⟨rfl, by decide, by decide, by decide, fun _ _ => rfl, rfl, by decide, by decide,
    rfl, rfl, by decide, by decide⟩

/-- C9 (amended).  When substantive instructions are no debug instructions, the
record of every analysed branch is the header line made of a star, one space,
the number of the branch, two spaces and the function identifier, then one line
`<number> <function identifier>` per member of the dependent set, no member
twice, then the line `---`; the function identifier is 10000 plus the number of
the function modulo 2^32, which is 10000 plus the number of the function when
that is below 2^32, and the report is extended by these records.  On a
well-formed function with distinct substantive instructions, at most 2^32 of
them, analysed from an empty universe, the lines of the substantive members are
pairwise different.  The pass returns on every well-formed function. -/
theorem report_record_grammar (P : Program) (v : Bool) (MF : MachineFunction)
    (st : PassState) (hAD : ∀ i, P.isActualInstr i = true → P.isDebugInstr i = false) :
    (WellFormed P MF → UniverseInBlocks P st →
      ∃ fuel st2, runOnMachineFunction P v fuel MF st = some st2) ∧
    (10000 + MF.getFunctionNumber < 4294967296 →
      (10000 + MF.getFunctionNumber) % 4294967296 = 10000 + MF.getFunctionNumber) ∧
    ∀ fuel st2, runOnMachineFunction P v fuel MF st = some st2 →
      st2.info = st.info ++ reportOf P st2 ((10000 + MF.getFunctionNumber) % 4294967296)
        (analysedBranches P MF MF.blocks) ∧
      ∀ MBB R inst, Analysed P MF MBB R inst →
        branchRecord P st2 ((10000 + MF.getFunctionNumber) % 4294967296) inst
          = "* " ++ toString (st2.InstructionNumber inst) ++ "  "
              ++ toString ((10000 + MF.getFunctionNumber) % 4294967296) ++ "\n"
              ++ linesOf st2.InstructionNumber ((10000 + MF.getFunctionNumber) % 4294967296)
                  (st2.dependent_insts inst)
              ++ "---\n" ∧
        (st2.dependent_insts inst).Nodup ∧
        (WellFormed P MF → st.total_actual_insts = [] →
          ((layout P MF.blocks).filter P.isActualInstr).Nodup →
          ((layout P MF.blocks).filter P.isActualInstr).length ≤ 4294967296 →
          (((st2.dependent_insts inst).filter P.isActualInstr).map
            (dependentLine st2.InstructionNumber
              ((10000 + MF.getFunctionNumber) % 4294967296))).Nodup) := by
  refine ⟨?_, fun h => Nat.mod_eq_of_lt h, ?_⟩
  · intro hwf hold
    obtain ⟨fuel0, h⟩ := run_total P v MF st hwf hold
    obtain ⟨st2, hst2⟩ := h fuel0 (le_refl _)
    exact ⟨fuel0, st2, hst2⟩
  · intro fuel st2 hrun
    obtain ⟨⟨c, st1, hnum, hn1, -⟩, hres, hinfo⟩ := run_spec P v fuel MF st st2 hrun
    refine ⟨hinfo, ?_⟩
    intro MBB R inst hA
    rcases hres inst with ⟨_, _, cd, dd, -, -, hr⟩ | ⟨hn, -⟩
    · have hnodebug : ∀ x ∈ st2.dependent_insts inst, P.isDebugInstr x = false := by
        rw [hr.2]
        exact mergeDependents_no_debug P hAD cd dd
      have hnodup : (st2.dependent_insts inst).Nodup := by
        rw [hr.2]
        exact (mergeDependents_sorted P cd dd [] (by simp)).nodup
      refine ⟨?_, hnodup, ?_⟩
      · unfold branchRecord
        rw [dependentLines_eq_linesOf, List.filter_eq_self.2]
        intro x hx
        simp [hnodebug x hx]
      · intro hwf hfresh hnd _
        have hmem := run_substantive_dependents P v fuel MF st st2 hwf hfresh hrun MBB R inst hA
        have hnums : (((layout P MF.blocks).filter P.isActualInstr).map
            st2.InstructionNumber).Nodup := by
          rw [hn1, hnum.numbers hnd]
          exact List.nodup_range' _ _
        refine List.Nodup.map_on ?_ (hnodup.filter _)
        intro x hx y hy hxy
        have hx2 := List.mem_filter.1 hx
        have hy2 := List.mem_filter.1 hy
        exact List.inj_on_of_nodup_map hnums (hmem x hx2.1 hx2.2) (hmem y hy2.1 hy2.2)
          (dependentLine_injective _ _ x y hxy)
    · exact absurd ⟨MBB, R, hA⟩ hn

/-- C9 (amended), on the loop function, which has the number 7: the record of
the branch 11, whose five lines are pairwise different. -/
theorem report_record_grammar_witness :
    (∀ i, loopP.isActualInstr i = true → loopP.isDebugInstr i = false) ∧
    WellFormed loopP loopF ∧ UniverseInBlocks loopP freshState ∧
    freshState.total_actual_insts = [] ∧
    ((layout loopP loopF.blocks).filter loopP.isActualInstr).Nodup ∧
    ((layout loopP loopF.blocks).filter loopP.isActualInstr).length ≤ 4294967296 ∧
    10000 + loopF.getFunctionNumber < 4294967296 ∧
    runOnMachineFunction loopP false 20 loopF freshState = some loopState ∧
    loopState.dependent_insts 11 = [10, 11, 20, 30, 31] ∧
    branchRecord loopP loopState 10007 11
      = "* 1  10007\n0 10007\n1 10007\n2 10007\n3 10007\n4 10007\n---\n" ∧
    ([10, 11, 20, 30, 31].map (dependentLine loopState.InstructionNumber 10007)).Nodup := by
  have hAD : ∀ i, loopP.isActualInstr i = true → loopP.isDebugInstr i = false := by
    intro i hi
    show (i == 21) = false
    have : (i != 21) = true := hi
    simpa using this
  have hwf : WellFormed loopP loopF := by decide
  have h := ((report_record_grammar loopP false loopF freshState hAD).2.2
    20 loopState rfl).2 1 4 11 (by decide)
  have hlines := h.2.2 hwf rfl (by decide) (by decide)
  have hmod := (report_record_grammar loopP false loopF freshState hAD).2.1 (by decide)
  have hdeps : (loopState.dependent_insts 11).filter loopP.isActualInstr
      = [10, 11, 20, 30, 31] := by decide
  rw [hdeps, hmod] at hlines
  refine ⟨hAD, hwf, by decide, rfl, by decide, by decide, by decide, rfl, by decide, ?_, hlines⟩
  exact h.1.trans (by decide)

end Levioso
